import Mathlib

/-!
# Verification of the ncrlite set-compression codec

Shallow embedding of the `ncrlite` Go package: the bit-level I/O layer
(`bitWriter` / `bitReader`), the canonical Huffman coder over bitlength
symbols, the compression pipeline (`Compress` / `CompressSorted`) and the
incremental decompressor (`Decompressor.Read`, `Decompress`).

Machine integers (`uint64`, `byte`, `int8`) are modelled as `Nat` (or `Int`
for `int8` arithmetic) with explicit reductions modulo `2 ^ 64` / `2 ^ 8`
where the Go code can overflow.  Go slices become `List Nat`; the `io.Writer`
sink and `io.Reader` source become pure byte lists.  Go `for` loops that are
not structurally recursive are written with an explicit fuel argument whose
sufficiency is established by the lemmas that use them.
-/

set_option maxRecDepth 10000

namespace Ncrlite

/-- `2 ^ 64`, the modulus of Go's `uint64` arithmetic. -/
def M64 : Nat := 2 ^ 64

/-! ## Bit strings

The wire format is a little-endian bit stream: bits are emitted least
significant first and packed into bytes, the first bit of the stream being
the least significant bit of the first byte.  We denote bit streams by
`List Bool` and relate all writer/reader state to them. -/

/-- The low `n` bits of `x`, least significant first. -/
def lowBits : Nat → Nat → List Bool
  | _, 0 => []
  | x, n + 1 => (x % 2 == 1) :: lowBits (x / 2) n

/-- Read back a least-significant-first bit list as a number. -/
def bitsToNat : List Bool → Nat
  | [] => 0
  | b :: bs => (if b then 1 else 0) + 2 * bitsToNat bs

@[simp] theorem lowBits_zero (x : Nat) : lowBits x 0 = [] := rfl

theorem lowBits_succ (x n : Nat) :
    lowBits x (n + 1) = (x % 2 == 1) :: lowBits (x / 2) n := rfl

@[simp] theorem length_lowBits (n x : Nat) : (lowBits x n).length = n := by
  induction n generalizing x with
  | zero => rfl
  | succ n ih => simp [lowBits_succ, ih]

@[simp] theorem bitsToNat_nil : bitsToNat [] = 0 := rfl

theorem bitsToNat_cons (b : Bool) (bs : List Bool) :
    bitsToNat (b :: bs) = (if b then 1 else 0) + 2 * bitsToNat bs := rfl

theorem bitsToNat_lt (bs : List Bool) : bitsToNat bs < 2 ^ bs.length := by
  induction bs with
  | nil => simp [bitsToNat]
  | cons b bs ih =>
      have : 2 ^ (b :: bs).length = 2 * 2 ^ bs.length := by
        simp [List.length_cons, pow_succ, Nat.mul_comm]
      rw [this, bitsToNat_cons]
      cases b <;> simp <;> omega

theorem bitsToNat_lowBits (x n : Nat) : bitsToNat (lowBits x n) = x % 2 ^ n := by
  induction n generalizing x with
  | zero => simp [bitsToNat, Nat.mod_one]
  | succ n ih =>
      rw [lowBits_succ, bitsToNat_cons, ih]
      have h2 : x % 2 ^ (n + 1) = x % 2 + 2 * (x / 2 % 2 ^ n) := by
        have hp : (0:Nat) < 2 ^ n := Nat.pos_pow_of_pos n (by norm_num)
        have hq : x / 2 % 2 ^ n < 2 ^ n := Nat.mod_lt _ hp
        have hsplit : x = 2 * (x / 2) + x % 2 := by omega
        conv_lhs => rw [hsplit]
        rw [pow_succ', Nat.add_mod, Nat.mul_mod_mul_left,
          Nat.mod_eq_of_lt (show x % 2 < 2 * 2 ^ n by omega),
          Nat.mod_eq_of_lt (show 2 * (x / 2 % 2 ^ n) + x % 2 < 2 * 2 ^ n by omega)]
        omega
      rcases Nat.mod_two_eq_zero_or_one x with h | h <;> simp [h, h2]

theorem lowBits_bitsToNat (bs : List Bool) : lowBits (bitsToNat bs) bs.length = bs := by
  induction bs with
  | nil => rfl
  | cons b bs ih =>
      rw [List.length_cons, lowBits_succ, bitsToNat_cons]
      have hm : ((if b then 1 else 0) + 2 * bitsToNat bs) % 2 = if b then 1 else 0 := by
        cases b <;> simp [Nat.add_mul_mod_self_left]
      have hd : ((if b then 1 else 0) + 2 * bitsToNat bs) / 2 = bitsToNat bs := by
        cases b <;> simp <;> omega
      rw [hm, hd, ih]
      cases b <;> simp

theorem lowBits_mod (x n : Nat) : lowBits (x % 2 ^ n) n = lowBits x n := by
  induction n generalizing x with
  | zero => rfl
  | succ n ih =>
      rw [lowBits_succ, lowBits_succ]
      have h1 : x % 2 ^ (n + 1) % 2 = x % 2 := by
        rw [Nat.mod_mod_of_dvd _ (dvd_pow_self 2 (Nat.succ_ne_zero n))]
      have h2 : x % 2 ^ (n + 1) / 2 = x / 2 % 2 ^ n := by
        rw [pow_succ, Nat.mul_comm, Nat.mod_mul_right_div_self]
      rw [h1, h2, ih]

theorem lowBits_append (x m n : Nat) :
    lowBits x (m + n) = lowBits x m ++ lowBits (x / 2 ^ m) n := by
  induction m generalizing x with
  | zero => simp
  | succ m ih =>
      have : m + 1 + n = (m + n) + 1 := by omega
      rw [this, lowBits_succ, lowBits_succ, ih, List.cons_append]
      have : x / 2 ^ m / 2 = x / 2 / 2 ^ m := by
        rw [Nat.div_div_eq_div_mul, Nat.div_div_eq_div_mul, Nat.mul_comm]
      rw [← this, Nat.div_div_eq_div_mul, ← pow_succ]

theorem bitsToNat_append (a b : List Bool) :
    bitsToNat (a ++ b) = bitsToNat a + 2 ^ a.length * bitsToNat b := by
  induction a with
  | nil => simp
  | cons x a ih =>
      rw [List.cons_append, bitsToNat_cons, bitsToNat_cons, ih, List.length_cons]
      ring

theorem lowBits_of_lt (x m n : Nat) (hm : n ≤ m) (h : x < 2 ^ n) :
    lowBits x m = lowBits x n ++ List.replicate (m - n) false := by
  induction n generalizing x m with
  | zero =>
      interval_cases x
      induction m with
      | zero => rfl
      | succ m ihm => simp_all [lowBits_succ, List.replicate_succ]
  | succ n ih =>
      match m, hm with
      | m + 1, hm =>
        rw [lowBits_succ, lowBits_succ, ih (x / 2) m (by omega)
          (Nat.div_lt_of_lt_mul (by rw [← pow_succ'] ; exact h))]
        simp

/-- The bits of a byte list, least-significant bit of the first byte first. -/
def bytesToBits (bs : List Nat) : List Bool := bs.flatMap (fun b => lowBits b 8)

@[simp] theorem bytesToBits_nil : bytesToBits [] = [] := rfl

theorem bytesToBits_cons (b : Nat) (bs : List Nat) :
    bytesToBits (b :: bs) = lowBits b 8 ++ bytesToBits bs := rfl

theorem bytesToBits_append (a b : List Nat) :
    bytesToBits (a ++ b) = bytesToBits a ++ bytesToBits b := by
  simp [bytesToBits]

@[simp] theorem length_bytesToBits (bs : List Nat) :
    (bytesToBits bs).length = 8 * bs.length := by
  induction bs with
  | nil => rfl
  | cons b bs ih => simp [bytesToBits_cons, ih]; omega

/-- `a ||| (b <<< k) = a + b <<< k` whenever `a` fits in `k` bits: the
bitwise-or operations of the codec all splice disjoint bit ranges. -/
theorem lor_shiftLeft_eq_add (k a b : Nat) (h : a < 2 ^ k) :
    a ||| (b <<< k) = a + b * 2 ^ k := by
  induction k generalizing a b with
  | zero =>
      interval_cases a
      simp [Nat.shiftLeft_eq]
  | succ k ih =>
      have ha2 : a / 2 < 2 ^ k := by
        apply Nat.div_lt_of_lt_mul
        rw [← pow_succ']
        exact h
      have hbit : ∀ (c : Bool) (m : Nat), Nat.bit c m = 2 * m + (if c then 1 else 0) := by
        intro c m
        cases c <;> simp [Nat.bit] <;> omega
      have hA : a = Nat.bit (a % 2 == 1) (a / 2) := by
        rw [hbit]
        rcases Nat.mod_two_eq_zero_or_one a with h2 | h2 <;> simp [h2] <;> omega
      have hB : b <<< (k + 1) = Nat.bit false (b <<< k) := by
        rw [hbit]
        simp only [if_neg (by simp : ¬(false = true)), Nat.shiftLeft_eq, pow_succ]
        ring
      calc a ||| (b <<< (k + 1))
      _ = Nat.bit (a % 2 == 1) (a / 2) ||| Nat.bit false (b <<< k) := by rw [← hA, ← hB]
      _ = Nat.bit ((a % 2 == 1) || false) (a / 2 ||| b <<< k) := Nat.lor_bit _ _ _ _
      _ = Nat.bit (a % 2 == 1) (a / 2 + b * 2 ^ k) := by rw [Bool.or_false, ih _ _ ha2]
      _ = a + b * 2 ^ (k + 1) := by
        rw [hbit]
        have := Nat.div_add_mod a 2
        rcases Nat.mod_two_eq_zero_or_one a with h2 | h2 <;>
          simp [h2, pow_succ] <;> ring_nf <;> omega

theorem lor_shiftLeft_eq_add' (k a b : Nat) (h : a < 2 ^ k) :
    a ||| (b <<< k) = a + (b <<< k) := by
  rw [lor_shiftLeft_eq_add k a b h, Nat.shiftLeft_eq]

/-- `lowBits` of a spliced value: splicing `b` above bit `k` of `a` appends
the bits of `b` after the `k` bits of `a`. -/
theorem lowBits_lor_shiftLeft (k a b n : Nat) (h : a < 2 ^ k) :
    lowBits (a ||| (b <<< k)) (k + n) = lowBits a k ++ lowBits b n := by
  rw [lor_shiftLeft_eq_add k a b h, lowBits_append]
  congr 1
  · rw [← lowBits_mod, Nat.add_mul_mod_self_right, Nat.mod_eq_of_lt h]
  · rw [Nat.add_mul_div_right _ _ (Nat.pos_pow_of_pos k (by norm_num)),
      Nat.div_eq_of_lt h, Nat.zero_add]

/-! ## The bit writer (`bitio.go`, `bitWriter`)

Go state: a `bufio.Writer` sink, a 64-bit accumulator `buf` and a bit count
`offset`.  The sink is modelled as the pure list `out` of bytes written so
far (the codec never sees a sink error for an in-memory sink, so the sticky
`err` field is always `nil` and is omitted). -/

structure BitWriter where
  out : List Nat
  buf : Nat
  offset : Nat
  deriving Repr, DecidableEq

def newBitWriter : BitWriter := ⟨[], 0, 0⟩

/-- The 8 bytes of `binary.LittleEndian.PutUint64`. -/
def le8 (x : Nat) : List Nat :=
  [x % 256, x >>> 8 % 256, x >>> 16 % 256, x >>> 24 % 256,
   x >>> 32 % 256, x >>> 40 % 256, x >>> 48 % 256, x >>> 56 % 256]

/-- `bitWriter.WriteBits`: splice the low `l` bits of `bs` into the
accumulator at position `offset`; on crossing 64 bits flush the accumulator
as 8 little-endian bytes. -/
def BitWriter.WriteBits (w : BitWriter) (bs l : Nat) : BitWriter :=
  let buf' := (w.buf ||| (bs <<< w.offset)) % M64
  if w.offset + l < 64 then
    { w with buf := buf', offset := w.offset + l }
  else
    { out := w.out ++ le8 buf',
      buf := bs >>> (64 - w.offset),
      offset := l - (64 - w.offset) }

/-- The trailing-byte loop of `bitWriter.Close` (`for w.offset > 0`).  The
loop runs at most 8 times since `offset < 64`; the fuel argument makes this
explicit. -/
def closeAux : Nat → Nat → Nat → List Nat
  | _, _, 0 => []
  | buf, offset, fuel + 1 =>
    if offset = 0 then [] else buf % 256 :: closeAux (buf >>> 8) (offset - 8) fuel

/-- `bitWriter.Close`: flush the remaining accumulator bits as bytes
(zero-padding the last byte) and return the full byte stream written. -/
def BitWriter.Close (w : BitWriter) : List Nat := w.out ++ closeAux w.buf w.offset 8

/-- `bitWriter.WriteUvarint`'s loop, with explicit fuel.  For `x < 2 ^ 64`
the loop body runs at most 10 times, so fuel 10 is exact. -/
def writeUvarintAux : Nat → Nat → BitWriter → BitWriter
  | 0, _, w => w
  | fuel + 1, x, w =>
    if 0x80 ≤ x then
      writeUvarintAux fuel (x >>> 7) (w.WriteBits ((x % 256) ||| 0x80) 8)
    else
      w.WriteBits (x % 256) 8

def BitWriter.WriteUvarint (w : BitWriter) (x : Nat) : BitWriter :=
  writeUvarintAux 10 x w

/-- Denotation: the bits emitted so far, in wire order. -/
def BitWriter.bits (w : BitWriter) : List Bool :=
  bytesToBits w.out ++ lowBits w.buf w.offset

/-- Structural invariant of the writer. -/
def BitWriter.WF (w : BitWriter) : Prop :=
  w.buf < 2 ^ w.offset ∧ w.offset < 64 ∧ ∀ b ∈ w.out, b < 256

theorem newBitWriter_WF : newBitWriter.WF := by
  refine ⟨by norm_num [newBitWriter], by norm_num [newBitWriter], ?_⟩
  intro b hb
  simp [newBitWriter] at hb

@[simp] theorem newBitWriter_bits : newBitWriter.bits = [] := rfl

theorem le8_lt (x : Nat) : ∀ b ∈ le8 x, b < 256 := by
  intro b hb
  simp only [le8, List.mem_cons, List.not_mem_nil, or_false] at hb
  rcases hb with h | h | h | h | h | h | h | h <;> subst h <;>
    exact Nat.mod_lt _ (by norm_num)

theorem shiftRight_shiftRight (x a b : Nat) : x >>> a >>> b = x >>> (a + b) := by
  simp [Nat.shiftRight_eq_div_pow, Nat.div_div_eq_div_mul, pow_add]

theorem lowBits_add8 (x n : Nat) :
    lowBits x (8 + n) = lowBits (x % 256) 8 ++ lowBits (x >>> 8) n := by
  rw [lowBits_append, Nat.shiftRight_eq_div_pow]
  congr 1
  exact (lowBits_mod x 8).symm

theorem bytesToBits_le8 (x : Nat) : bytesToBits (le8 x) = lowBits x 64 := by
  have h64 : (64 : Nat) = 8 + (8 + (8 + (8 + (8 + (8 + (8 + 8)))))) := by norm_num
  rw [h64, lowBits_add8, lowBits_add8, lowBits_add8, lowBits_add8, lowBits_add8,
    lowBits_add8, lowBits_add8]
  simp only [shiftRight_shiftRight]
  have h8 : ∀ y : Nat, lowBits (y % 256) 8 = lowBits y 8 := by
    intro y
    exact lowBits_mod y 8
  simp only [le8, bytesToBits_cons, bytesToBits_nil, List.append_nil, h8,
    List.append_assoc]

/-- Core writer lemma: `WriteBits` appends exactly the low `l` bits of `bs`
to the stream and preserves the invariant. -/
theorem WriteBits_bits (w : BitWriter) (bs l : Nat) (hw : w.WF)
    (hbs : bs < 2 ^ l) (hl : l ≤ 64) :
    (w.WriteBits bs l).bits = w.bits ++ lowBits bs l ∧ (w.WriteBits bs l).WF := by
  obtain ⟨hbuf, hoff, hout⟩ := hw
  have hV : w.buf ||| (bs <<< w.offset) = w.buf + bs * 2 ^ w.offset :=
    lor_shiftLeft_eq_add _ _ _ hbuf
  have hVlt : w.buf + bs * 2 ^ w.offset < 2 ^ (w.offset + l) := by
    have e1 : 2 ^ (w.offset + l) = 2 ^ l * 2 ^ w.offset := by
      rw [pow_add, Nat.mul_comm]
    have e2 : (1 + bs) * 2 ^ w.offset ≤ 2 ^ l * 2 ^ w.offset :=
      Nat.mul_le_mul_right _ (by omega)
    have e3 : (1 + bs) * 2 ^ w.offset = 2 ^ w.offset + bs * 2 ^ w.offset := by ring
    omega
  rw [BitWriter.WriteBits]
  by_cases hcase : w.offset + l < 64
  · have hVsmall : w.buf + bs * 2 ^ w.offset < M64 := by
      have e1 : 2 ^ (w.offset + l) ≤ 2 ^ 64 :=
        Nat.pow_le_pow_right (by norm_num) (by omega)
      have e2 : M64 = 2 ^ 64 := rfl
      omega
    have hmod : (w.buf ||| (bs <<< w.offset)) % M64 = w.buf + bs * 2 ^ w.offset := by
      rw [hV]
      exact Nat.mod_eq_of_lt hVsmall
    simp only [if_pos hcase]
    refine ⟨?_, ?_, hcase, hout⟩
    · show bytesToBits w.out ++ lowBits ((w.buf ||| bs <<< w.offset) % M64) (w.offset + l)
        = (bytesToBits w.out ++ lowBits w.buf w.offset) ++ lowBits bs l
      rw [hmod, ← hV, lowBits_lor_shiftLeft _ _ _ _ hbuf, List.append_assoc]
    · show (w.buf ||| bs <<< w.offset) % M64 < 2 ^ (w.offset + l)
      rw [hmod]
      exact hVlt
  · have hcase' : 64 ≤ w.offset + l := by omega
    simp only [if_neg hcase]
    have hVbits : lowBits (w.buf + bs * 2 ^ w.offset) (w.offset + l)
        = lowBits w.buf w.offset ++ lowBits bs l := by
      rw [← hV]
      exact lowBits_lor_shiftLeft _ _ _ _ hbuf
    have hsplit : w.offset + l = 64 + (l - (64 - w.offset)) := by omega
    have hshift : (w.buf + bs * 2 ^ w.offset) / 2 ^ 64 = bs >>> (64 - w.offset) := by
      have hd : bs * 2 ^ w.offset = (bs >>> (64 - w.offset)) * 2 ^ 64
          + (bs % 2 ^ (64 - w.offset)) * 2 ^ w.offset := by
        rw [Nat.shiftRight_eq_div_pow]
        have : 2 ^ 64 = 2 ^ (64 - w.offset) * 2 ^ w.offset := by
          rw [← pow_add]
          congr 1
          omega
        rw [this, ← Nat.mul_assoc, ← Nat.add_mul, Nat.div_add_mod']
      have hr : w.buf + (bs % 2 ^ (64 - w.offset)) * 2 ^ w.offset < 2 ^ 64 := by
        have h1 : bs % 2 ^ (64 - w.offset) ≤ 2 ^ (64 - w.offset) - 1 := by
          have := Nat.mod_lt bs (show (0:Nat) < 2 ^ (64 - w.offset) from
            Nat.pos_pow_of_pos _ (by norm_num))
          omega
        have h2 : (bs % 2 ^ (64 - w.offset)) * 2 ^ w.offset
            ≤ (2 ^ (64 - w.offset) - 1) * 2 ^ w.offset :=
          Nat.mul_le_mul_right _ h1
        have h3 : (2 ^ (64 - w.offset) - 1) * 2 ^ w.offset
            = 2 ^ (64 - w.offset) * 2 ^ w.offset - 2 ^ w.offset := by
          rw [Nat.sub_mul, Nat.one_mul]
        have h4 : 2 ^ (64 - w.offset) * 2 ^ w.offset = 2 ^ 64 := by
          rw [← pow_add]
          congr 1
          omega
        have h5 : (0:Nat) < 2 ^ w.offset := Nat.pos_pow_of_pos _ (by norm_num)
        have h6 : 2 ^ w.offset ≤ 2 ^ 64 :=
          Nat.pow_le_pow_right (by norm_num) (by omega)
        omega
      have hre : w.buf + bs * 2 ^ w.offset
          = (w.buf + bs % 2 ^ (64 - w.offset) * 2 ^ w.offset)
            + (bs >>> (64 - w.offset)) * 2 ^ 64 := by
        rw [hd]
        ring
      rw [hre, Nat.add_mul_div_right _ _ (show (0:Nat) < 2 ^ 64 by norm_num),
        Nat.div_eq_of_lt hr, Nat.zero_add]
    constructor
    · show bytesToBits (w.out ++ le8 ((w.buf ||| bs <<< w.offset) % M64))
        ++ lowBits (bs >>> (64 - w.offset)) (l - (64 - w.offset))
        = (bytesToBits w.out ++ lowBits w.buf w.offset) ++ lowBits bs l
      rw [bytesToBits_append, bytesToBits_le8, hV]
      rw [List.append_assoc, List.append_assoc, ← hVbits, hsplit, lowBits_append]
      simp only [M64]
      rw [lowBits_mod _ 64, hshift]
    · refine ⟨?_, ?_, ?_⟩
      · show bs >>> (64 - w.offset) < 2 ^ (l - (64 - w.offset))
        rw [Nat.shiftRight_eq_div_pow]
        apply Nat.div_lt_of_lt_mul
        rw [← pow_add]
        have he : 64 - w.offset + (l - (64 - w.offset)) = l := by omega
        rw [he]
        exact hbs
      · show l - (64 - w.offset) < 64
        omega
      · intro b hb
        rcases List.mem_append.mp hb with h | h
        · exact hout b h
        · exact le8_lt _ b h

/-- `Close` emits exactly the bits of the stream, zero-padded to a whole
number of bytes. -/
theorem closeAux_spec (fuel buf offset : Nat) (hb : buf < 2 ^ offset)
    (hf : offset ≤ 8 * fuel) :
    bytesToBits (closeAux buf offset fuel)
      = lowBits buf offset ++ List.replicate ((8 - offset % 8) % 8) false
    ∧ ∀ b ∈ closeAux buf offset fuel, b < 256 := by
  induction fuel generalizing buf offset with
  | zero =>
      have : offset = 0 := by omega
      subst this
      simp [closeAux]
  | succ fuel ih =>
      by_cases h0 : offset = 0
      · subst h0
        simp [closeAux]
      · rw [closeAux, if_neg h0]
        by_cases h8 : offset ≤ 8
        · have hstop : offset - 8 = 0 := by omega
          have hlow : lowBits buf 8
              = lowBits buf offset ++ List.replicate (8 - offset) false :=
            lowBits_of_lt buf 8 offset h8 hb
          have hrec : closeAux (buf >>> 8) (offset - 8) fuel = [] := by
            rw [hstop]
            cases fuel <;> simp [closeAux]
          rw [bytesToBits_cons, hrec]
          constructor
          · have h256 : (256:Nat) = 2 ^ 8 := rfl
            rw [bytesToBits_nil, List.append_nil, h256, lowBits_mod, hlow]
            congr 2
            omega
          · intro b hb'
            rcases List.mem_cons.mp hb' with h | h
            · subst h
              exact Nat.mod_lt _ (by norm_num)
            · simp at h
        · have hoffs : offset = 8 + (offset - 8) := by omega
          have hb' : buf >>> 8 < 2 ^ (offset - 8) := by
            rw [Nat.shiftRight_eq_div_pow]
            apply Nat.div_lt_of_lt_mul
            rw [← pow_add]
            have he : 8 + (offset - 8) = offset := by omega
            rw [he]
            exact hb
          obtain ⟨ihb, ihlt⟩ := ih (buf >>> 8) (offset - 8) hb' (by omega)
          constructor
          · rw [bytesToBits_cons, ihb]
            conv_rhs => rw [hoffs]
            rw [lowBits_add8]
            have hmod8 : (offset - 8) % 8 = offset % 8 := by
              conv_rhs => rw [hoffs]
              rw [Nat.add_comm 8 (offset - 8)]
              simp [Nat.add_mod_right]
            rw [hmod8, List.append_assoc]
            have hm2 : (8 + (offset - 8)) % 8 = offset % 8 := by omega
            rw [hm2]
          · intro b hb'
            rcases List.mem_cons.mp hb' with h | h
            · subst h
              exact Nat.mod_lt _ (by norm_num)
            · exact ihlt b h

theorem Close_bits (w : BitWriter) (hw : w.WF) :
    bytesToBits w.Close = w.bits ++ List.replicate ((8 - w.offset % 8) % 8) false
    ∧ ∀ b ∈ w.Close, b < 256 := by
  obtain ⟨hbuf, hoff, hout⟩ := hw
  obtain ⟨h1, h2⟩ := closeAux_spec 8 w.buf w.offset hbuf (by omega)
  constructor
  · rw [BitWriter.Close, bytesToBits_append, h1, BitWriter.bits, List.append_assoc]
  · intro b hb
    rcases List.mem_append.mp hb with h | h
    · exact hout b h
    · exact h2 b h

/-! ## The bit reader (`bitio.go`, `bitReader`)

Go state: a `bufio.Reader` source, a 64-bit accumulator `buf` holding `size`
unconsumed bits, and a sticky error.  The source is modelled as the pure
list `input` of bytes not yet pulled into the accumulator; `bufio.Read`
returns as many of the requested bytes as are available and `io.EOF` (with
count 0) at end of input. -/

/-- Error kinds of the codec.  `stuck` models a Go panic (out-of-range
index) or non-termination; it is never produced on the runs covered by the
theorems below. -/
inductive NErr where
  | eof
  | overflow
  | noMore
  | badEndmarker
  | invalidCodebook
  | stuck
  deriving Repr, DecidableEq

structure BitReader where
  input : List Nat
  buf : Nat
  size : Nat
  err : Option NErr
  deriving Repr, DecidableEq

def newBitReader (bytes : List Nat) : BitReader := ⟨bytes, 0, 0, none⟩

/-- `binary.LittleEndian.Uint64` / `Uint32` over a short byte list (the Go
code zero-fills the scratch buffer, which contributes nothing here). -/
def leNat : List Nat → Nat
  | [] => 0
  | b :: bs => b + 256 * leNat bs

/-- `bitReader.fill`: pull up to 8 bytes from the source into the
accumulator, replacing it.  Returns `false` (with a sticky `io.EOF`) when
the source is exhausted. -/
def BitReader.fill (r : BitReader) : Bool × BitReader :=
  if min 8 r.input.length = 0 then
    (false, { r with err := some .eof })
  else
    (true, { input := r.input.drop (min 8 r.input.length),
             buf := leNat (r.input.take (min 8 r.input.length)),
             size := 8 * min 8 r.input.length, err := r.err })

/-- The internal `bitReader.readBits` (lowercase): extract `l ≤ size` bits.
For `l ≤ 64` the Go mask `uint64(1<<l) - 1` equals `2 ^ l - 1` (at `l = 64`
the shift wraps to 0 and the mask is all ones). -/
def BitReader.readBitsI (r : BitReader) (l : Nat) : Nat × BitReader :=
  (r.buf &&& (2 ^ l - 1), { r with size := r.size - l, buf := r.buf >>> l })

/-- `bitReader.ReadBits` (capitalized): read `l ≤ 64` bits, refilling once
if the accumulator runs dry; on a failed refill it returns 0 with the error
recorded. -/
def BitReader.ReadBits (r : BitReader) (l : Nat) : Nat × BitReader :=
  if min l r.size = l then r.readBitsI l
  else
    match ((r.readBitsI (min l r.size)).2.fill) with
    | (false, r2) => (0, r2)
    | (true, r2) =>
      ((r.readBitsI (min l r.size)).1 ||| ((r2.readBitsI (l - min l r.size)).1 <<< min l r.size),
       (r2.readBitsI (l - min l r.size)).2)

/-- `bitReader.ReadBit`. -/
def BitReader.ReadBit (r : BitReader) : Nat × BitReader :=
  if r.size = 0 then
    match r.fill with
    | (false, r') => (0, r')
    | (true, r') => (r'.buf &&& 1, { r' with size := r'.size - 1, buf := r'.buf >>> 1 })
  else
    (r.buf &&& 1, { r with size := r.size - 1, buf := r.buf >>> 1 })

/-- `bitReader.PeekByte`: ensure at least 8 bits are buffered (reading up
to 4 source bytes) and return the low byte without consuming it.  Go loops
`for 8 > r.size`; since each successful read adds at least 8 bits to a
count below 8, a single refill always suffices. -/
def BitReader.PeekByte (r : BitReader) : Nat × BitReader :=
  if 8 ≤ r.size then (r.buf % 256, r)
  else if min 4 r.input.length = 0 then
    (0, { r with err := some .eof })
  else
    ((r.buf ||| (leNat (r.input.take (min 4 r.input.length)) <<< r.size)) % M64 % 256,
     { input := r.input.drop (min 4 r.input.length),
       buf := (r.buf ||| (leNat (r.input.take (min 4 r.input.length)) <<< r.size)) % M64,
       size := r.size + 8 * min 4 r.input.length, err := r.err })

/-- `bitReader.SkipBits`: advance `l` bits without returning them. -/
def BitReader.SkipBits (r : BitReader) (l : Nat) : BitReader :=
  if min l r.size ≠ r.size then
    { r with size := r.size - l, buf := r.buf >>> l }
  else
    match r.fill with
    | (false, r') => r'
    | (true, r') =>
      { r' with size := r'.size - (l - min l r.size),
                buf := r'.buf >>> (l - min l r.size) }

/-- The loop of `bitReader.ReadUvarint` (`for s := 0; s <= 63; s += 7`):
ten iterations, made explicit by fuel 10.  Note the Go code's overflow
branch `if r.err != nil { r.err = ... }` only records the overflow error
when some other error is already sticky. -/
def readUvarintAux : Nat → Nat → Nat → BitReader → Nat × BitReader
  | 0, _, ret, r => (ret, r)
  | fuel + 1, s, ret, r =>
    if s = 63 ∧ 1 < (r.ReadBits 7).1 then
      (0, if (r.ReadBits 7).2.err ≠ none
          then { (r.ReadBits 7).2 with err := some .overflow }
          else (r.ReadBits 7).2)
    else
      if ((r.ReadBits 7).2.ReadBits 1).1 = 0 then
        (ret ||| ((r.ReadBits 7).1 <<< s), ((r.ReadBits 7).2.ReadBits 1).2)
      else
        readUvarintAux fuel (s + 7) (ret ||| ((r.ReadBits 7).1 <<< s))
          ((r.ReadBits 7).2.ReadBits 1).2

def BitReader.ReadUvarint (r : BitReader) : Nat × BitReader :=
  readUvarintAux 10 0 0 r

/-- Denotation: the unconsumed bits of the stream. -/
def BitReader.bits (r : BitReader) : List Bool :=
  lowBits r.buf r.size ++ bytesToBits r.input

/-- Structural invariant of the reader. -/
def BitReader.WF (r : BitReader) : Prop :=
  r.buf < 2 ^ r.size ∧ r.size ≤ 64 ∧ ∀ b ∈ r.input, b < 256

theorem newBitReader_WF (bytes : List Nat) (h : ∀ b ∈ bytes, b < 256) :
    (newBitReader bytes).WF := ⟨by norm_num [newBitReader], by norm_num [newBitReader], h⟩

theorem newBitReader_bits (bytes : List Nat) :
    (newBitReader bytes).bits = bytesToBits bytes := rfl

theorem bits_length (r : BitReader) : r.bits.length = r.size + 8 * r.input.length := by
  simp [BitReader.bits]

theorem leNat_lt (bs : List Nat) (h : ∀ b ∈ bs, b < 256) :
    leNat bs < 2 ^ (8 * bs.length) := by
  induction bs with
  | nil => simp [leNat]
  | cons b bs ih =>
      have hb : b < 256 := h b (by simp)
      have ht : leNat bs < 2 ^ (8 * bs.length) := ih (fun x hx => h x (by simp [hx]))
      have he : 8 * (b :: bs).length = 8 + 8 * bs.length := by
        simp [List.length_cons]
        ring
      rw [leNat, he, pow_add]
      have : (256:Nat) ≤ 2 ^ 8 := by norm_num
      nlinarith

theorem lowBits_leNat (bs : List Nat) (h : ∀ b ∈ bs, b < 256) :
    lowBits (leNat bs) (8 * bs.length) = bytesToBits bs := by
  induction bs with
  | nil => simp [leNat]
  | cons b bs ih =>
      have hb : b < 256 := h b (by simp)
      have he : 8 * (b :: bs).length = 8 + 8 * bs.length := by
        simp [List.length_cons]
        ring
      rw [he, leNat, lowBits_append, bytesToBits_cons]
      congr 1
      · rw [← lowBits_mod]
        congr 1
        have : (2:Nat) ^ 8 = 256 := by norm_num
        rw [this]
        omega
      · have : (b + 256 * leNat bs) / 2 ^ 8 = leNat bs := by
          have : (2:Nat) ^ 8 = 256 := by norm_num
          rw [this, Nat.add_mul_div_left _ _ (by norm_num : (0:Nat) < 256),
            Nat.div_eq_of_lt hb, Nat.zero_add]
        rw [this, ih (fun x hx => h x (by simp [hx]))]

theorem bitsToNat_take_lowBits (x n k : Nat) (h : k ≤ n) :
    bitsToNat ((lowBits x n).take k) = x % 2 ^ k := by
  have hsplit : lowBits x n = lowBits x k ++ lowBits (x / 2 ^ k) (n - k) := by
    have : n = k + (n - k) := by omega
    conv_lhs => rw [this]
    exact lowBits_append x k (n - k)
  rw [hsplit, List.take_append_of_le_length (by simp), List.take_of_length_le (by simp),
    bitsToNat_lowBits]

theorem drop_lowBits (x n k : Nat) (h : k ≤ n) :
    (lowBits x n).drop k = lowBits (x >>> k) (n - k) := by
  have hsplit : lowBits x n = lowBits x k ++ lowBits (x / 2 ^ k) (n - k) := by
    have : n = k + (n - k) := by omega
    conv_lhs => rw [this]
    exact lowBits_append x k (n - k)
  rw [hsplit, List.drop_append_of_le_length (by simp), List.drop_of_length_le (by simp),
    List.nil_append, Nat.shiftRight_eq_div_pow]

/-- `fill` on a non-empty source succeeds, preserves the stream denotation
(all buffered bits having been consumed beforehand is not required: `fill`
is only ever reached with `size = 0`, but the bit-level statement needs
just the input bytes). -/
theorem fill_spec (r : BitReader) (hw : r.WF) (hne : r.input ≠ []) (hs : r.size = 0) :
    r.fill.1 = true ∧ r.fill.2.bits = r.bits ∧ r.fill.2.WF ∧
    r.fill.2.err = r.err ∧ r.fill.2.size = 8 * min 8 r.input.length ∧
    r.fill.2.input = r.input.drop (min 8 r.input.length) := by
  obtain ⟨hbuf, hsz, hin⟩ := hw
  have hlen : 0 < r.input.length := List.length_pos.mpr hne
  have hn : min 8 r.input.length ≠ 0 := by
    simp only [ne_eq, Nat.min_eq_zero_iff]
    omega
  have htk : ∀ b ∈ r.input.take (min 8 r.input.length), b < 256 := by
    intro b hb
    exact hin b (List.mem_of_mem_take hb)
  have hlen8 : (r.input.take (min 8 r.input.length)).length = min 8 r.input.length := by
    rw [List.length_take]
    omega
  have hlt : leNat (r.input.take (min 8 r.input.length))
      < 2 ^ (8 * min 8 r.input.length) := by
    have h1 := leNat_lt _ htk
    rwa [hlen8] at h1
  rw [BitReader.fill, if_neg hn]
  refine ⟨rfl, ?_, ⟨?_, ?_, ?_⟩, rfl, rfl, rfl⟩
  · show lowBits (leNat (r.input.take (min 8 r.input.length))) (8 * min 8 r.input.length)
      ++ bytesToBits (r.input.drop (min 8 r.input.length)) = r.bits
    have hlow : lowBits (leNat (r.input.take (min 8 r.input.length)))
        (8 * min 8 r.input.length)
        = bytesToBits (r.input.take (min 8 r.input.length)) := by
      have h1 := lowBits_leNat _ htk
      rwa [hlen8] at h1
    rw [hlow, ← bytesToBits_append, List.take_append_drop, BitReader.bits, hs]
    simp
  · exact hlt
  · show 8 * min 8 r.input.length ≤ 64
    omega
  · intro b hb
    exact hin b (List.mem_of_mem_drop hb)

theorem take_lowBits (x n k : Nat) (h : k ≤ n) : (lowBits x n).take k = lowBits x k := by
  have hsplit : lowBits x n = lowBits x k ++ lowBits (x / 2 ^ k) (n - k) := by
    have : n = k + (n - k) := by omega
    conv_lhs => rw [this]
    exact lowBits_append x k (n - k)
  rw [hsplit, List.take_append_of_le_length (by simp), List.take_of_length_le (by simp)]

theorem shiftRight_lt (x n k : Nat) (h : x < 2 ^ n) (hk : k ≤ n) :
    x >>> k < 2 ^ (n - k) := by
  rw [Nat.shiftRight_eq_div_pow]
  apply Nat.div_lt_of_lt_mul
  rw [← pow_add]
  have : k + (n - k) = n := by omega
  rw [this]
  exact h

/-- `readBitsI` consumes `l ≤ size` bits of the denotation and returns
their value. -/
theorem readBitsI_spec (r : BitReader) (l : Nat) (hw : r.WF) (hl : l ≤ r.size) :
    (r.readBitsI l).1 = bitsToNat (r.bits.take l)
    ∧ (r.readBitsI l).2.bits = r.bits.drop l
    ∧ (r.readBitsI l).2.WF
    ∧ (r.readBitsI l).2.err = r.err
    ∧ (r.readBitsI l).2.input = r.input
    ∧ (r.readBitsI l).2.size = r.size - l := by
  obtain ⟨hbuf, hsz, hin⟩ := hw
  have hlen : l ≤ (lowBits r.buf r.size).length := by simp [hl]
  refine ⟨?_, ?_, ⟨?_, by show r.size - l ≤ 64 ; omega, hin⟩, rfl, rfl, rfl⟩
  · show r.buf &&& (2 ^ l - 1) = bitsToNat (r.bits.take l)
    rw [BitReader.bits, List.take_append_of_le_length hlen, take_lowBits _ _ _ hl,
      bitsToNat_lowBits, Nat.and_pow_two_sub_one_eq_mod]
  · show lowBits (r.buf >>> l) (r.size - l) ++ bytesToBits r.input = r.bits.drop l
    rw [BitReader.bits, List.drop_append_of_le_length hlen, drop_lowBits _ _ _ hl]
  · show r.buf >>> l < 2 ^ (r.size - l)
    exact shiftRight_lt _ _ _ hbuf hl

/-- `ReadBits` on an error-free reader with `l ≤ 64` available bits reads
exactly the next `l` bits of the stream. -/
theorem ReadBits_spec (r : BitReader) (l : Nat) (hw : r.WF) (he : r.err = none)
    (hl : l ≤ 64) (hlen : l ≤ r.bits.length) :
    (r.ReadBits l).1 = bitsToNat (r.bits.take l)
    ∧ (r.ReadBits l).2.bits = r.bits.drop l
    ∧ (r.ReadBits l).2.WF
    ∧ (r.ReadBits l).2.err = none := by
  rw [BitReader.ReadBits]
  by_cases hc : min l r.size = l
  · rw [if_pos hc]
    obtain ⟨h1, h2, h3, h4, _, _⟩ := readBitsI_spec r l hw (by omega)
    rw [he] at h4
    exact ⟨h1, h2, h3, h4⟩
  · rw [if_neg hc]
    have hls : r.size < l := by omega
    have hm : min l r.size = r.size := by omega
    rw [hm]
    obtain ⟨h1, h2, h3, h4, h5, h6⟩ := readBitsI_spec r r.size hw (le_refl _)
    rw [he] at h4
    have hblen := bits_length r
    have hinne : (r.readBitsI r.size).2.input ≠ [] := by
      rw [h5]
      intro hnil
      rw [hnil] at hblen
      simp at hblen
      omega
    have hs0 : (r.readBitsI r.size).2.size = 0 := by
      rw [h6]
      omega
    obtain ⟨f1, f2, f3, f4, f5, _⟩ := fill_spec _ h3 hinne hs0
    rcases hfr : (r.readBitsI r.size).2.fill with ⟨b, r2⟩
    rw [hfr] at f1 f2 f3 f4 f5
    subst f1
    rw [h4] at f4
    have h2len : r2.bits.length = r.bits.length - r.size := by
      rw [f2, h2]
      simp
    have hrest : l - r.size ≤ r2.size := by
      rw [f5, h5]
      have h8 : r.bits.length = r.size + 8 * r.input.length := bits_length r
      rcases Nat.lt_or_ge r.input.length 8 with hsmall | hbig
      · have : min 8 r.input.length = r.input.length := by omega
        rw [this]
        omega
      · have : min 8 r.input.length = 8 := by omega
        rw [this]
        omega
    obtain ⟨g1, g2, g3, g4, _, _⟩ := readBitsI_spec r2 (l - r.size) f3 hrest
    rw [f4] at g4
    have hval : (r.readBitsI r.size).1 ||| ((r2.readBitsI (l - r.size)).1 <<< r.size)
        = bitsToNat (r.bits.take l) := by
      rw [h1, g1, f2, h2]
      have htlen : (r.bits.take r.size).length = r.size := by
        rw [List.length_take]
        omega
      have hlt : bitsToNat (r.bits.take r.size) < 2 ^ r.size := by
        have := bitsToNat_lt (r.bits.take r.size)
        rwa [htlen] at this
      rw [lor_shiftLeft_eq_add _ _ _ hlt]
      have htake : r.bits.take l = r.bits.take r.size ++ (r.bits.drop r.size).take (l - r.size) := by
        have : l = r.size + (l - r.size) := by omega
        conv_lhs => rw [this]
        exact List.take_add r.bits r.size (l - r.size)
      rw [htake, bitsToNat_append, htlen]
      ring
    have hbits2 : (r2.readBitsI (l - r.size)).2.bits = r.bits.drop l := by
      rw [g2, f2, h2, List.drop_drop]
      congr 1
      omega
    exact ⟨hval, hbits2, g3, g4⟩

/-- `ReadBit` on an error-free reader with at least one available bit. -/
theorem ReadBit_spec (r : BitReader) (hw : r.WF) (he : r.err = none)
    (hlen : 1 ≤ r.bits.length) :
    (r.ReadBit).1 = bitsToNat (r.bits.take 1)
    ∧ r.ReadBit.2.bits = r.bits.drop 1
    ∧ r.ReadBit.2.WF
    ∧ r.ReadBit.2.err = none := by
  rw [BitReader.ReadBit]
  by_cases hs : r.size = 0
  · rw [if_pos hs]
    have hinne : r.input ≠ [] := by
      intro hnil
      have hbl := bits_length r
      rw [hnil, hs] at hbl
      simp only [List.length_nil] at hbl
      omega
    obtain ⟨f1, f2, f3, f4, f5, _⟩ := fill_spec r hw hinne hs
    rcases hfr : r.fill with ⟨b, r'⟩
    rw [hfr] at f1 f2 f3 f4 f5
    subst f1
    rw [he] at f4
    have hs1 : 1 ≤ r'.size := by
      rw [f5]
      have : r.input.length ≠ 0 := by
        intro h0
        exact hinne (List.eq_nil_of_length_eq_zero h0)
      omega
    obtain ⟨g1, g2, g3, g4, _, _⟩ := readBitsI_spec r' 1 f3 hs1
    rw [f4] at g4
    rw [f2] at g1 g2
    exact ⟨g1, g2, g3, g4⟩
  · rw [if_neg hs]
    obtain ⟨g1, g2, g3, g4, _, _⟩ := readBitsI_spec r 1 hw (by omega)
    rw [he] at g4
    exact ⟨g1, g2, g3, g4⟩

/-- `PeekByte` returns the next 8 bits of the stream without consuming
them, leaving at least 8 bits buffered. -/
theorem PeekByte_spec (r : BitReader) (hw : r.WF) (he : r.err = none)
    (hlen : 8 ≤ r.bits.length) :
    (r.PeekByte).1 = bitsToNat (r.bits.take 8)
    ∧ r.PeekByte.2.bits = r.bits
    ∧ r.PeekByte.2.WF
    ∧ r.PeekByte.2.err = none
    ∧ 8 ≤ r.PeekByte.2.size := by
  obtain ⟨hbuf, hsz, hin⟩ := hw
  rw [BitReader.PeekByte]
  by_cases hs : 8 ≤ r.size
  · rw [if_pos hs]
    refine ⟨?_, rfl, ⟨hbuf, hsz, hin⟩, he, hs⟩
    show r.buf % 256 = bitsToNat (r.bits.take 8)
    rw [BitReader.bits, List.take_append_of_le_length (by simp ; omega),
      take_lowBits _ _ _ hs, bitsToNat_lowBits]
    norm_num
  · rw [if_neg hs]
    have hblen := bits_length r
    have hinne : r.input.length ≠ 0 := by
      intro h0
      omega
    have ht : min 4 r.input.length ≠ 0 := by
      simp only [ne_eq, Nat.min_eq_zero_iff]
      omega
    rw [if_neg ht]
    have ht4 : 1 ≤ min 4 r.input.length := by omega
    have htk : ∀ b ∈ r.input.take (min 4 r.input.length), b < 256 := by
      intro b hb
      exact hin b (List.mem_of_mem_take hb)
    have hlen4 : (r.input.take (min 4 r.input.length)).length = min 4 r.input.length := by
      rw [List.length_take]
      omega
    have hleLt : leNat (r.input.take (min 4 r.input.length))
        < 2 ^ (8 * min 4 r.input.length) := by
      have h1 := leNat_lt _ htk
      rwa [hlen4] at h1
    have hVlt : r.buf + leNat (r.input.take (min 4 r.input.length)) * 2 ^ r.size
        < 2 ^ (r.size + 8 * min 4 r.input.length) := by
      have e1 : 2 ^ (r.size + 8 * min 4 r.input.length)
          = 2 ^ (8 * min 4 r.input.length) * 2 ^ r.size := by
        rw [pow_add, Nat.mul_comm]
      have e2 : (1 + leNat (r.input.take (min 4 r.input.length))) * 2 ^ r.size
          ≤ 2 ^ (8 * min 4 r.input.length) * 2 ^ r.size :=
        Nat.mul_le_mul_right _ (by omega)
      have e3 : (1 + leNat (r.input.take (min 4 r.input.length))) * 2 ^ r.size
          = 2 ^ r.size + leNat (r.input.take (min 4 r.input.length)) * 2 ^ r.size := by
        ring
      omega
    have hVsmall : r.buf + leNat (r.input.take (min 4 r.input.length)) * 2 ^ r.size
        < M64 := by
      have e1 : 2 ^ (r.size + 8 * min 4 r.input.length) ≤ 2 ^ 64 :=
        Nat.pow_le_pow_right (by norm_num) (by omega)
      have e2 : M64 = 2 ^ 64 := rfl
      omega
    have hV : r.buf ||| (leNat (r.input.take (min 4 r.input.length)) <<< r.size)
        = r.buf + leNat (r.input.take (min 4 r.input.length)) * 2 ^ r.size :=
      lor_shiftLeft_eq_add _ _ _ hbuf
    have hmod : (r.buf ||| (leNat (r.input.take (min 4 r.input.length)) <<< r.size)) % M64
        = r.buf + leNat (r.input.take (min 4 r.input.length)) * 2 ^ r.size := by
      rw [hV]
      exact Nat.mod_eq_of_lt hVsmall
    have hbits' : lowBits ((r.buf ||| (leNat (r.input.take (min 4 r.input.length)) <<< r.size)) % M64)
          (r.size + 8 * min 4 r.input.length)
        ++ bytesToBits (r.input.drop (min 4 r.input.length)) = r.bits := by
      rw [hmod, ← hV, lowBits_lor_shiftLeft _ _ _ _ hbuf]
      have hlow : lowBits (leNat (r.input.take (min 4 r.input.length)))
          (8 * min 4 r.input.length)
          = bytesToBits (r.input.take (min 4 r.input.length)) := by
        have h1 := lowBits_leNat _ htk
        rwa [hlen4] at h1
      rw [hlow, List.append_assoc, ← bytesToBits_append, List.take_append_drop]
      rfl
    refine ⟨?_, hbits', ⟨?_, ?_, ?_⟩, he, ?_⟩
    · show (r.buf ||| (leNat (r.input.take (min 4 r.input.length)) <<< r.size)) % M64 % 256
        = bitsToNat (r.bits.take 8)
      rw [← hbits', List.take_append_of_le_length (by simp ; omega),
        take_lowBits _ _ _ (by omega), bitsToNat_lowBits]
      norm_num
    · show (r.buf ||| (leNat (r.input.take (min 4 r.input.length)) <<< r.size)) % M64
        < 2 ^ (r.size + 8 * min 4 r.input.length)
      rw [hmod]
      exact hVlt
    · show r.size + 8 * min 4 r.input.length ≤ 64
      omega
    · intro b hb
      exact hin b (List.mem_of_mem_drop hb)
    · show 8 ≤ r.size + 8 * min 4 r.input.length
      omega

/-- `SkipBits` for `l ≤ 8` with the next `l` bits not the last ones of the
stream (the decoder always has the endmarker ahead): drops `l` bits. -/
theorem SkipBits_spec (r : BitReader) (l : Nat) (hw : r.WF) (he : r.err = none)
    (hl : l ≤ 8) (hlen : l < r.bits.length) :
    (r.SkipBits l).bits = r.bits.drop l
    ∧ (r.SkipBits l).WF
    ∧ (r.SkipBits l).err = none := by
  obtain ⟨hbuf, hsz, hin⟩ := hw
  rw [BitReader.SkipBits]
  by_cases hc : min l r.size ≠ r.size
  · rw [if_pos hc]
    have hls : l < r.size := by omega
    obtain ⟨_, h2, h3, h4, _, _⟩ := readBitsI_spec r l ⟨hbuf, hsz, hin⟩ (by omega)
    rw [he] at h4
    exact ⟨h2, h3, h4⟩
  · rw [if_neg hc]
    have hls : r.size ≤ l := by omega
    have hblen := bits_length r
    have hinne : r.input.length ≠ 0 := by
      intro h0
      omega
    have hn : min 8 r.input.length ≠ 0 := by
      simp only [ne_eq, Nat.min_eq_zero_iff]
      omega
    have hm : min l r.size = r.size := by omega
    rw [hm]
    rw [BitReader.fill, if_neg hn]
    have htk : ∀ b ∈ r.input.take (min 8 r.input.length), b < 256 := by
      intro b hb
      exact hin b (List.mem_of_mem_take hb)
    have hlen8 : (r.input.take (min 8 r.input.length)).length = min 8 r.input.length := by
      rw [List.length_take]
      omega
    have hleLt : leNat (r.input.take (min 8 r.input.length))
        < 2 ^ (8 * min 8 r.input.length) := by
      have h1 := leNat_lt _ htk
      rwa [hlen8] at h1
    have hlow : lowBits (leNat (r.input.take (min 8 r.input.length)))
        (8 * min 8 r.input.length)
        = bytesToBits (r.input.take (min 8 r.input.length)) := by
      have h1 := lowBits_leNat _ htk
      rwa [hlen8] at h1
    have hrest : l - r.size ≤ 8 * min 8 r.input.length := by
      omega
    refine ⟨?_, ⟨?_, ?_, ?_⟩, he⟩
    · show lowBits (leNat (r.input.take (min 8 r.input.length)) >>> (l - r.size))
          (8 * min 8 r.input.length - (l - r.size))
        ++ bytesToBits (r.input.drop (min 8 r.input.length)) = r.bits.drop l
      rw [← drop_lowBits _ _ _ hrest, hlow]
      have hsplit : bytesToBits (r.input.take (min 8 r.input.length))
          ++ bytesToBits (r.input.drop (min 8 r.input.length)) = bytesToBits r.input := by
        rw [← bytesToBits_append, List.take_append_drop]
      have hdlen : l - r.size ≤ (bytesToBits (r.input.take (min 8 r.input.length))).length := by
        simp only [length_bytesToBits, hlen8]
        omega
      rw [← List.drop_append_of_le_length hdlen, hsplit]
      rw [BitReader.bits]
      have : l = (lowBits r.buf r.size).length + (l - r.size) := by
        simp
        omega
      conv_rhs => rw [this]
      rw [List.drop_append]
    · show leNat (r.input.take (min 8 r.input.length)) >>> (l - r.size)
        < 2 ^ (8 * min 8 r.input.length - (l - r.size))
      exact shiftRight_lt _ _ _ hleLt hrest
    · show 8 * min 8 r.input.length - (l - r.size) ≤ 64
      omega
    · intro b hb
      exact hin b (List.mem_of_mem_drop hb)

/-! ## Uvarint encoding

`WriteUvarint` emits 7-bit groups least-significant first, one whole byte
per group with the high bit as continuation flag; `ReadUvarint` reads them
back, rejecting a 10th group larger than 1. -/

/-- The bytes of the uvarint encoding of `x` (fuel as in
`writeUvarintAux`; fuel 10 covers all `x < 2 ^ 64`). -/
def uvarintBytes : Nat → Nat → List Nat
  | 0, _ => []
  | fuel + 1, x =>
    if 0x80 ≤ x then (x % 256 ||| 0x80) :: uvarintBytes fuel (x >>> 7)
    else [x % 256]

theorem or128 (a : Nat) (h : a < 256) : a ||| 128 = a % 128 + 128 := by
  have hlow : ∀ c : Nat, c < 128 → c ||| 128 = c + 128 := by
    intro c hc
    have h1 : c ||| (1 <<< 7) = c + 1 * 2 ^ 7 :=
      lor_shiftLeft_eq_add 7 c 1 (show c < 2 ^ 7 by norm_num ; omega)
    have h2 : (1:Nat) <<< 7 = 128 := by decide
    rw [h2] at h1
    rw [h1]
    norm_num
  rcases Nat.lt_or_ge a 128 with hca | hca
  · rw [hlow a hca, Nat.mod_eq_of_lt hca]
  · have hm : a % 128 = a - 128 := by omega
    have ha : a = (a - 128) + 128 := by omega
    have hl : a - 128 ||| 128 = (a - 128) + 128 := hlow (a - 128) (by omega)
    calc a ||| 128 = ((a - 128) ||| 128) ||| 128 := by rw [hl, ← ha]
    _ = (a - 128) ||| (128 ||| 128) := Nat.lor_assoc _ _ _
    _ = (a - 128) ||| 128 := by rw [show (128 ||| 128 : Nat) = 128 by decide]
    _ = a % 128 + 128 := by rw [hl, hm]

theorem writeUvarintAux_bits (fuel : Nat) :
    ∀ (x : Nat) (w : BitWriter), w.WF → x < 2 ^ (7 * fuel) →
    (writeUvarintAux fuel x w).bits = w.bits ++ bytesToBits (uvarintBytes fuel x)
    ∧ (writeUvarintAux fuel x w).WF := by
  induction fuel with
  | zero =>
      intro x w hw hx
      rw [writeUvarintAux, uvarintBytes]
      refine ⟨?_, hw⟩
      rw [bytesToBits_nil, List.append_nil]
  | succ fuel ih =>
      intro x w hw hx
      rw [writeUvarintAux, uvarintBytes]
      by_cases hc : 0x80 ≤ x
      · rw [if_pos hc, if_pos hc]
        have hv : x % 256 ||| 0x80 < 2 ^ 8 := by
          rw [or128 _ (Nat.mod_lt _ (by norm_num))]
          have : x % 256 % 128 < 128 := Nat.mod_lt _ (by norm_num)
          norm_num
          omega
        obtain ⟨hb, hwf⟩ := WriteBits_bits w (x % 256 ||| 0x80) 8 hw hv (by norm_num)
        have hx7 : x >>> 7 < 2 ^ (7 * fuel) := by
          have := shiftRight_lt x (7 * (fuel + 1)) 7 hx (by omega)
          have he : 7 * (fuel + 1) - 7 = 7 * fuel := by omega
          rwa [he] at this
        obtain ⟨ihb, ihwf⟩ := ih (x >>> 7) _ hwf hx7
        refine ⟨?_, ihwf⟩
        rw [ihb, hb, bytesToBits_cons, List.append_assoc]
      · rw [if_neg hc, if_neg hc]
        have hv : x % 256 < 2 ^ 8 := Nat.mod_lt _ (by norm_num)
        obtain ⟨hb, hwf⟩ := WriteBits_bits w (x % 256) 8 hw hv (by norm_num)
        refine ⟨?_, hwf⟩
        rw [hb, bytesToBits_cons, bytesToBits_nil, List.append_nil]

theorem WriteUvarint_bits (w : BitWriter) (x : Nat) (hw : w.WF) (hx : x < M64) :
    (w.WriteUvarint x).bits = w.bits ++ bytesToBits (uvarintBytes 10 x)
    ∧ (w.WriteUvarint x).WF := by
  apply writeUvarintAux_bits 10 x w hw
  have : M64 ≤ 2 ^ (7 * 10) := by norm_num [M64]
  omega

/-- Bit-level shape of one uvarint byte. -/
theorem uvarintByte_bits_cont (v : Nat) (h : 0x80 ≤ v) :
    lowBits (v % 256 ||| 0x80) 8 = lowBits (v % 128) 7 ++ [true] := by
  rw [or128 _ (Nat.mod_lt _ (by norm_num))]
  have hm : v % 256 % 128 = v % 128 := Nat.mod_mod_of_dvd v (by norm_num)
  rw [hm]
  have h8 : (8:Nat) = 7 + 1 := rfl
  rw [h8, lowBits_append]
  congr 1
  · rw [← lowBits_mod]
    congr 1
    have : (2:Nat) ^ 7 = 128 := by norm_num
    rw [this]
    omega
  · have : (v % 128 + 128) / 2 ^ 7 = 1 := by
      have h1 : v % 128 < 128 := Nat.mod_lt _ (by norm_num)
      have : (2:Nat) ^ 7 = 128 := by norm_num
      rw [this]
      omega
    rw [this]
    rfl

theorem uvarintByte_bits_last (v : Nat) (h : v < 0x80) :
    lowBits (v % 256) 8 = lowBits v 7 ++ [false] := by
  rw [Nat.mod_eq_of_lt (by omega)]
  have h8 : (8:Nat) = 7 + 1 := rfl
  rw [h8, lowBits_append]
  congr 1
  have : v / 2 ^ 7 = 0 := by
    apply Nat.div_eq_of_lt
    norm_num
    omega
  rw [this]
  rfl

/-- `ReadBits 1` on a stream with a known head bit. -/
theorem ReadBit1_spec' (r : BitReader) (hw : r.WF) (he : r.err = none)
    {b : Bool} {rest : List Bool} (hbits : r.bits = [b] ++ rest) :
    (r.ReadBits 1).1 = (if b then 1 else 0)
    ∧ (r.ReadBits 1).2.bits = rest
    ∧ (r.ReadBits 1).2.WF
    ∧ (r.ReadBits 1).2.err = none := by
  have hlen : 1 ≤ r.bits.length := by
    rw [hbits]
    simp
  obtain ⟨p1, p2, p3, p4⟩ := ReadBits_spec r 1 hw he (by norm_num) hlen
  refine ⟨?_, ?_, p3, p4⟩
  · rw [p1, hbits]
    simp [bitsToNat_cons]
  · rw [p2, hbits]
    simp

theorem readUvarintAux_spec (fuel : Nat) :
    ∀ (s ret v : Nat) (r : BitReader) (rest : List Bool),
    r.WF → r.err = none →
    r.bits = bytesToBits (uvarintBytes fuel v) ++ rest →
    s + 7 * fuel = 70 → v < 2 ^ (64 - s) → ret < 2 ^ s →
    (readUvarintAux fuel s ret r).1 = ret + v * 2 ^ s
    ∧ (readUvarintAux fuel s ret r).2.bits = rest
    ∧ (readUvarintAux fuel s ret r).2.WF
    ∧ (readUvarintAux fuel s ret r).2.err = none := by
  induction fuel with
  | zero =>
      intro s ret v r rest hw he hbits hs hv hret
      have hs70 : s = 70 := by omega
      have hv0 : v = 0 := by
        rw [hs70] at hv
        simpa using hv
      subst hv0
      rw [uvarintBytes, bytesToBits_nil, List.nil_append] at hbits
      refine ⟨?_, hbits, hw, he⟩
      show ret = ret + 0 * 2 ^ s
      omega
  | succ fuel ih =>
      intro s ret v r rest hw he hbits hs hv hret
      have hsle : s ≤ 63 := by omega
      rw [readUvarintAux]
      by_cases hc : 0x80 ≤ v
      · -- continuation byte
        rw [uvarintBytes, if_pos hc, bytesToBits_cons,
          uvarintByte_bits_cont v hc, List.append_assoc, List.append_assoc] at hbits
        have hlen : 7 ≤ r.bits.length := by
          rw [hbits]
          simp
        obtain ⟨p1, p2, p3, p4⟩ := ReadBits_spec r 7 hw he (by norm_num) hlen
        have hp1 : (r.ReadBits 7).1 = v % 128 := by
          rw [p1, hbits, List.take_append_of_le_length (by simp), take_lowBits _ _ _ (by norm_num),
            bitsToNat_lowBits]
          have : (2:Nat) ^ 7 = 128 := by norm_num
          rw [this, Nat.mod_mod_of_dvd _ (by norm_num)]
        have hbits2 : (r.ReadBits 7).2.bits
            = [true] ++ (bytesToBits (uvarintBytes fuel (v >>> 7)) ++ rest) := by
          rw [p2, hbits, List.drop_append_of_le_length (by simp)]
          simp
        have hnc : ¬(s = 63 ∧ 1 < (r.ReadBits 7).1) := by
          rintro ⟨h63, _⟩
          rw [h63] at hv
          norm_num at hv
          omega
        rw [if_neg hnc]
        obtain ⟨q1, q2, q3, q4⟩ := ReadBit1_spec' (r.ReadBits 7).2 p3 p4 hbits2
        rw [if_neg (by rw [q1] ; norm_num)]
        have hret' : ret ||| ((r.ReadBits 7).1 <<< s) = ret + (v % 128) * 2 ^ s := by
          rw [hp1, lor_shiftLeft_eq_add _ _ _ hret]
        have hretlt : ret + (v % 128) * 2 ^ s < 2 ^ (s + 7) := by
          have e1 : 2 ^ (s + 7) = 2 ^ 7 * 2 ^ s := by
            rw [pow_add, Nat.mul_comm]
          have e2 : (1 + v % 128) * 2 ^ s ≤ 2 ^ 7 * 2 ^ s := by
            apply Nat.mul_le_mul_right
            have : v % 128 < 128 := Nat.mod_lt _ (by norm_num)
            norm_num
            omega
          have e3 : (1 + v % 128) * 2 ^ s = 2 ^ s + (v % 128) * 2 ^ s := by ring
          omega
        have hfuel1 : 1 ≤ fuel := by
          by_contra h0
          have hs63 : s = 63 := by omega
          rw [hs63] at hv
          norm_num at hv
          omega
        have hs56 : s ≤ 56 := by omega
        have hv7 : v >>> 7 < 2 ^ (64 - (s + 7)) := by
          have h1 := shiftRight_lt v (64 - s) 7 hv (by omega)
          have he2 : 64 - s - 7 = 64 - (s + 7) := by omega
          rwa [he2] at h1
        obtain ⟨r1, r2, r3, r4⟩ := ih (s + 7) (ret ||| ((r.ReadBits 7).1 <<< s)) (v >>> 7)
          _ rest q3 q4 q2 (by omega) hv7 (by rw [hret'] ; exact hretlt)
        refine ⟨?_, r2, r3, r4⟩
        rw [r1, hret']
        have hvsplit : v = v % 128 + (v >>> 7) * 128 := by
          rw [Nat.shiftRight_eq_div_pow]
          have : (2:Nat) ^ 7 = 128 := by norm_num
          rw [this]
          omega
        have e4 : 2 ^ (s + 7) = 128 * 2 ^ s := by
          rw [pow_add]
          norm_num
          ring
        conv_rhs => rw [hvsplit]
        rw [e4]
        ring
      · -- last byte
        rw [uvarintBytes, if_neg hc, bytesToBits_cons, bytesToBits_nil, List.append_nil,
          uvarintByte_bits_last v (by omega), List.append_assoc] at hbits
        have hlen : 7 ≤ r.bits.length := by
          rw [hbits]
          simp
        obtain ⟨p1, p2, p3, p4⟩ := ReadBits_spec r 7 hw he (by norm_num) hlen
        have hp1 : (r.ReadBits 7).1 = v := by
          rw [p1, hbits, List.take_append_of_le_length (by simp), take_lowBits _ _ _ (by norm_num),
            bitsToNat_lowBits]
          have : (2:Nat) ^ 7 = 128 := by norm_num
          rw [this]
          omega
        have hbits2 : (r.ReadBits 7).2.bits = [false] ++ rest := by
          rw [p2, hbits, List.drop_append_of_le_length (by simp)]
          simp
        have hnc : ¬(s = 63 ∧ 1 < (r.ReadBits 7).1) := by
          rintro ⟨h63, hgt⟩
          rw [h63] at hv
          norm_num at hv
          rw [hp1] at hgt
          omega
        rw [if_neg hnc]
        obtain ⟨q1, q2, q3, q4⟩ := ReadBit1_spec' (r.ReadBits 7).2 p3 p4 hbits2
        rw [if_pos (by rw [q1] ; simp)]
        refine ⟨?_, q2, q3, q4⟩
        show ret ||| ((r.ReadBits 7).1 <<< s) = ret + v * 2 ^ s
        rw [hp1, lor_shiftLeft_eq_add _ _ _ hret]

theorem ReadUvarint_spec (r : BitReader) (x : Nat) (rest : List Bool)
    (hw : r.WF) (he : r.err = none) (hx : x < M64)
    (hbits : r.bits = bytesToBits (uvarintBytes 10 x) ++ rest) :
    (r.ReadUvarint).1 = x
    ∧ r.ReadUvarint.2.bits = rest
    ∧ r.ReadUvarint.2.WF
    ∧ r.ReadUvarint.2.err = none := by
  obtain ⟨h1, h2, h3, h4⟩ := readUvarintAux_spec 10 0 0 x r rest hw he hbits
    (by norm_num) (by norm_num ; exact hx) (by norm_num)
  refine ⟨?_, h2, h3, h4⟩
  show (readUvarintAux 10 0 0 r).1 = x
  rw [h1]
  omega

/-! ## Huffman coding (`huffman.go`)

The encoder builds a Huffman tree over bitlength symbols with
`container/heap`, turns leaf depths into canonical codeword lengths, and
serializes only the lengths.  The decoder re-derives the canonical code,
rebuilds the tree and flattens it into 256-entry prefix-table pages. -/

/-- `htNode`: a node of the Huffman tree built from frequencies.  The Go
struct stores `count` and `depth` fields that are fixed at construction
(`count: n1.count+n2.count`, `depth: max(n1.depth,n2.depth)+1`), so they are
recovered here as functions of the tree. -/
inductive HtNode where
  | leaf (value count : Nat)
  | node (left right : HtNode)
  deriving Repr, DecidableEq

def HtNode.count : HtNode → Nat
  | .leaf _ c => c
  | .node a b => a.count + b.count

def HtNode.depth : HtNode → Nat
  | .leaf _ _ => 0
  | .node a b => max a.depth b.depth + 1

/-- Number of leaves of a tree. -/
def HtNode.leaves : HtNode → Nat
  | .leaf _ _ => 1
  | .node a b => a.leaves + b.leaves

/-- Number of nodes of a tree (fuel for the depth-first walk). -/
def HtNode.sizeT : HtNode → Nat
  | .leaf _ _ => 1
  | .node a b => a.sizeT + b.sizeT + 1

instance : Inhabited HtNode := ⟨HtNode.leaf 0 0⟩

/-- `htHeap.Less`: order by count, then by subtree depth. -/
def htLess (a b : HtNode) : Bool :=
  if a.count == b.count then a.depth < b.depth else a.count < b.count

/-- `htHeap.Swap`. -/
def swapL (h : List HtNode) (i j : Nat) : List HtNode :=
  (h.set i (h.getD j default)).set j (h.getD i default)

/-- `container/heap`'s internal `down` (sift-down on the prefix `[0, n)`).
The index at least doubles every iteration, so `n` rounds of fuel always
suffice. -/
def downAux : Nat → List HtNode → Nat → Nat → List HtNode
  | 0, h, _, _ => h
  | fuel + 1, h, i, n =>
    if n ≤ 2 * i + 1 then h
    else
      if 2 * i + 2 < n ∧ htLess (h.getD (2 * i + 2) default) (h.getD (2 * i + 1) default) then
        if htLess (h.getD (2 * i + 2) default) (h.getD i default) then
          downAux fuel (swapL h i (2 * i + 2)) (2 * i + 2) n
        else h
      else
        if htLess (h.getD (2 * i + 1) default) (h.getD i default) then
          downAux fuel (swapL h i (2 * i + 1)) (2 * i + 1) n
        else h

def down (h : List HtNode) (i n : Nat) : List HtNode := downAux n h i n

/-- `container/heap`'s internal `up` (sift-up).  The index shrinks every
iteration, so `j + 1` rounds of fuel always suffice. -/
def upAux : Nat → List HtNode → Nat → List HtNode
  | 0, h, _ => h
  | fuel + 1, h, j =>
    if (j - 1) / 2 = j ∨ htLess (h.getD j default) (h.getD ((j - 1) / 2) default) = false then h
    else upAux fuel (swapL h ((j - 1) / 2) j) ((j - 1) / 2)

def up (h : List HtNode) (j : Nat) : List HtNode := upAux (j + 1) h j

/-- `heap.Init`: sift down every index `n/2 - 1, …, 0`. -/
def initAux : Nat → List HtNode → List HtNode
  | 0, h => h
  | i + 1, h => initAux i (down h i h.length)

def heapInit (h : List HtNode) : List HtNode := initAux (h.length / 2) h

/-- `heap.Push`. -/
def pushHeap (h : List HtNode) (x : HtNode) : List HtNode := up (h ++ [x]) h.length

/-- `heap.Pop` composed with `htHeap.Pop`: swap the root to the end, sift
down the prefix, remove and return the last element. -/
def popHeap (h : List HtNode) : HtNode × List HtNode :=
  let h1 := down (swapL h 0 (h.length - 1)) 0 (h.length - 1)
  (h1.getD (h.length - 1) default, h1.take (h.length - 1))

/-- The combine loop of `buildHuffmanCode` (`for len(h) > 1`): every round
removes two trees and adds one, so `h.length` rounds of fuel suffice. -/
def combineLoop : Nat → List HtNode → List HtNode
  | 0, h => h
  | fuel + 1, h =>
    if h.length ≤ 1 then h
    else
      let p1 := popHeap h
      let p2 := popHeap p1.2
      combineLoop fuel (pushHeap p2.2 (HtNode.node p1.1 p2.1))

/-- The explicit-stack depth-first walk of `buildHuffmanCode` that records
each leaf's depth in `codeLengths`.  Go appends `children[0]` then
`children[1]` to an array-backed stack and pops the last element first, so
with the head of the list as the stack top `children[1]` is pushed last…
i.e. first here.  Every tree node is popped exactly once, so the total node
count is exact fuel. -/
def dfsLoop : Nat → List (HtNode × Nat) → List Nat → List Nat
  | 0, _, cl => cl
  | _ + 1, [], cl => cl
  | fuel + 1, (n, d) :: stack, cl =>
    match n with
    | .leaf v _ => dfsLoop fuel stack (cl.set v d)
    | .node a b => dfsLoop fuel ((b, d + 1) :: (a, d + 1) :: stack) cl

/-- `htCodeEntry`: a canonical codeword (already bit-reversed for the wire)
and its length. -/
structure HtCodeEntry where
  code : Nat
  length : Nat
  deriving Repr, DecidableEq

instance : Inhabited HtCodeEntry := ⟨⟨0, 0⟩⟩

/-- `bits.Reverse64`. -/
def reverse64 (x : Nat) : Nat := bitsToNat ((lowBits x 64).reverse)

/-- The assignment loop of `canonicalHuffmanCode` over the
`(length, value)`-sorted symbols. -/
def canonAssign : List (Nat × Nat) → Nat → Nat → List HtCodeEntry → List HtCodeEntry
  | [], _, _, ret => ret
  | (v, l) :: rest, prevLength, code, ret =>
    let code' := if l ≠ prevLength then code <<< (l - prevLength) else code
    canonAssign rest l (code' + 1) (ret.set v ⟨reverse64 code' >>> (64 - l), l⟩)

/-- `canonicalHuffmanCode`.  Go sorts with `slices.SortFunc` by
`(length, value)`; as the values are pairwise distinct the sorted order is
unique, so a stable insertion sort computes the same list. -/
def canonicalHuffmanCode (codeLengths : List Nat) : List HtCodeEntry :=
  let vls := (List.range codeLengths.length).map (fun i => (i, codeLengths.getD i 0))
  let sorted := List.insertionSort
    (fun a b => a.2 < b.2 ∨ (a.2 = b.2 ∧ a.1 ≤ b.1)) vls
  canonAssign sorted 0 0 (List.replicate codeLengths.length default)

/-- `buildHuffmanCode`: heap-build the tree, read off leaf depths, and
canonicalize. -/
def buildHuffmanCode (freq : List Nat) : List HtCodeEntry :=
  let leaves := (List.range freq.length).map (fun i => HtNode.leaf i (freq.getD i 0))
  let h := combineLoop (heapInit leaves).length (heapInit leaves)
  let root := h.getD 0 default
  canonicalHuffmanCode (dfsLoop root.sizeT [(root, 0)] (List.replicate freq.length 0))

/-- The inner loop of `htCode.Pack`: `absDiff` copies of the pair
`(0, sign)`. -/
def writePairs : Nat → Nat → BitWriter → BitWriter
  | 0, _, bw => bw
  | k + 1, sign, bw => writePairs k sign ((bw.WriteBits 0 1).WriteBits sign 1)

/-- The per-symbol loop of `htCode.Pack`.  Go computes `absDiff := l - prev`
on `byte` and conditionally negates (mod 256), which for byte-sized lengths
is exactly the absolute difference. -/
def packDeltas : List Nat → Nat → BitWriter → BitWriter
  | [], _, bw => bw
  | l :: rest, prev, bw =>
    packDeltas rest l
      (((writePairs (if l < prev then prev - l else l - prev)
        (if l < prev then 0 else 1) bw)).WriteBits 1 1)

/-- `htCode.Pack`: 6-bit symbol count minus one, 6-bit first length, then
unary-signed length deltas. -/
def Pack (h : List HtCodeEntry) (bw : BitWriter) : BitWriter :=
  packDeltas ((h.drop 1).map (fun e => e.length)) (h.headD default).length
    ((bw.WriteBits (h.length - 1) 6).WriteBits (h.headD default).length 6)

/-- Go's `int8` reinterpretation of a byte. -/
def toInt8 (b : Nat) : Int := if b < 128 then (b : Int) else (b : Int) - 256

/-- `byte(int8(h[i-1]) + change)`. -/
def byteOfInt8 (x : Int) : Nat := (x % 256).toNat

/-- Fuel for the `unpackCodeLengths` loop: at most `n - 1` terminating `1`
bits with at most `n + 1` zero-pairs before each, so `(n + 1) * (n + 3)`
iterations always cover a complete run (error or not). -/
def unpackFuel (n : Nat) : Nat := (n + 1) * (n + 3)

/-- The delta-decoding loop of `unpackCodeLengths`. -/
def unpackLoopAux (n : Nat) : Nat → List Nat → Nat → Int → Nat → BitReader →
    (Except NErr (List Nat)) × BitReader
  | 0, _, _, _, _, r => (.error .stuck, r)
  | fuel + 1, h, i, change, waitingFor, r =>
    if (r.ReadBit).1 = 1 then
      if i + 1 = n then
        (match (r.ReadBit).2.err with
         | none => .ok (h.set i (byteOfInt8 (toInt8 (h.getD (i - 1) 0) + change)))
         | some e => .error e, (r.ReadBit).2)
      else
        unpackLoopAux n fuel (h.set i (byteOfInt8 (toInt8 (h.getD (i - 1) 0) + change)))
          (i + 1) 0 0 (r.ReadBit).2
    else
      if n < waitingFor + 1 then
        (.error .invalidCodebook, ((r.ReadBit).2.ReadBit).2)
      else
        unpackLoopAux n fuel h i
          (if ((r.ReadBit).2.ReadBit).1 = 1 then change + 1 else change - 1)
          (waitingFor + 1) ((r.ReadBit).2.ReadBit).2

/-- `unpackCodeLengths`: 6-bit `B`, 6-bit `h[0]`, then the delta loop. -/
def unpackCodeLengths (r : BitReader) : (Except NErr (List Nat)) × BitReader :=
  if (r.ReadBits 6).1 + 1 = 1 then
    (match ((r.ReadBits 6).2.ReadBits 6).2.err with
     | none => .ok ((List.replicate ((r.ReadBits 6).1 + 1) 0).set 0
         ((r.ReadBits 6).2.ReadBits 6).1)
     | some e => .error e,
     ((r.ReadBits 6).2.ReadBits 6).2)
  else
    unpackLoopAux ((r.ReadBits 6).1 + 1) (unpackFuel ((r.ReadBits 6).1 + 1))
      ((List.replicate ((r.ReadBits 6).1 + 1) 0).set 0 ((r.ReadBits 6).2.ReadBits 6).1)
      1 0 0 ((r.ReadBits 6).2.ReadBits 6).2

/-! ### Decoder tree and prefix table -/

/-- `htNode` as used on the decode side: nullable children and a value. -/
inductive TNode where
  | mk (c0 c1 : Option TNode) (value : Nat)

instance : Inhabited TNode := ⟨.mk none none 0⟩

def TNode.child : TNode → Nat → Option TNode
  | .mk c0 _ _, 0 => c0
  | .mk _ c1 _, _ => c1

def TNode.value : TNode → Nat
  | .mk _ _ v => v

def TNode.c0 : TNode → Option TNode
  | .mk c0 _ _ => c0

def TNode.c1 : TNode → Option TNode
  | .mk _ c1 _ => c1

/-- Node count (fuel for the page-building worklist). -/
def TNode.size : TNode → Nat
  | .mk c0 c1 _ =>
    (match c0 with | none => 0 | some t => t.size)
    + (match c1 with | none => 0 | some t => t.size) + 1

/-- The node-creating tail of `unpackHuffmanTree`'s insertion: a fresh
chain of `len + 1` nodes following the bits of `code`, the last one
carrying the symbol. -/
def freshChain : Nat → Nat → Nat → TNode
  | _, 0, bn => .mk none none bn
  | code, len + 1, bn =>
    if code % 2 = 0 then .mk (some (freshChain (code / 2) len bn)) none 0
    else .mk none (some (freshChain (code / 2) len bn)) 0

/-- One insertion of `unpackHuffmanTree`: walk down existing nodes along
the code bits (Go does not consult the length while walking), then append
fresh nodes for the remaining bits and set the symbol on the final node. -/
def insertGo : TNode → Nat → Nat → Nat → TNode
  | .mk c0 c1 v, code, len, bn =>
    if code % 2 = 0 then
      match c0 with
      | some c => .mk (some (insertGo c (code / 2) (len - 1) bn)) c1 v
      | none =>
        if len = 0 then .mk c0 c1 bn
        else .mk (some (freshChain (code / 2) (len - 1) bn)) c1 v
    else
      match c1 with
      | some c => .mk c0 (some (insertGo c (code / 2) (len - 1) bn)) v
      | none =>
        if len = 0 then .mk c0 c1 bn
        else .mk c0 (some (freshChain (code / 2) (len - 1) bn)) v

/-- Build the decoder's binary tree by inserting every codeword
(`for bn, entry := range codebook`). -/
def buildTrie (codebook : List HtCodeEntry) : TNode :=
  codebook.enum.foldl (fun t p => insertGo t p.2.code p.2.length p.1) (.mk none none 0)

/-- One entry of the prefix table `htLut`. -/
structure LutEntry where
  value : Nat
  skip : Nat
  next : Nat
  deriving Repr, DecidableEq

instance : Inhabited LutEntry := ⟨⟨0, 0, 0⟩⟩

/-- The 8-step walk filling one prefix-table entry: follow up to 8 code
bits until a missing child; return the node reached and the number of
steps taken. -/
def walk8 : Nat → TNode → Nat → TNode × Nat
  | 0, t, _ => (t, 8)
  | rem + 1, t, code =>
    match t.child (code % 2) with
    | none => (t, 8 - (rem + 1))
    | some c => walk8 rem c (code / 2)

/-- Fill the 256 entries of the page at `offset` for `node`, appending a
fresh zeroed page and a worklist entry for every internal continuation.
Go appends to the worklist and pops from the end; with the list head as
the stack top the later codes end up on top, matching Go's order. -/
def processPage (node : TNode) (offset : Nat)
    (acc : List LutEntry × List (TNode × Nat)) : List LutEntry × List (TNode × Nat) :=
  (List.range 256).foldl
    (fun acc code =>
      let w := walk8 8 node code
      match w.1.c0 with
      | none => (acc.1.set (offset + code) ⟨w.1.value, w.2, 0⟩, acc.2)
      | some _ =>
        ((acc.1.set (offset + code) ⟨0, 0, acc.1.length⟩) ++ List.replicate 256 default,
         (w.1, acc.1.length) :: acc.2))
    acc

/-- The worklist loop building the prefix table.  Every processed page
corresponds to a distinct tree node, so `root.size` pages bound the loop;
running out of fuel (impossible, established separately) is modelled as a
`stuck` failure. -/
def buildLutAux : Nat → List (TNode × Nat) → List LutEntry → Option (List LutEntry)
  | 0, todo, lut => if todo.isEmpty then some lut else none
  | _ + 1, [], lut => some lut
  | fuel + 1, (node, offset) :: todo, lut =>
    let p := processPage node offset (lut, todo)
    buildLutAux fuel p.2 p.1

/-- `unpackHuffmanTree`: decode the lengths, special-case the one-symbol
codebook (`nil` table), otherwise canonicalize, build the tree and flatten
it to pages. -/
def unpackHuffmanTree (r : BitReader) : (Except NErr (Option (List LutEntry))) × BitReader :=
  match unpackCodeLengths r with
  | (.error e, r') => (.error e, r')
  | (.ok codeLengths, r') =>
    if codeLengths.length = 1 then (.ok none, r')
    else
      match buildLutAux ((buildTrie (canonicalHuffmanCode codeLengths)).size + 1)
          [(buildTrie (canonicalHuffmanCode codeLengths), 0)]
          (List.replicate 256 default) with
      | some lut => (.ok (some lut), r')
      | none => (.error .stuck, r')

/-! ## Compression (`ncrlite.go`, `Compress` / `CompressSorted`) -/

/-- `bits.Len64`, executable (64 halvings suffice for any `uint64`). -/
def len64Aux : Nat → Nat → Nat
  | 0, _ => 0
  | fuel + 1, x => if x = 0 then 0 else len64Aux fuel (x / 2) + 1

def len64 (x : Nat) : Nat := len64Aux 64 x

/-- The delta loop of `CompressSorted` from the second element on; `none`
models the `"set has duplicates or is not sorted"` panic. -/
def deltasAux : List Nat → Nat → Option (List Nat)
  | [], _ => some []
  | x :: rest, prev =>
    if x ≤ prev then none
    else
      match deltasAux rest x with
      | none => none
      | some ds => some ((x - prev) :: ds)

/-- The deltas of a sorted set: `ds[0] = set[0] + 1` (wrapping), then
successive differences. -/
def deltasOf (set : List Nat) : Option (List Nat) :=
  match set with
  | [] => some []
  | v :: rest =>
    match deltasAux rest v with
    | none => none
    | some ds => some (((v + 1) % M64) :: ds)

/-- One step of the bitlength histogram: grow with zeros up to `bn`, then
increment. -/
def freqAccum (freq : List Nat) (bn : Nat) : List Nat :=
  let grown := freq ++ List.replicate (bn + 1 - freq.length) 0
  grown.set bn (grown.getD bn 0 + 1)

def freqOf (ds : List Nat) : List Nat :=
  ds.foldl (fun f d => freqAccum f (len64 d - 1)) []

/-- `CompressSorted`: size uvarint, the two small special cases, else
codebook + deltas + `0xAA` endmarker.  Returns the bytes written to the
sink; `none` is the sortedness panic. -/
def CompressSorted (set : List Nat) : Option (List Nat) :=
  if set.length = 0 then some (newBitWriter.WriteUvarint set.length).Close
  else if set.length = 1 then
    some (((newBitWriter.WriteUvarint set.length).WriteUvarint (set.headD 0)).Close)
  else
    match deltasOf set with
    | none => none
    | some ds =>
      some (((ds.foldl (fun w d =>
          (w.WriteBits ((buildHuffmanCode (freqOf ds)).getD (len64 d - 1) default).code
              ((buildHuffmanCode (freqOf ds)).getD (len64 d - 1) default).length).WriteBits
            (Nat.xor d (1 <<< (len64 d - 1))) (len64 d - 1))
        (Pack (buildHuffmanCode (freqOf ds))
          (newBitWriter.WriteUvarint set.length))).WriteBits 0xaa 8).Close)

/-- `Compress` sorts the caller's slice in place (`slices.Sort`) and then
compresses; the pair returns the slice as the caller sees it afterwards
together with the written bytes. -/
def Compress (set : List Nat) : List Nat × Option (List Nat) :=
  (List.insertionSort (· ≤ ·) set, CompressSorted (List.insertionSort (· ≤ ·) set))

/-! ## Decompression (`ncrlite.go`, `Decompressor`) -/

structure Decompressor where
  br : BitReader
  size : Nat
  remaining : Nat
  tree : Option (List LutEntry)
  prev : Nat
  started : Bool
  deriving Repr, DecidableEq

/-- Returns the number of uint64 remaining to be decompressed. -/
def Decompressor.Remaining (d : Decompressor) : Nat := d.remaining

/-- `NewDecompressor`: read the size; for `size ≥ 2` also parse the
Huffman header and build the prefix table. -/
def NewDecompressor (bytes : List Nat) : Except NErr Decompressor :=
  match ((newBitReader bytes).ReadUvarint).2.err with
  | some e => .error e
  | none =>
    if ((newBitReader bytes).ReadUvarint).1 ≤ 1 then
      .ok ⟨((newBitReader bytes).ReadUvarint).2, ((newBitReader bytes).ReadUvarint).1,
        ((newBitReader bytes).ReadUvarint).1, none, 0, false⟩
    else
      match unpackHuffmanTree ((newBitReader bytes).ReadUvarint).2 with
      | (.error e, _) => .error e
      | (.ok t, r') =>
        .ok ⟨r', ((newBitReader bytes).ReadUvarint).1,
          ((newBitReader bytes).ReadUvarint).1, t, 0, false⟩

/-- The codeword walk of `Decompressor.read`: peek a byte, look up the
page entry, descend through internal entries.  Page links always point to
later pages, so `lut.length + 1` rounds of fuel suffice; `none` models the
Go panic on an out-of-range index (or a cyclic table). -/
def lutWalk (lut : List LutEntry) : Nat → Nat → BitReader → Option (LutEntry × BitReader)
  | 0, _, _ => none
  | fuel + 1, node, br =>
    if h : node + (br.PeekByte).1 < lut.length then
      if (lut.get ⟨node + (br.PeekByte).1, h⟩).skip ≠ 0 then
        some (lut.get ⟨node + (br.PeekByte).1, h⟩, (br.PeekByte).2)
      else
        lutWalk lut fuel (lut.get ⟨node + (br.PeekByte).1, h⟩).next ((br.PeekByte).2.SkipBits 8)
    else none

/-- The element loop of `Decompressor.read` (prefix-table path). -/
def readLoop (lut : List LutEntry) : Nat → BitReader → Nat → Bool →
    Option (List Nat × BitReader × Nat × Bool)
  | 0, br, prev, started => some ([], br, prev, started)
  | m + 1, br, prev, started =>
    match lutWalk lut (lut.length + 1) 0 br with
    | none => none
    | some (entry, br1) =>
      match readLoop lut m ((br1.SkipBits entry.skip).ReadBits entry.value).2
        (if started then
          (prev + (((br1.SkipBits entry.skip).ReadBits entry.value).1 ||| (1 <<< entry.value))) % M64
         else
          ((prev + (((br1.SkipBits entry.skip).ReadBits entry.value).1 ||| (1 <<< entry.value))) % M64
            + M64 - 1) % M64)
        true with
      | none => none
      | some (vs, br', prev', started') =>
        some ((if started then
          (prev + (((br1.SkipBits entry.skip).ReadBits entry.value).1 ||| (1 <<< entry.value))) % M64
         else
          ((prev + (((br1.SkipBits entry.skip).ReadBits entry.value).1 ||| (1 <<< entry.value))) % M64
            + M64 - 1) % M64) :: vs, br', prev', started')

/-- The element loop of `Decompressor.Read` when the codebook is trivial
(`d.tree == nil`): every delta is 1. -/
def readTrivial : Nat → Nat → Bool → List Nat × Nat × Bool
  | 0, prev, started => ([], prev, started)
  | m + 1, prev, started =>
    ((if started then (prev + 1) % M64 else ((prev + 1) % M64 + M64 - 1) % M64)
      :: (readTrivial m (if started then (prev + 1) % M64
            else ((prev + 1) % M64 + M64 - 1) % M64) true).1,
     (readTrivial m (if started then (prev + 1) % M64
        else ((prev + 1) % M64 + M64 - 1) % M64) true).2)

/-- The tail of `Decompressor.Read`: consume and check the endmarker when
the set is exhausted, and surface the reader's sticky error. -/
def readFinish (d : Decompressor) (vs : List Nat) : Decompressor × List Nat × Option NErr :=
  if d.remaining = 0 then
    if (d.br.ReadBits 8).1 ≠ 0xaa then
      ({ d with br := (d.br.ReadBits 8).2 }, vs, some .badEndmarker)
    else
      ({ d with br := (d.br.ReadBits 8).2 }, vs, (d.br.ReadBits 8).2.err)
  else (d, vs, d.br.err)

/-- `Decompressor.Read` on an output slice of length `m`: returns the
updated state, the values written, and the error. -/
def Decompressor.Read (d : Decompressor) (m : Nat) : Decompressor × List Nat × Option NErr :=
  if m = 0 then (d, [], none)
  else if d.size = 0 then (d, [], some .noMore)
  else if d.size = 1 then
    if d.remaining = 0 then (d, [], some .noMore)
    else
      match (d.br.ReadUvarint).2.err with
      | some e => ({ d with br := (d.br.ReadUvarint).2 }, [(d.br.ReadUvarint).1], some e)
      | none =>
        if 1 < m then
          ({ d with br := (d.br.ReadUvarint).2, remaining := 0 },
           [(d.br.ReadUvarint).1], some .noMore)
        else
          ({ d with br := (d.br.ReadUvarint).2, remaining := 0 },
           [(d.br.ReadUvarint).1], none)
  else if d.remaining < m then (d, [], some .noMore)
  else
    match d.tree with
    | none =>
      readFinish
        { d with
          prev := (readTrivial m d.prev d.started).2.1
          started := (readTrivial m d.prev d.started).2.2
          remaining := d.remaining - m }
        (readTrivial m d.prev d.started).1
    | some lut =>
      match readLoop lut m d.br d.prev d.started with
      | none => (d, [], some .stuck)
      | some (vs, br', prev', started') =>
        readFinish
          { d with
            br := br'
            prev := prev'
            started := started'
            remaining := d.remaining - m }
          vs

/-- One-shot `Decompress`. -/
def Decompress (bytes : List Nat) : Except NErr (List Nat) :=
  match NewDecompressor bytes with
  | .error e => .error e
  | .ok d =>
    match (d.Read d.Remaining).2.2 with
    | some e => .error e
    | none => .ok (d.Read d.Remaining).2.1

/-! ## Heap permutation facts

The heap operations only ever swap elements in place, append, or remove
the last element, so the multiset of trees in the heap is easy to track;
no ordering property of the heap is needed for any claim. -/

theorem getD_eq_getElem {α : Type _} (l : List α) (i : Nat) (d : α) (hi : i < l.length) :
    l.getD i d = l[i] := by
  rw [List.getD_eq_getElem?_getD, List.getElem?_eq_getElem hi, Option.getD_some]

theorem swapL_perm (h : List HtNode) (i j : Nat) (hi : i < h.length) (hj : j < h.length) :
    (swapL h i j).Perm h := by
  rw [List.perm_iff_count]
  intro a
  rw [swapL, getD_eq_getElem _ _ _ hi, getD_eq_getElem _ _ _ hj]
  have hlen : (h.set i h[j]).length = h.length := by simp
  have hj' : j < (h.set i h[j]).length := by omega
  have hget : (h.set i h[j])[j] = h[j] := by
    rcases eq_or_ne i j with rfl | hne
    · rw [List.getElem_set_self]
    · rw [List.getElem_set_of_ne hne]
  rw [List.count_set _ _ _ _ hj', List.count_set _ _ _ _ hi, hget]
  have h1 : (if (h[i] == a) = true then 1 else 0) ≤ h.count a := by
    split
    · next hb =>
        have : h[i] = a := by
          exact eq_of_beq hb
        subst this
        exact List.count_pos_iff.mpr (List.getElem_mem hi) -- count positive
    · omega
  omega

theorem downAux_perm (fuel : Nat) :
    ∀ (h : List HtNode) (i n : Nat), n ≤ h.length → (downAux fuel h i n).Perm h := by
  induction fuel with
  | zero => intro h i n _ ; exact List.Perm.refl h
  | succ fuel ih =>
      intro h i n hn
      rw [downAux]
      by_cases h1 : n ≤ 2 * i + 1
      · rw [if_pos h1]
      · rw [if_neg h1]
        split
        · split
          · exact ((ih _ _ _ (by simp [swapL] ; omega)).trans
              (swapL_perm h i (2 * i + 2) (by omega) (by omega)))
          · exact List.Perm.refl h
        · split
          · exact ((ih _ _ _ (by simp [swapL] ; omega)).trans
              (swapL_perm h i (2 * i + 1) (by omega) (by omega)))
          · exact List.Perm.refl h

theorem down_perm (h : List HtNode) (i n : Nat) (hn : n ≤ h.length) :
    (down h i n).Perm h := downAux_perm n h i n hn

theorem upAux_perm (fuel : Nat) :
    ∀ (h : List HtNode) (j : Nat), j < h.length → (upAux fuel h j).Perm h := by
  induction fuel with
  | zero => intro h j _ ; exact List.Perm.refl h
  | succ fuel ih =>
      intro h j hj
      rw [upAux]
      split
      · exact List.Perm.refl h
      · exact ((ih _ _ (by simp [swapL] ; omega)).trans
          (swapL_perm h ((j - 1) / 2) j (by omega) hj))

theorem up_perm (h : List HtNode) (j : Nat) (hj : j < h.length) :
    (up h j).Perm h := upAux_perm (j + 1) h j hj

theorem initAux_perm (k : Nat) :
    ∀ (h : List HtNode), (initAux k h).Perm h := by
  induction k with
  | zero => intro h ; exact List.Perm.refl h
  | succ k ih =>
      intro h
      rw [initAux]
      exact (ih _).trans (down_perm h k h.length (le_refl _))

theorem heapInit_perm (h : List HtNode) : (heapInit h).Perm h :=
  initAux_perm (h.length / 2) h

theorem pushHeap_perm (h : List HtNode) (x : HtNode) :
    (pushHeap h x).Perm (x :: h) := by
  have h1 : (up (h ++ [x]) h.length).Perm (h ++ [x]) :=
    up_perm _ _ (by simp)
  exact h1.trans (List.perm_append_singleton x h)

theorem popHeap_perm (h : List HtNode) (hne : h ≠ []) :
    ((popHeap h).1 :: (popHeap h).2).Perm h := by
  have hlen : 0 < h.length := List.length_pos.mpr hne
  have hperm : (down (swapL h 0 (h.length - 1)) 0 (h.length - 1)).Perm h := by
    refine (down_perm _ 0 (h.length - 1) ?_).trans
      (swapL_perm h 0 (h.length - 1) (by omega) (by omega))
    simp only [swapL, List.length_set]
    omega
  set h1 := down (swapL h 0 (h.length - 1)) 0 (h.length - 1) with hh1
  have hlen1 : h1.length = h.length := hperm.length_eq
  have hidx : h.length - 1 < h1.length := by omega
  have hsplit : h1.take (h.length - 1) ++ [h1.getD (h.length - 1) default] = h1 := by
    rw [getD_eq_getElem _ _ _ hidx, List.take_concat_get' h1 _ hidx,
      List.take_of_length_le (by omega)]
  refine List.Perm.trans ?_ hperm
  show ((popHeap h).1 :: (popHeap h).2).Perm h1
  conv_rhs => rw [← hsplit]
  rw [popHeap]
  exact (List.perm_append_singleton _ _).symm

theorem popHeap_length (h : List HtNode) : (popHeap h).2.length = h.length - 1 := by
  by_cases hne : h = []
  · subst hne
    rfl
  · have hl := (popHeap_perm h hne).length_eq
    simp only [List.length_cons] at hl
    omega

/-- The leaf values of a tree, left to right. -/
def HtNode.leafVals : HtNode → List Nat
  | .leaf v _ => [v]
  | .node a b => a.leafVals ++ b.leafVals

/-- All leaf values of the trees in the heap. -/
def leafValsL (h : List HtNode) : List Nat := (h.map HtNode.leafVals).flatten

theorem leafValsL_perm {h h' : List HtNode} (hp : h.Perm h') :
    (leafValsL h).Perm (leafValsL h') :=
  List.Perm.flatten (hp.map HtNode.leafVals)

theorem leafValsL_cons (t : HtNode) (h : List HtNode) :
    leafValsL (t :: h) = t.leafVals ++ leafValsL h := rfl

/-- The combine loop ends with a single tree holding exactly the leaves
the heap started with. -/
theorem combineLoop_spec (fuel : Nat) :
    ∀ (h : List HtNode), 1 ≤ h.length → h.length ≤ fuel + 1 →
    ∃ t : HtNode, combineLoop fuel h = [t]
    ∧ (HtNode.leafVals t).Perm (leafValsL h) := by
  induction fuel with
  | zero =>
      intro h h1 h2
      match h, h1, h2 with
      | [t], _, _ =>
        refine ⟨t, rfl, ?_⟩
        rw [leafValsL_cons]
        simp [leafValsL]
  | succ fuel ih =>
      intro h h1 h2
      rw [combineLoop]
      by_cases hle : h.length ≤ 1
      · rw [if_pos hle]
        match h, h1, hle with
        | [t], _, _ =>
          refine ⟨t, rfl, ?_⟩
          rw [leafValsL_cons]
          simp [leafValsL]
      · rw [if_neg hle]
        have hne : h ≠ [] := by
          intro hnil
          rw [hnil] at h1
          simp at h1
        have hp1 := popHeap_perm h hne
        have hlen2 : (popHeap h).2.length = h.length - 1 := popHeap_length h
        have hne2 : (popHeap h).2 ≠ [] := by
          intro hnil
          rw [hnil] at hlen2
          simp at hlen2
          omega
        have hp2 := popHeap_perm (popHeap h).2 hne2
        have hlen3 : (popHeap (popHeap h).2).2.length = h.length - 2 := by
          rw [popHeap_length, hlen2]
          omega
        have hpush := pushHeap_perm (popHeap (popHeap h).2).2
          (HtNode.node (popHeap h).1 (popHeap (popHeap h).2).1)
        have hlenp : (pushHeap (popHeap (popHeap h).2).2
            (HtNode.node (popHeap h).1 (popHeap (popHeap h).2).1)).length
            = h.length - 1 := by
          rw [hpush.length_eq]
          simp only [List.length_cons, hlen3]
          omega
        obtain ⟨t, hct, hperm⟩ := ih (pushHeap (popHeap (popHeap h).2).2
          (HtNode.node (popHeap h).1 (popHeap (popHeap h).2).1)) (by omega) (by omega)
        refine ⟨t, hct, ?_⟩
        refine hperm.trans ?_
        refine (leafValsL_perm hpush).trans ?_
        rw [leafValsL_cons]
        show (HtNode.leafVals ((popHeap h).1) ++ HtNode.leafVals ((popHeap (popHeap h).2).1)
          ++ leafValsL (popHeap (popHeap h).2).2).Perm (leafValsL h)
        refine List.Perm.trans ?_ (leafValsL_perm hp1)
        rw [leafValsL_cons, List.append_assoc]
        refine List.Perm.append_left _ ?_
        refine List.Perm.trans ?_ (leafValsL_perm hp2)
        rw [leafValsL_cons]

/-! ## The depth-first walk as a list of (value, depth) pairs -/

/-- The `(leaf value, depth)` pairs of a subtree in the order the Go
stack walk processes them (right child first). -/
def leafPairs : HtNode → Nat → List (Nat × Nat)
  | .leaf v _, d => [(v, d)]
  | .node a b, d => leafPairs b (d + 1) ++ leafPairs a (d + 1)

def stackPairs : List (HtNode × Nat) → List (Nat × Nat)
  | [] => []
  | (t, d) :: rest => leafPairs t d ++ stackPairs rest

def setAll (cl : List Nat) (ps : List (Nat × Nat)) : List Nat :=
  ps.foldl (fun c p => c.set p.1 p.2) cl

def stackWeight (stack : List (HtNode × Nat)) : Nat :=
  (stack.map (fun p => p.1.sizeT)).sum

theorem sizeT_pos (t : HtNode) : 1 ≤ t.sizeT := by
  cases t <;> simp [HtNode.sizeT] <;> omega

theorem setAll_append (cl : List Nat) (a b : List (Nat × Nat)) :
    setAll cl (a ++ b) = setAll (setAll cl a) b := by
  simp [setAll, List.foldl_append]

theorem dfsLoop_eq (fuel : Nat) :
    ∀ (stack : List (HtNode × Nat)) (cl : List Nat), stackWeight stack ≤ fuel →
    dfsLoop fuel stack cl = setAll cl (stackPairs stack) := by
  induction fuel with
  | zero =>
      intro stack cl hw
      match stack with
      | [] => rfl
      | (t, d) :: rest =>
        exfalso
        have := sizeT_pos t
        simp [stackWeight] at hw
        omega
  | succ fuel ih =>
      intro stack cl hw
      match stack with
      | [] => rfl
      | (.leaf v c, d) :: rest =>
        rw [dfsLoop, ih rest (cl.set v d) (by simp [stackWeight, HtNode.sizeT] at hw ⊢ ; omega)]
        rfl
      | (.node a b, d) :: rest =>
        rw [dfsLoop, ih ((b, d + 1) :: (a, d + 1) :: rest) cl
          (by simp [stackWeight, HtNode.sizeT] at hw ⊢ ; omega)]
        show setAll cl (leafPairs b (d+1) ++ (leafPairs a (d+1) ++ stackPairs rest))
          = setAll cl ((leafPairs b (d+1) ++ leafPairs a (d+1)) ++ stackPairs rest)
        rw [List.append_assoc]

theorem leafVals_length (t : HtNode) : t.leafVals.length = t.leaves := by
  induction t with
  | leaf v c => rfl
  | node a b iha ihb => simp [HtNode.leafVals, HtNode.leaves, iha, ihb]

theorem leaves_pos (t : HtNode) : 1 ≤ t.leaves := by
  induction t with
  | leaf v c => exact le_refl 1
  | node a b iha ihb => simp [HtNode.leaves] ; omega

theorem depth_le_leaves (t : HtNode) : t.depth ≤ t.leaves - 1 := by
  induction t with
  | leaf v c => simp [HtNode.depth, HtNode.leaves]
  | node a b iha ihb =>
      have ha := leaves_pos a
      have hb := leaves_pos b
      simp [HtNode.depth, HtNode.leaves] at iha ihb ⊢
      omega

theorem leafPairs_depth_le (t : HtNode) :
    ∀ (d : Nat) (p : Nat × Nat), p ∈ leafPairs t d → p.2 ≤ d + t.depth := by
  induction t with
  | leaf v c =>
      intro d p hp
      simp [leafPairs] at hp
      simp [hp, HtNode.depth]
  | node a b iha ihb =>
      intro d p hp
      simp only [leafPairs, List.mem_append] at hp
      rcases hp with hp | hp
      · have := ihb (d + 1) p hp
        simp [HtNode.depth]
        omega
      · have := iha (d + 1) p hp
        simp [HtNode.depth]
        omega

theorem mem_setAll (ps : List (Nat × Nat)) :
    ∀ (cl : List Nat) (x : Nat), x ∈ setAll cl ps → x ∈ cl ∨ ∃ p ∈ ps, x = p.2 := by
  induction ps with
  | nil => intro cl x hx ; exact Or.inl hx
  | cons p rest ih =>
      intro cl x hx
      rcases ih (cl.set p.1 p.2) x hx with h | ⟨q, hq, hxq⟩
      · rcases List.mem_or_eq_of_mem_set h with h' | h'
        · exact Or.inl h'
        · exact Or.inr ⟨p, by simp, h'⟩
      · exact Or.inr ⟨q, by simp [hq], hxq⟩

theorem setAll_length (ps : List (Nat × Nat)) :
    ∀ cl : List Nat, (setAll cl ps).length = cl.length := by
  induction ps with
  | nil => intro cl ; rfl
  | cons p rest ih =>
      intro cl
      show (setAll (cl.set p.1 p.2) rest).length = cl.length
      rw [ih]
      simp

theorem mem_canonAssign (ps : List (Nat × Nat)) :
    ∀ (prev code : Nat) (ret : List HtCodeEntry) (x : HtCodeEntry),
    x ∈ canonAssign ps prev code ret → x ∈ ret ∨ ∃ q ∈ ps, x.length = q.2 := by
  induction ps with
  | nil => intro _ _ ret x hx ; exact Or.inl hx
  | cons p rest ih =>
      intro prev code ret x hx
      rw [canonAssign] at hx
      rcases ih _ _ _ x hx with h | ⟨q, hq, hxq⟩
      · rcases List.mem_or_eq_of_mem_set h with h' | h'
        · exact Or.inl h'
        · refine Or.inr ⟨p, by simp, ?_⟩
          rw [h']
      · exact Or.inr ⟨q, by simp [hq], hxq⟩

/-- The leaf values of the initial heap are exactly `0, …, n-1`. -/
theorem leafValsL_range (freq : List Nat) :
    leafValsL ((List.range freq.length).map (fun i => HtNode.leaf i (freq.getD i 0)))
      = List.range freq.length := by
  rw [leafValsL, List.map_map]
  have : (HtNode.leafVals ∘ fun i => HtNode.leaf i (freq.getD i 0)) = fun i => [i] := by
    funext i
    rfl
  rw [this]
  induction (List.range freq.length) with
  | nil => rfl
  | cons a l ihl => simp_all

/-- The single tree produced by the heap phase of `buildHuffmanCode`:
its leaf values are a permutation of `0, …, n-1`. -/
theorem buildTree_spec (freq : List Nat) (h1 : 1 ≤ freq.length) :
    ∃ root : HtNode,
      combineLoop (heapInit ((List.range freq.length).map
          (fun i => HtNode.leaf i (freq.getD i 0)))).length
        (heapInit ((List.range freq.length).map (fun i => HtNode.leaf i (freq.getD i 0))))
        = [root]
      ∧ root.leafVals.Perm (List.range freq.length) := by
  set L := (List.range freq.length).map (fun i => HtNode.leaf i (freq.getD i 0)) with hL
  have hlenL : L.length = freq.length := by simp [hL]
  have hperm := heapInit_perm L
  have hlen : (heapInit L).length = L.length := hperm.length_eq
  obtain ⟨root, hcomb, hleaf⟩ := combineLoop_spec (heapInit L).length (heapInit L)
    (by omega) (by omega)
  refine ⟨root, hcomb, ?_⟩
  refine hleaf.trans ?_
  refine (leafValsL_perm hperm).trans ?_
  rw [leafValsL_range]

/-- The code lengths `buildHuffmanCode` produces are bounded by the
alphabet size minus one: the Huffman tree has `freq.length` leaves, and no
binary tree is deeper than its leaf count minus one. -/
theorem buildHuffmanCode_lengths_le (freq : List Nat) (h1 : 1 ≤ freq.length) :
    ∀ e ∈ buildHuffmanCode freq, e.length ≤ freq.length - 1 := by
  obtain ⟨root, hcomb, hleaf⟩ := buildTree_spec freq h1
  intro e he
  rw [buildHuffmanCode] at he
  rw [hcomb] at he
  have hroot : ([root].getD 0 default) = root := rfl
  rw [hroot] at he
  have hleaves : root.leaves = freq.length := by
    rw [← leafVals_length, hleaf.length_eq, List.length_range]
  have hcl : dfsLoop root.sizeT [(root, 0)] (List.replicate freq.length 0)
      = setAll (List.replicate freq.length 0) (leafPairs root 0 ++ []) := by
    rw [dfsLoop_eq root.sizeT [(root, 0)] _ (by simp [stackWeight])]
    rfl
  rw [hcl] at he
  set cl := setAll (List.replicate freq.length 0) (leafPairs root 0 ++ []) with hclDef
  have hclLen : cl.length = freq.length := by
    rw [hclDef, setAll_length]
    simp
  have hclBound : ∀ x ∈ cl, x ≤ freq.length - 1 := by
    intro x hx
    rcases mem_setAll _ _ _ hx with h | ⟨p, hp, hxp⟩
    · have : x = 0 := List.eq_of_mem_replicate h
      omega
    · rw [List.append_nil] at hp
      have := leafPairs_depth_le root 0 p hp
      have hd := depth_le_leaves root
      omega
  rw [canonicalHuffmanCode] at he
  rcases mem_canonAssign _ _ _ _ _ he with h | ⟨q, hq, hxq⟩
  · have : e = default := List.eq_of_mem_replicate h
    rw [this]
    show 0 ≤ freq.length - 1
    omega
  · have hqvls : q ∈ (List.range cl.length).map (fun i => (i, cl.getD i 0)) :=
      (List.perm_insertionSort _ _).mem_iff.mp hq
    simp only [List.mem_map, List.mem_range] at hqvls
    obtain ⟨i, hi, hqi⟩ := hqvls
    rw [hxq, ← hqi]
    show cl.getD i 0 ≤ freq.length - 1
    apply hclBound
    rw [getD_eq_getElem _ _ _ hi]
    exact List.getElem_mem hi

theorem len64Aux_le (fuel : Nat) : ∀ x, len64Aux fuel x ≤ fuel := by
  induction fuel with
  | zero => intro x ; exact le_refl 0
  | succ fuel ih =>
      intro x
      rw [len64Aux]
      split
      · omega
      · have := ih (x / 2)
        omega

theorem freqAccum_length (f : List Nat) (bn : Nat) :
    (freqAccum f bn).length = max f.length (bn + 1) := by
  rw [freqAccum]
  simp
  omega

theorem freqOf_length_le (ds : List Nat) : (freqOf ds).length ≤ 64 := by
  suffices h : ∀ f : List Nat, f.length ≤ 64 →
      (ds.foldl (fun f d => freqAccum f (len64 d - 1)) f).length ≤ 64 by
    exact h [] (by simp)
  induction ds with
  | nil => intro f hf ; exact hf
  | cons d rest ih =>
      intro f hf
      rw [List.foldl_cons]
      apply ih
      rw [freqAccum_length]
      have h64 : len64 d ≤ 64 := len64Aux_le 64 d
      omega

theorem freqOf_length_pos (ds : List Nat) (hne : ds ≠ []) : 1 ≤ (freqOf ds).length := by
  suffices h : ∀ (l : List Nat) (f : List Nat), 1 ≤ f.length →
      1 ≤ (l.foldl (fun f d => freqAccum f (len64 d - 1)) f).length by
    match ds, hne with
    | d :: rest, _ =>
      rw [freqOf, List.foldl_cons]
      apply h
      rw [freqAccum_length]
      omega
  intro l
  induction l with
  | nil => intro f hf ; exact hf
  | cons d rest ih =>
      intro f hf
      rw [List.foldl_cons]
      apply ih
      rw [freqAccum_length]
      omega

theorem deltasAux_length (l : List Nat) :
    ∀ (prev : Nat) (ds : List Nat), deltasAux l prev = some ds → ds.length = l.length := by
  induction l with
  | nil =>
      intro prev ds h
      rw [deltasAux] at h
      cases h
      rfl
  | cons x rest ih =>
      intro prev ds h
      rw [deltasAux] at h
      split at h
      · cases h
      · revert h
        split
        · intro h ; cases h
        · next ds' hds' =>
            intro h
            cases h
            simp [ih _ _ hds']

/-! ## Claim C2: bounded codeword lengths -/

/-- **C2.** For every input set with `k ≥ 2` elements that passes the
sortedness check, every codeword length in the codebook produced by
`buildHuffmanCode` from the bitlength frequency vector is at most 63 (the
Huffman alphabet has at most 64 symbols, and no binary tree is deeper than
its leaf count minus one), and `htHeap.Less` implements the claimed
tie-break: count first, then smaller subtree depth. -/
theorem c2_max_codeword_length (set ds : List Nat) (hk : 2 ≤ set.length)
    (hds : deltasOf set = some ds) :
    (∀ e ∈ buildHuffmanCode (freqOf ds), e.length ≤ 63)
    ∧ (∀ a b : HtNode, htLess a b = true ↔
        (a.count < b.count ∨ (a.count = b.count ∧ a.depth < b.depth))) := by
  constructor
  · have hne : ds ≠ [] := by
      intro hnil
      match set, hk with
      | v :: rest, _ =>
        rw [deltasOf] at hds
        revert hds
        split
        · intro h ; cases h
        · next ds' hds' =>
            intro h
            cases h
            simp at hnil
    have h1 := freqOf_length_pos ds hne
    have h64 := freqOf_length_le ds
    intro e he
    have := buildHuffmanCode_lengths_le (freqOf ds) h1 e he
    omega
  · intro a b
    rw [htLess]
    split
    · next hc =>
        have hceq : a.count = b.count := by
          exact beq_iff_eq.mp hc
        simp [hceq, decide_eq_true_eq]
    · next hc =>
        have hcne : a.count ≠ b.count := by
          intro he
          rw [he] at hc
          simp at hc
        simp [decide_eq_true_eq]
        omega

/-- Concrete instance of C2 at the set `{0, 1}`. -/
theorem c2_max_codeword_length_witness :
    ((buildHuffmanCode (freqOf [1, 1])).getD 0 default).length ≤ 63 :=
  (c2_max_codeword_length [0, 1] [1, 1] (by decide) (by decide)).1 _ (by decide)

/-! ## Claim C4: reading beyond the end -/

/-- **C4 (counterexample).** For a stream with `k = 1` (bytes `01 05`,
the set `{5}`), calling `Read` with an output slice of length 2 *does*
mutate the decompressor: the single element is consumed from the stream
and written to `out[0]`, and `remaining` drops from 1 to 0 — and only then
is `NoMoreError` returned.  This refutes the claim's "does not mutate the
decompressor state … covers every cardinality k, including k = 1". -/
theorem c4_counterexample :
    (NewDecompressor [0x01, 0x05]).toOption.map
        (fun d => (d.remaining, (d.Read 2).1.remaining, (d.Read 2).2.1, (d.Read 2).2.2))
      = some (1, 0, [5], some .noMore) := by
  decide

/-- **C4 (amended).** A `Read` whose slice is longer than what remains
always fails (never a silent truncation); for every cardinality except an
armed `k = 1` stream it fails with `NoMoreError` without touching the
state; for the armed `k = 1` stream it first consumes and delivers the
single element (setting `remaining` to 0) and then reports `NoMoreError`. -/
theorem c4_read_beyond_end (d : Decompressor) (m : Nat) (h0 : 0 < m)
    (hlt : d.remaining < m) :
    (d.Read m).2.2 ≠ none
    ∧ ((d.size ≠ 1 ∨ d.remaining = 0) → d.Read m = (d, [], some .noMore))
    ∧ (d.size = 1 → d.remaining = 1 → (d.br.ReadUvarint).2.err = none →
        d.Read m = ({ d with br := (d.br.ReadUvarint).2, remaining := 0 },
          [(d.br.ReadUvarint).1], some .noMore)) := by
  rw [Decompressor.Read, if_neg (by omega : ¬m = 0)]
  by_cases hs0 : d.size = 0
  · rw [if_pos hs0]
    refine ⟨by simp, fun _ => rfl, fun h1 _ _ => ?_⟩
    rw [hs0] at h1
    cases h1
  · rw [if_neg hs0]
    by_cases hs1 : d.size = 1
    · rw [if_pos hs1]
      by_cases hr0 : d.remaining = 0
      · rw [if_pos hr0]
        refine ⟨by simp, fun _ => rfl, fun _ h2 _ => ?_⟩
        rw [hr0] at h2
        cases h2
      · rw [if_neg hr0]
        have hm2 : 1 < m := by omega
        constructor
        · cases he : (d.br.ReadUvarint).2.err with
          | some e => simp
          | none =>
              rw [if_pos hm2]
              simp
        · constructor
          · intro hcase
            rcases hcase with h | h
            · exact absurd hs1 h
            · exact absurd h hr0
          · intro _ _ he
            rw [he, if_pos hm2]
    · rw [if_neg hs1, if_pos hlt]
      exact ⟨by simp, fun _ => rfl, fun h1 _ _ => absurd h1 hs1⟩

/-- Concrete instance of the amended C4 at the exhausted empty stream. -/
theorem c4_read_beyond_end_witness :
    (⟨newBitReader [], 0, 0, none, 0, false⟩ : Decompressor).Read 1
      = (⟨newBitReader [], 0, 0, none, 0, false⟩, [], some .noMore) :=
  (c4_read_beyond_end ⟨newBitReader [], 0, 0, none, 0, false⟩ 1
    (by decide) (by decide)).2.1 (by decide)

/-! ## Claim C5: the endmarker check -/

/-- `ReadBits` only ever adds an `io.EOF` to the sticky error. -/
theorem ReadBits_err (r : BitReader) (l : Nat) :
    (r.ReadBits l).2.err = r.err ∨ (r.ReadBits l).2.err = some .eof := by
  rw [BitReader.ReadBits]
  split
  · exact Or.inl rfl
  · rcases hf : (r.readBitsI (min l r.size)).2.fill with ⟨b, r2⟩
    have herr : r2.err = r.err ∨ r2.err = some .eof := by
      rw [BitReader.fill] at hf
      split at hf
      · cases hf
        exact Or.inr rfl
      · cases hf
        exact Or.inl rfl
    cases b
    · exact herr
    · exact herr

/-- The payload phase of a `Read` call on an armed (`size ≥ 2`) stream:
either the trivial all-ones-delta loop or the prefix-table loop, together
with the reader position after it. -/
def decodeBody (d : Decompressor) (m : Nat) : Option (List Nat × BitReader × Nat × Bool) :=
  match d.tree with
  | none => some ((readTrivial m d.prev d.started).1, d.br,
      (readTrivial m d.prev d.started).2.1, (readTrivial m d.prev d.started).2.2)
  | some lut => readLoop lut m d.br d.prev d.started

/-- **C5.** On the `Read` call that brings `remaining` to 0 (`size ≥ 2`,
`remaining = m > 0`), after decoding the payload the decompressor reads
exactly 8 further bits; the call fails with `BadEndmarkerError` precisely
when they are not `0xAA`, and when they are `0xAA` it returns the reader's
own (I/O-level) error — success on a healthy stream. -/
theorem readFinish_rem0 (d : Decompressor) (vs : List Nat) (h : d.remaining = 0) :
    readFinish d vs = (if (d.br.ReadBits 8).1 ≠ 0xaa
      then ({ d with br := (d.br.ReadBits 8).2 }, vs, some .badEndmarker)
      else ({ d with br := (d.br.ReadBits 8).2 }, vs, (d.br.ReadBits 8).2.err)) := by
  rw [readFinish, if_pos h]

theorem c5_endmarker (d : Decompressor) (m : Nat) (vs : List Nat) (br1 : BitReader)
    (p' : Nat) (s' : Bool) (h2 : 2 ≤ d.size) (h0 : 0 < m) (hr : d.remaining = m)
    (hbody : decodeBody d m = some (vs, br1, p', s')) (hbe : br1.err = none) :
    ((d.Read m).2.2 = some .badEndmarker ↔ (br1.ReadBits 8).1 ≠ 0xaa)
    ∧ ((br1.ReadBits 8).1 = 0xaa → (d.Read m).2.2 = (br1.ReadBits 8).2.err)
    ∧ (d.Read m).1.br = (br1.ReadBits 8).2
    ∧ (d.Read m).2.1 = vs := by
  have hbad : (br1.ReadBits 8).2.err ≠ some .badEndmarker := by
    rcases ReadBits_err br1 8 with h | h
    · rw [h, hbe]
      simp
    · rw [h]
      simp
  have hrm : d.remaining - m = 0 := by omega
  rw [Decompressor.Read, if_neg (by omega : ¬m = 0), if_neg (by omega : ¬d.size = 0),
    if_neg (by omega : ¬d.size = 1), if_neg (by omega : ¬d.remaining < m)]
  rw [decodeBody] at hbody
  rcases htree : d.tree with _ | lut
  · rw [htree] at hbody
    injection hbody with htup
    injection htup with hv hrest
    injection hrest with hb hrest2
    dsimp only
    subst hb
    subst hv
    rw [readFinish_rem0 _ _ hrm]
    dsimp only
    by_cases hbyte : (d.br.ReadBits 8).1 = 0xaa
    · rw [if_neg (not_not_intro hbyte)]
      exact ⟨iff_of_false hbad (not_not_intro hbyte), fun _ => rfl, rfl, rfl⟩
    · rw [if_pos hbyte]
      exact ⟨iff_of_true rfl hbyte, fun hc => absurd hc hbyte, rfl, rfl⟩
  · rw [htree] at hbody
    replace hbody : readLoop lut m d.br d.prev d.started = some (vs, br1, p', s') := hbody
    dsimp only
    rw [hbody]
    dsimp only
    rw [readFinish_rem0 _ _ hrm]
    dsimp only
    by_cases hbyte : (br1.ReadBits 8).1 = 0xaa
    · rw [if_neg (not_not_intro hbyte)]
      exact ⟨iff_of_false hbad (not_not_intro hbyte), fun _ => rfl, rfl, rfl⟩
    · rw [if_pos hbyte]
      exact ⟨iff_of_true rfl hbyte, fun hc => absurd hc hbyte, rfl, rfl⟩

/-- The decompressor state produced by the header phase on the stream of
`{1, 2}` (bytes `02 41 30 AA`). -/
def dC5 : Decompressor :=
  match NewDecompressor [0x02, 0x41, 0x30, 0xaa] with
  | .ok d => d
  | .error _ => ⟨⟨[], 0, 0, none⟩, 0, 0, none, 0, false⟩

/-- The reader position after the payload of that stream: the endmarker
byte `0xAA` is the only remaining content. -/
def brC5 : BitReader := ⟨[], 0xaa, 8, none⟩

/-- Concrete instance of C5 at the stream of `{1, 2}` (bytes
`02 41 30 AA`): after the payload decodes to `[1, 2]` the final `Read`
checks the 8 remaining bits against `0xAA` and succeeds. -/
theorem c5_endmarker_witness :
    decodeBody dC5 2 = some ([1, 2], brC5, 2, true)
    ∧ (((dC5.Read 2).2.2 = some .badEndmarker ↔ (brC5.ReadBits 8).1 ≠ 0xaa)
       ∧ ((brC5.ReadBits 8).1 = 0xaa → (dC5.Read 2).2.2 = (brC5.ReadBits 8).2.err)
       ∧ (dC5.Read 2).1.br = (brC5.ReadBits 8).2
       ∧ (dC5.Read 2).2.1 = [1, 2]) :=
  ⟨rfl, c5_endmarker dC5 2 [1, 2] brC5 2 true (by decide) (by decide) (by decide) rfl rfl⟩

/-! ## Claim C7: the codebook run-length guard -/

/-- One `ReadBit` step when the head bit of the stream is known. -/
theorem ReadBit_head (r : BitReader) (hw : r.WF) (he : r.err = none)
    (b : Bool) (rest : List Bool) (hb : r.bits = b :: rest) :
    (r.ReadBit).1 = (if b then 1 else 0)
    ∧ (r.ReadBit).2.bits = rest
    ∧ (r.ReadBit).2.WF
    ∧ (r.ReadBit).2.err = none := by
  obtain ⟨h1, h2, h3, h4⟩ := ReadBit_spec r hw he (by rw [hb]; simp)
  refine ⟨?_, ?_, h3, h4⟩
  · rw [h1, hb]
    cases b <;> rfl
  · rw [h2, hb]
    rfl

/-- If the stream continues with more than `n - w` further zero-pairs of a
single unary-signed run, the delta loop fails with
`InvalidCodebookError`. -/
theorem unpackLoop_run_reject (n : Nat) (h : List Nat) (i : Nat) :
    ∀ (ss : List Bool) (w fuel : Nat) (change : Int) (r : BitReader)
    (rest : List Bool), r.WF → r.err = none →
    r.bits = ss.flatMap (fun s => [false, s]) ++ rest →
    w ≤ n → n < w + ss.length → n - w < fuel →
    (unpackLoopAux n fuel h i change w r).1 = .error .invalidCodebook := by
  intro ss
  induction ss with
  | nil =>
      intro w fuel change r rest _ _ _ hwn hnw _
      simp only [List.length_nil] at hnw
      omega
  | cons s ss ih =>
      intro w fuel change r rest hwf he hbits hwn hnw hfuel
      obtain ⟨f, rfl⟩ : ∃ f, fuel = f + 1 := ⟨fuel - 1, by omega⟩
      have hb1 : r.bits = false :: (s :: (ss.flatMap (fun s => [false, s]) ++ rest)) := by
        rw [hbits]
        rfl
      obtain ⟨hv1, hr1, hwf1, he1⟩ := ReadBit_head r hwf he false _ hb1
      rw [unpackLoopAux, if_neg (by rw [hv1]; simp)]
      by_cases hcond : n < w + 1
      · rw [if_pos hcond]
      · rw [if_neg hcond]
        obtain ⟨hv2, hr2, hwf2, he2⟩ := ReadBit_head (r.ReadBit).2 hwf1 he1 s _ hr1
        refine ih (w + 1) f _ _ rest hwf2 he2 hr2 (by omega) ?_ (by omega)
        simp only [List.length_cons] at hnw
        omega

/-- The signed count accumulated by a unary-signed run: `+1` per up-bit,
`-1` per down-bit. -/
def signSum : List Bool → Int
  | [] => 0
  | s :: ss => (if s then 1 else -1) + signSum ss

/-- If the unary-signed run consists of at most `n - w` zero-pairs and then
the terminating `1`, the delta loop consumes the run without error and
moves to the next symbol (or terminates when the table is full). -/
theorem unpackLoop_run_proceed (n : Nat) (h : List Nat) (i : Nat) :
    ∀ (ss : List Bool) (w fuel : Nat) (change : Int) (r : BitReader)
    (rest : List Bool), r.WF → r.err = none →
    r.bits = ss.flatMap (fun s => [false, s]) ++ true :: rest →
    w + ss.length ≤ n → ss.length < fuel →
    ∃ r' : BitReader, r'.WF ∧ r'.err = none ∧ r'.bits = rest
      ∧ unpackLoopAux n fuel h i change w r =
        (if i + 1 = n then
          (.ok (h.set i
            (byteOfInt8 (toInt8 (h.getD (i - 1) 0) + (change + signSum ss)))), r')
         else
          unpackLoopAux n (fuel - (ss.length + 1))
            (h.set i
              (byteOfInt8 (toInt8 (h.getD (i - 1) 0) + (change + signSum ss))))
            (i + 1) 0 0 r') := by
  intro ss
  induction ss with
  | nil =>
      intro w fuel change r rest hwf he hbits _ hfuel
      obtain ⟨f, rfl⟩ : ∃ f, fuel = f + 1 := ⟨fuel - 1, by omega⟩
      have hb1 : r.bits = true :: rest := by
        rw [hbits]
        rfl
      obtain ⟨hv1, hr1, hwf1, he1⟩ := ReadBit_head r hwf he true _ hb1
      refine ⟨(r.ReadBit).2, hwf1, he1, hr1, ?_⟩
      rw [unpackLoopAux, if_pos (by rw [hv1]; rfl)]
      rw [he1]
      have hc : change + signSum [] = change := by
        simp [signSum]
      rw [hc]
      rfl
  | cons s ss ih =>
      intro w fuel change r rest hwf he hbits hwn hfuel
      obtain ⟨f, rfl⟩ : ∃ f, fuel = f + 1 := ⟨fuel - 1, by omega⟩
      have hb1 : r.bits = false ::
          (s :: (ss.flatMap (fun s => [false, s]) ++ true :: rest)) := by
        rw [hbits]
        rfl
      obtain ⟨hv1, hr1, hwf1, he1⟩ := ReadBit_head r hwf he false _ hb1
      rw [unpackLoopAux, if_neg (by rw [hv1]; simp)]
      have hcond : ¬n < w + 1 := by
        simp only [List.length_cons] at hwn
        omega
      rw [if_neg hcond]
      obtain ⟨hv2, hr2, hwf2, he2⟩ := ReadBit_head (r.ReadBit).2 hwf1 he1 s _ hr1
      obtain ⟨r', hwf', he', hb', heq⟩ :=
        ih (w + 1) f _ _ rest hwf2 he2 hr2
          (by simp only [List.length_cons] at hwn; omega)
          (by simp only [List.length_cons] at hfuel; omega)
      refine ⟨r', hwf', he', hb', ?_⟩
      rw [heq]
      have hc : (if (((r.ReadBit).2.ReadBit).1 = 1) then change + 1 else change - 1)
          + signSum ss = change + signSum (s :: ss) := by
        rw [hv2]
        cases s
        · simp only [signSum, Bool.false_eq_true, if_false]
          norm_num
          ring
        · simp only [signSum, if_true]
          norm_num
          ring
      rw [hc]
      have hfe : f - (ss.length + 1) = f + 1 - ((s :: ss).length + 1) := by
        simp only [List.length_cons]
        omega
      rw [hfe]

/-- **C7** (corrected threshold). While parsing the codebook header with
`n = B + 1` symbols, the delta loop rejects with `InvalidCodebookError`
exactly when the accumulated magnitude of one unary-signed run — the
number of zero-pairs before the terminating `1` — exceeds `n = B + 1`
(not `B` as the spec states): a run of more than `n` zero-pairs fails,
while a run of at most `n` zero-pairs followed by `1` is consumed and
parsing proceeds to the next symbol. -/
theorem c7_run_threshold (n fuel : Nat) (h : List Nat) (i : Nat) (change : Int)
    (r : BitReader) (ss rest : List Bool) (hw : r.WF) (he : r.err = none)
    (hbits : r.bits = ss.flatMap (fun s => [false, s]) ++ rest) :
    (n < ss.length → n < fuel →
      (unpackLoopAux n fuel h i change 0 r).1 = .error .invalidCodebook)
    ∧ (ss.length ≤ n → ss.length < fuel →
        ∀ rest' : List Bool, rest = true :: rest' →
        ∃ (change' : Int) (r' : BitReader), r'.WF ∧ r'.err = none
          ∧ r'.bits = rest'
          ∧ unpackLoopAux n fuel h i change 0 r =
            (if i + 1 = n then
              (.ok (h.set i (byteOfInt8 (toInt8 (h.getD (i - 1) 0) + change'))),
                r')
             else
              unpackLoopAux n (fuel - (ss.length + 1))
                (h.set i (byteOfInt8 (toInt8 (h.getD (i - 1) 0) + change')))
                (i + 1) 0 0 r')) := by
  constructor
  · intro hlong hfuel
    exact unpackLoop_run_reject n h i ss 0 fuel change r rest hw he hbits
      (by omega) (by omega) (by omega)
  · intro hshort hfuel rest' hrest
    rw [hrest] at hbits
    obtain ⟨r', hwf', he', hb', heq⟩ :=
      unpackLoop_run_proceed n h i ss 0 fuel change r rest' hw he hbits
        (by omega) hfuel
    exact ⟨change + signSum ss, r', hwf', he', hb', heq⟩

/-- Concrete instance of the reject direction of C7: with `n = 2` symbols
a run of three zero-pairs (all-zero byte) makes the loop fail with
`InvalidCodebookError`. -/
theorem c7_run_threshold_witness :
    (unpackLoopAux 2 3 [3, 0] 1 0 0 (newBitReader [0x00])).1 =
      .error .invalidCodebook :=
  (c7_run_threshold 2 3 [3, 0] 1 0 (newBitReader [0x00])
    [false, false, false] [false, false]
    (newBitReader_WF [0x00] (by decide)) rfl (by decide)).1
    (by decide) (by decide)

/-- **C7 counterexample.** The header stream `C1 A0 01` declares `B = 1`
(its first 6-bit field is 1, so two symbols) and then encodes the second
length with a unary-signed run of magnitude 2, which *exceeds `B` = 1*;
the spec says this must be rejected, yet `unpackCodeLengths` accepts it
and returns the lengths `[3, 5]`. Only at magnitude 3 (stream `C1 A0 06`,
exceeding `B + 1 = 2`) does it reject with `InvalidCodebookError`. -/
theorem c7_counterexample :
    ((newBitReader [0xC1, 0xA0, 0x01]).ReadBits 6).1 = 1
    ∧ (unpackCodeLengths (newBitReader [0xC1, 0xA0, 0x01])).1 = .ok [3, 5]
    ∧ (unpackCodeLengths (newBitReader [0xC1, 0xA0, 0x06])).1 =
        .error .invalidCodebook := by
  exact ⟨rfl, rfl, rfl⟩

/-! ## Claim C6: codebook header round-trip -/

/-- The bit stream of one unary-signed length delta: `|l - prev|` pairs
`(0, sign)` and the terminating `1`. -/
def deltaRun (prev l : Nat) : List Bool :=
  (List.replicate (if l < prev then prev - l else l - prev)
    (!decide (l < prev))).flatMap (fun s => [false, s]) ++ [true]

/-- The bit stream of the whole delta section of the codebook header. -/
def deltaSeq : Nat → List Nat → List Bool
  | _, [] => []
  | prev, l :: ls => deltaRun prev l ++ deltaSeq l ls

/-- Every consecutive length delta has magnitude at most `n`. -/
def deltaOkB (n : Nat) : Nat → List Nat → Bool
  | _, [] => true
  | prev, l :: ls =>
    decide ((if l < prev then prev - l else l - prev) ≤ n) && deltaOkB n l ls

theorem signSum_replicate (k : Nat) (s : Bool) :
    signSum (List.replicate k s) = if s then (k : Int) else -(k : Int) := by
  induction k with
  | zero => cases s <;> simp [signSum]
  | succ k ih =>
      rw [List.replicate_succ]
      show (if s then (1 : Int) else -1) + signSum (List.replicate k s) = _
      rw [ih]
      cases s
      · simp only [Bool.false_eq_true, if_false]
        push_cast
        ring
      · simp only [if_true]
        push_cast
        ring

/-- Adding the signed count of a full run to the previous length recovers
the next length, byte-exactly, for lengths below 128. -/
theorem byteOfInt8_run (prev l : Nat) (hp : prev < 128) (hl : l < 128) :
    byteOfInt8 (toInt8 prev + ((0 : Int) + signSum (List.replicate
      (if l < prev then prev - l else l - prev) (!decide (l < prev))))) = l := by
  rw [signSum_replicate, toInt8, if_pos hp]
  show ((_ : Int) % 256).toNat = l
  by_cases hlt : l < prev
  · rw [if_pos hlt]
    rw [show (!decide (l < prev)) = false by rw [decide_eq_true hlt]; rfl]
    simp only [Bool.false_eq_true, if_false]
    have hval : (prev : Int) + ((0 : Int) + -((prev - l : Nat) : Int)) = (l : Int) := by
      omega
    rw [hval]
    omega
  · rw [if_neg hlt]
    rw [show (!decide (l < prev)) = true by rw [decide_eq_false hlt]; rfl]
    rw [if_pos rfl]
    have hval : (prev : Int) + ((0 : Int) + ((l - prev : Nat) : Int)) = (l : Int) := by
      omega
    rw [hval]
    omega

/-- Bits emitted by the pair loop of `htCode.Pack`. -/
theorem writePairs_bits (k : Nat) (s : Bool) :
    ∀ bw : BitWriter, bw.WF →
    (writePairs k (if s then 1 else 0) bw).bits
      = bw.bits ++ (List.replicate k s).flatMap (fun x => [false, x])
    ∧ (writePairs k (if s then 1 else 0) bw).WF := by
  induction k with
  | zero =>
      intro bw hw
      exact ⟨by simp [writePairs], hw⟩
  | succ k ih =>
      intro bw hw
      obtain ⟨h1, hw1⟩ := WriteBits_bits bw 0 1 hw (by norm_num) (by norm_num)
      obtain ⟨h2, hw2⟩ := WriteBits_bits (bw.WriteBits 0 1) (if s then 1 else 0) 1
        hw1 (by cases s <;> norm_num) (by norm_num)
      rw [writePairs]
      obtain ⟨h3, hw3⟩ := ih _ hw2
      refine ⟨?_, hw3⟩
      rw [h3, h2, h1]
      have hlow : lowBits (if s then 1 else 0) 1 = [s] := by
        cases s <;> rfl
      have hl0 : lowBits 0 1 = [false] := rfl
      rw [hlow, hl0, List.replicate_succ]
      simp

/-- Bits emitted by the per-symbol loop of `htCode.Pack`. -/
theorem packDeltas_bits :
    ∀ (ls : List Nat) (prev : Nat) (bw : BitWriter), bw.WF →
    (packDeltas ls prev bw).bits = bw.bits ++ deltaSeq prev ls
    ∧ (packDeltas ls prev bw).WF := by
  intro ls
  induction ls with
  | nil =>
      intro prev bw hw
      exact ⟨by simp [packDeltas, deltaSeq], hw⟩
  | cons l ls ih =>
      intro prev bw hw
      rw [packDeltas]
      have hsign : (if l < prev then 0 else 1)
          = (if (!decide (l < prev)) then 1 else 0) := by
        by_cases hlt : l < prev <;> simp [hlt]
      rw [hsign]
      obtain ⟨h1, hw1⟩ := writePairs_bits (if l < prev then prev - l else l - prev)
        (!decide (l < prev)) bw hw
      obtain ⟨h2, hw2⟩ := WriteBits_bits _ 1 1 hw1 (by norm_num) (by norm_num)
      obtain ⟨h3, hw3⟩ := ih l _ hw2
      refine ⟨?_, hw3⟩
      rw [h3, h2, h1]
      have hl1 : lowBits 1 1 = [true] := rfl
      rw [hl1, deltaSeq, deltaRun]
      simp [List.append_assoc]

/-- `htCode.Pack` emits the 6-bit symbol count minus one, the 6-bit first
length, and the unary-signed delta stream. -/
theorem Pack_bits (code : List HtCodeEntry) (bw : BitWriter) (hw : bw.WF)
    (h64 : code.length ≤ 64) (hl0 : (code.headD default).length < 64) :
    (Pack code bw).bits = bw.bits ++ lowBits (code.length - 1) 6
      ++ lowBits (code.headD default).length 6
      ++ deltaSeq (code.headD default).length
          ((code.drop 1).map (fun e => e.length))
    ∧ (Pack code bw).WF := by
  rw [Pack]
  obtain ⟨hA, hwA⟩ := WriteBits_bits bw (code.length - 1) 6 hw
    (by have : (2 : Nat) ^ 6 = 64 := by norm_num
        omega)
    (by norm_num)
  obtain ⟨hB, hwB⟩ := WriteBits_bits _ (code.headD default).length 6 hwA
    (by have : (2 : Nat) ^ 6 = 64 := by norm_num
        rw [this]
        exact hl0)
    (by norm_num)
  obtain ⟨hC, hwC⟩ := packDeltas_bits _ _ _ hwB
  refine ⟨?_, hwC⟩
  rw [hC, hB, hA]

/-- Setting position `i` and truncating just past it splits a list at `i`. -/
theorem take_succ_set {α : Type _} :
    ∀ (l : List α) (i : Nat) (a : α), i < l.length →
    (l.set i a).take (i + 1) = l.take i ++ [a] := by
  intro l
  induction l with
  | nil =>
      intro i a hi
      simp at hi
  | cons x xs ih =>
      intro i a hi
      cases i with
      | zero => rfl
      | succ i =>
          show x :: (xs.set i a).take (i + 1) = (x :: xs.take i) ++ [a]
          rw [ih i a (by simpa using hi)]
          rfl

theorem canonAssign_length :
    ∀ (ps : List (Nat × Nat)) (prev code : Nat) (ret : List HtCodeEntry),
    (canonAssign ps prev code ret).length = ret.length := by
  intro ps
  induction ps with
  | nil =>
      intro _ _ _
      rfl
  | cons p rest ih =>
      intro prev code ret
      rw [canonAssign]
      exact (ih _ _ _).trans (by simp)

theorem canonicalHuffmanCode_length (cl : List Nat) :
    (canonicalHuffmanCode cl).length = cl.length := by
  rw [canonicalHuffmanCode]
  exact (canonAssign_length _ _ _ _).trans (by simp)

/-- `buildHuffmanCode` returns one entry per symbol. -/
theorem buildHuffmanCode_length (freq : List Nat) (h1 : 1 ≤ freq.length) :
    (buildHuffmanCode freq).length = freq.length := by
  obtain ⟨root, hcomb, hleaf⟩ := buildTree_spec freq h1
  rw [buildHuffmanCode]
  rw [hcomb]
  have hroot : ([root].getD 0 default) = root := rfl
  rw [hroot]
  have hcl : dfsLoop root.sizeT [(root, 0)] (List.replicate freq.length 0)
      = setAll (List.replicate freq.length 0) (leafPairs root 0 ++ []) := by
    rw [dfsLoop_eq root.sizeT [(root, 0)] _ (by simp [stackWeight])]
    rfl
  rw [hcl, canonicalHuffmanCode_length, setAll_length]
  simp

/-- Lengths that all fit under a common bound have all their deltas under
that bound. -/
theorem deltaOkB_of_le (n m : Nat) :
    ∀ (ls : List Nat) (prev : Nat), prev ≤ m → (∀ x ∈ ls, x ≤ m) → m ≤ n →
    deltaOkB n prev ls = true := by
  intro ls
  induction ls with
  | nil =>
      intro _ _ _ _
      rfl
  | cons l ls ih =>
      intro prev hp hm hmn
      rw [deltaOkB, Bool.and_eq_true]
      refine ⟨?_, ih l (hm l (by simp)) (fun x hx => hm x (by simp [hx])) hmn⟩
      rw [decide_eq_true_eq]
      by_cases hlt : l < prev
      · rw [if_pos hlt]
        omega
      · rw [if_neg hlt]
        have := hm l (by simp)
        omega

/-- The delta loop of `unpackCodeLengths` decodes the delta stream of a
length list back into that list, filling the table left to right. -/
theorem unpackLoop_decode (n : Nat) :
    ∀ (ls : List Nat) (l : Nat) (h : List Nat) (i prev fuel : Nat)
    (r : BitReader) (rest : List Bool),
    r.WF → r.err = none →
    r.bits = deltaSeq prev (l :: ls) ++ rest →
    h.length = n → i + (l :: ls).length = n → 1 ≤ i →
    h.getD (i - 1) 0 = prev → prev < 128 → (∀ x ∈ l :: ls, x < 128) →
    deltaOkB n prev (l :: ls) = true →
    (l :: ls).length * (n + 1) ≤ fuel →
    ∃ r' : BitReader, r'.WF ∧ r'.err = none ∧ r'.bits = rest
      ∧ unpackLoopAux n fuel h i 0 0 r = (.ok (h.take i ++ l :: ls), r') := by
  intro ls
  induction ls with
  | nil =>
      intro l h i prev fuel r rest hwf he hbits hlen hcount h1i hgetD hp h128 hok
        hfuel
      rw [deltaOkB, Bool.and_eq_true, decide_eq_true_eq] at hok
      have hkn : (if l < prev then prev - l else l - prev) ≤ n := hok.1
      have hb : r.bits = (List.replicate (if l < prev then prev - l else l - prev)
          (!decide (l < prev))).flatMap (fun x => [false, x]) ++ true :: rest := by
        rw [hbits]
        simp [deltaSeq, deltaRun]
      simp only [List.length_cons, List.length_nil] at hcount hfuel
      obtain ⟨r', hwf', he', hb', heq⟩ := unpackLoop_run_proceed n h i _ 0 fuel 0
        r rest hwf he hb (by simp; omega) (by simp; omega)
      rw [List.length_replicate] at heq
      refine ⟨r', hwf', he', hb', ?_⟩
      rw [heq, if_pos (by omega : i + 1 = n), hgetD,
        byteOfInt8_run prev l hp (h128 l (by simp))]
      have hset : h.set i l = h.take i ++ [l] := by
        calc h.set i l = (h.set i l).take (i + 1) :=
              (List.take_of_length_le (by simp [hlen]; omega)).symm
          _ = h.take i ++ [l] := take_succ_set h i l (by omega)
      rw [hset]
  | cons lnext ls ih =>
      intro l h i prev fuel r rest hwf he hbits hlen hcount h1i hgetD hp h128 hok
        hfuel
      rw [deltaOkB, Bool.and_eq_true, decide_eq_true_eq] at hok
      have hkn : (if l < prev then prev - l else l - prev) ≤ n := hok.1
      have hb : r.bits = (List.replicate (if l < prev then prev - l else l - prev)
          (!decide (l < prev))).flatMap (fun x => [false, x])
          ++ true :: (deltaSeq l (lnext :: ls) ++ rest) := by
        rw [hbits]
        simp [deltaSeq, deltaRun]
      simp only [List.length_cons] at hcount hfuel
      have hfuel1 : 1 * (n + 1) ≤ fuel := by
        calc 1 * (n + 1) ≤ (ls.length + 1 + 1) * (n + 1) :=
              Nat.mul_le_mul_right _ (by omega)
          _ ≤ fuel := hfuel
      obtain ⟨r', hwf', he', hb', heq⟩ := unpackLoop_run_proceed n h i _ 0 fuel 0
        r (deltaSeq l (lnext :: ls) ++ rest) hwf he hb (by simp; omega)
        (by simp only [List.length_replicate]; omega)
      rw [List.length_replicate] at heq
      rw [heq, if_neg (by omega : ¬i + 1 = n), hgetD,
        byteOfInt8_run prev l hp (h128 l (by simp))]
      have hfuel' : (lnext :: ls).length * (n + 1)
          ≤ fuel - ((if l < prev then prev - l else l - prev) + 1) := by
        have hexp : (ls.length + 1 + 1) * (n + 1)
            = (lnext :: ls).length * (n + 1) + (n + 1) := by
          simp only [List.length_cons]
          ring
        rw [hexp] at hfuel
        omega
      obtain ⟨r'', hwf'', he'', hb'', heq2⟩ := ih lnext (h.set i l) (i + 1) l
        (fuel - ((if l < prev then prev - l else l - prev) + 1)) r' rest
        hwf' he' hb' (by simp [hlen])
        (by simp only [List.length_cons]; omega) (by omega)
        (by
          show (h.set i l).getD i 0 = l
          rw [getD_eq_getElem _ _ _ (by simp [hlen]; omega)]
          simp)
        (h128 l (by simp)) (fun x hx => h128 x (by simp [hx])) hok.2 hfuel'
      refine ⟨r'', hwf'', he'', hb'', ?_⟩
      rw [heq2]
      have hset : (h.set i l).take (i + 1) = h.take i ++ [l] :=
        take_succ_set h i l (by omega)
      rw [hset]
      simp

/-- `unpackCodeLengths` on a stream carrying a packed header recovers the
length list exactly. -/
theorem unpackCodeLengths_bits (l0 : Nat) (ls : List Nat) (r : BitReader)
    (rest : List Bool) (hw : r.WF) (he : r.err = none)
    (hbits : r.bits
      = lowBits ls.length 6 ++ (lowBits l0 6 ++ (deltaSeq l0 ls ++ rest)))
    (hB : ls.length < 64) (hl0 : l0 < 64) (h128 : ∀ x ∈ ls, x < 128)
    (hok : deltaOkB (ls.length + 1) l0 ls = true) :
    (unpackCodeLengths r).1 = .ok (l0 :: ls)
    ∧ (unpackCodeLengths r).2.bits = rest
    ∧ (unpackCodeLengths r).2.err = none := by
  have h64 : (2 : Nat) ^ 6 = 64 := by norm_num
  have hlen1 : 6 ≤ r.bits.length := by
    rw [hbits]
    simp
  obtain ⟨hv1, hb1, hw1, he1⟩ := ReadBits_spec r 6 hw he (by norm_num) hlen1
  have hv1' : (r.ReadBits 6).1 = ls.length := by
    rw [hv1, hbits, List.take_append_of_le_length (by simp),
      List.take_of_length_le (by simp), bitsToNat_lowBits]
    exact Nat.mod_eq_of_lt (by omega)
  have hb1' : (r.ReadBits 6).2.bits
      = lowBits l0 6 ++ (deltaSeq l0 ls ++ rest) := by
    rw [hb1, hbits, List.drop_append_of_le_length (by simp),
      List.drop_of_length_le (by simp), List.nil_append]
  have hlen2 : 6 ≤ (r.ReadBits 6).2.bits.length := by
    rw [hb1']
    simp
  obtain ⟨hv2, hb2, hw2, he2⟩ := ReadBits_spec _ 6 hw1 he1 (by norm_num) hlen2
  have hv2' : ((r.ReadBits 6).2.ReadBits 6).1 = l0 := by
    rw [hv2, hb1', List.take_append_of_le_length (by simp),
      List.take_of_length_le (by simp), bitsToNat_lowBits]
    exact Nat.mod_eq_of_lt (by omega)
  have hb2' : ((r.ReadBits 6).2.ReadBits 6).2.bits = deltaSeq l0 ls ++ rest := by
    rw [hb2, hb1', List.drop_append_of_le_length (by simp),
      List.drop_of_length_le (by simp), List.nil_append]
  rw [unpackCodeLengths]
  cases ls with
  | nil =>
      rw [if_pos (by rw [hv1']; rfl)]
      rw [he2]
      rw [hv1', hv2']
      refine ⟨by simp, ?_, rfl⟩
      rw [hb2']
      simp [deltaSeq]
  | cons l ls' =>
      rw [if_neg (by rw [hv1']; simp)]
      rw [hv1', hv2']
      have hgd : ((List.replicate ((l :: ls').length + 1) 0).set 0 l0).getD 0 0
          = l0 := by
        rw [getD_eq_getElem _ _ _ (by simp)]
        simp
      have hfuel : (l :: ls').length * ((l :: ls').length + 1 + 1)
          ≤ unpackFuel ((l :: ls').length + 1) := by
        rw [unpackFuel]
        calc (l :: ls').length * ((l :: ls').length + 1 + 1)
            ≤ ((l :: ls').length + 1 + 3) * ((l :: ls').length + 1 + 1) :=
              Nat.mul_le_mul_right _ (by omega)
          _ = ((l :: ls').length + 1 + 1) * ((l :: ls').length + 1 + 3) :=
              Nat.mul_comm _ _
      obtain ⟨r', hwf', he', hb', heq⟩ := unpackLoop_decode
        ((l :: ls').length + 1) ls' l
        ((List.replicate ((l :: ls').length + 1) 0).set 0 l0) 1 l0
        (unpackFuel ((l :: ls').length + 1))
        ((r.ReadBits 6).2.ReadBits 6).2 rest hw2 he2 hb2'
        (by simp) (by simp; omega) (by omega) hgd (by omega) h128 hok hfuel
      have htake : ((List.replicate ((l :: ls').length + 1) 0).set 0 l0).take 1
          = [l0] := by
        rw [List.replicate_succ]
        rfl
      rw [heq, htake]
      exact ⟨rfl, hb', he'⟩

/-- **C6.** For every codebook produced by `buildHuffmanCode` (1 to 64
symbols), `Pack` emits the symbol count minus one as a 6-bit field, then
`L(0)` as a 6-bit field, then one unary-signed delta per further symbol
(`deltaSeq`: equal is `1`, larger by `n` is `(01)^n 1`, smaller by `n` is
`(00)^n 1`), and `unpackCodeLengths` applied to a stream carrying those
bits returns exactly the original sequence of codeword lengths — the
single-symbol case, where no deltas are emitted, included. -/
theorem c6_pack_roundtrip (freq : List Nat) (r : BitReader) (rest : List Bool)
    (hk1 : 1 ≤ freq.length) (hk64 : freq.length ≤ 64)
    (hw : r.WF) (he : r.err = none)
    (hbits : r.bits = (Pack (buildHuffmanCode freq) newBitWriter).bits ++ rest) :
    (Pack (buildHuffmanCode freq) newBitWriter).bits
      = lowBits ((buildHuffmanCode freq).length - 1) 6
        ++ lowBits ((buildHuffmanCode freq).headD default).length 6
        ++ deltaSeq ((buildHuffmanCode freq).headD default).length
            (((buildHuffmanCode freq).drop 1).map (fun e => e.length))
    ∧ (unpackCodeLengths r).1
        = .ok ((buildHuffmanCode freq).map (fun e => e.length))
    ∧ (unpackCodeLengths r).2.bits = rest
    ∧ (unpackCodeLengths r).2.err = none := by
  have hclen : (buildHuffmanCode freq).length = freq.length :=
    buildHuffmanCode_length freq hk1
  have hbound := buildHuffmanCode_lengths_le freq hk1
  obtain ⟨c0, ctail, hcode⟩ : ∃ c0 ctail, buildHuffmanCode freq = c0 :: ctail := by
    rcases hcb : buildHuffmanCode freq with _ | ⟨c0, ctail⟩
    · rw [hcb] at hclen
      simp at hclen
      omega
    · exact ⟨c0, ctail, rfl⟩
  have hc0 : c0 ∈ buildHuffmanCode freq := by
    rw [hcode]
    simp
  have hc0len : c0.length ≤ freq.length - 1 := hbound c0 hc0
  have hhead : (buildHuffmanCode freq).headD default = c0 := by
    rw [hcode]
    rfl
  have hdrop : ((buildHuffmanCode freq).drop 1).map (fun e => e.length)
      = ctail.map (fun e => e.length) := by
    rw [hcode]
    rfl
  have hlsl : (ctail.map (fun e => e.length)).length = freq.length - 1 := by
    rw [List.length_map]
    have hct : ctail.length + 1 = freq.length := by
      rw [hcode] at hclen
      simpa using hclen
    omega
  have hlsle : ∀ x ∈ ctail.map (fun e => e.length), x ≤ freq.length - 1 := by
    intro x hx
    obtain ⟨e, he', hxe⟩ := List.mem_map.mp hx
    have := hbound e (by rw [hcode]; simp [he'])
    omega
  have h128 : ∀ x ∈ ctail.map (fun e => e.length), x < 128 := by
    intro x hx
    have := hlsle x hx
    omega
  obtain ⟨hPbits, hPwf⟩ := Pack_bits (buildHuffmanCode freq) newBitWriter
    newBitWriter_WF (by omega) (by rw [hhead]; omega)
  have hPbits' : (Pack (buildHuffmanCode freq) newBitWriter).bits
      = lowBits ((buildHuffmanCode freq).length - 1) 6
        ++ lowBits ((buildHuffmanCode freq).headD default).length 6
        ++ deltaSeq ((buildHuffmanCode freq).headD default).length
            (((buildHuffmanCode freq).drop 1).map (fun e => e.length)) := by
    rw [hPbits]
    simp only [newBitWriter_bits, List.nil_append]
  have hbits2 : r.bits = lowBits (ctail.map (fun e => e.length)).length 6
      ++ (lowBits c0.length 6
        ++ (deltaSeq c0.length (ctail.map (fun e => e.length)) ++ rest)) := by
    rw [hbits, hPbits', hhead, hdrop, hclen, ← hlsl]
    simp [List.append_assoc]
  obtain ⟨hu1, hu2, hu3⟩ := unpackCodeLengths_bits c0.length
    (ctail.map (fun e => e.length)) r rest hw he hbits2
    (by rw [hlsl]; omega) (by omega) h128
    (deltaOkB_of_le _ (freq.length - 1) _ _ hc0len hlsle (by rw [hlsl]; omega))
  refine ⟨hPbits', ?_, hu2, hu3⟩
  rw [hcode]
  simpa using hu1

/-- Concrete instance of C6: the two-symbol codebook of the frequency
vector `[1, 1]` packs to 13 bits (`B = 1`, `L(0) = 1`, one `equal` delta)
and unpacks back to the lengths `[1, 1]`. -/
theorem c6_pack_roundtrip_witness :
    (Pack (buildHuffmanCode [1, 1]) newBitWriter).bits
      = lowBits ((buildHuffmanCode [1, 1]).length - 1) 6
        ++ lowBits ((buildHuffmanCode [1, 1]).headD default).length 6
        ++ deltaSeq ((buildHuffmanCode [1, 1]).headD default).length
            (((buildHuffmanCode [1, 1]).drop 1).map (fun e => e.length))
    ∧ (unpackCodeLengths (newBitReader [0x41, 0x10])).1
        = .ok ((buildHuffmanCode [1, 1]).map (fun e => e.length))
    ∧ (unpackCodeLengths (newBitReader [0x41, 0x10])).2.bits
        = [false, false, false]
    ∧ (unpackCodeLengths (newBitReader [0x41, 0x10])).2.err = none :=
  c6_pack_roundtrip [1, 1] (newBitReader [0x41, 0x10]) [false, false, false]
    (by decide) (by decide) (newBitReader_WF _ (by decide)) rfl (by decide)

/-! ## Claim C1: universal round-trip — canonical code geometry -/

/-- The codeword-assignment loop of `canonicalHuffmanCode` as a pure list
of `(value, code, length)` triples (before bit reversal). -/
def assignCodes : List (Nat × Nat) → Nat → Nat → List (Nat × Nat × Nat)
  | [], _, _ => []
  | (v, l) :: rest, prevLength, code =>
    (v, if l ≠ prevLength then code <<< (l - prevLength) else code, l)
      :: assignCodes rest l ((if l ≠ prevLength then code <<< (l - prevLength) else code) + 1)

/-- `canonAssign` is the fold of entry updates over `assignCodes`. -/
theorem canonAssign_eq_assignCodes :
    ∀ (ps : List (Nat × Nat)) (prev code : Nat) (ret : List HtCodeEntry),
    canonAssign ps prev code ret
      = (assignCodes ps prev code).foldl
          (fun r t => r.set t.1 ⟨reverse64 t.2.1 >>> (64 - t.2.2), t.2.2⟩) ret := by
  intro ps
  induction ps with
  | nil =>
      intro prev code ret
      rfl
  | cons p rest ih =>
      intro prev code ret
      rcases p with ⟨v, l⟩
      rw [canonAssign, assignCodes]
      rw [ih]
      rfl

/-- The scaled Kraft weight of a `(value, length)` list. -/
def kraftS (ps : List (Nat × Nat)) : Nat :=
  (ps.map (fun p => 2 ^ (64 - p.2))).sum

@[simp] theorem kraftS_nil : kraftS [] = 0 := rfl

theorem kraftS_cons (p : Nat × Nat) (ps : List (Nat × Nat)) :
    kraftS (p :: ps) = 2 ^ (64 - p.2) + kraftS ps := by
  rw [kraftS, List.map_cons, List.sum_cons, kraftS]

/-- The master facts about the canonical assignment: values and lengths are
kept in order; the scaled intervals `[c·2^(64-l), (c+1)·2^(64-l))` of the
assigned codes are pairwise ordered, sit inside the window starting at the
current scaled position, and tile it completely. -/
theorem assignCodes_spec :
    ∀ (ps : List (Nat × Nat)) (prev code : Nat),
    List.Chain (· ≤ ·) prev (ps.map (fun p => p.2)) →
    (∀ p ∈ ps, p.2 ≤ 64) → prev ≤ 64 →
    ((assignCodes ps prev code).map (fun t => (t.1, t.2.2)) = ps)
    ∧ List.Pairwise
        (fun a b => a.2.1 * 2 ^ (64 - a.2.2) + 2 ^ (64 - a.2.2)
          ≤ b.2.1 * 2 ^ (64 - b.2.2))
        (assignCodes ps prev code)
    ∧ (∀ t ∈ assignCodes ps prev code,
        code * 2 ^ (64 - prev) ≤ t.2.1 * 2 ^ (64 - t.2.2)
        ∧ t.2.1 * 2 ^ (64 - t.2.2) + 2 ^ (64 - t.2.2)
          ≤ code * 2 ^ (64 - prev) + kraftS ps)
    ∧ (∀ A, code * 2 ^ (64 - prev) ≤ A → A < code * 2 ^ (64 - prev) + kraftS ps →
        ∃ t ∈ assignCodes ps prev code,
          t.2.1 * 2 ^ (64 - t.2.2) ≤ A
          ∧ A < t.2.1 * 2 ^ (64 - t.2.2) + 2 ^ (64 - t.2.2)) := by
  intro ps
  induction ps with
  | nil =>
      intro prev code _ _ _
      refine ⟨rfl, List.Pairwise.nil, ?_, ?_⟩
      · intro t ht
        rw [assignCodes] at ht
        cases ht
      · intro A h1 h2
        rw [kraftS_nil] at h2
        omega
  | cons p rest ih =>
      intro prev code hch hle hprev
      rcases p with ⟨v, l⟩
      rw [List.map_cons] at hch
      have hpl : prev ≤ l := (List.chain_cons.mp hch).1
      have hch' : List.Chain (· ≤ ·) l (rest.map (fun p => p.2)) :=
        (List.chain_cons.mp hch).2
      have hl64 : l ≤ 64 := hle (v, l) (by simp)
      have hbase : (if l ≠ prev then code <<< (l - prev) else code) * 2 ^ (64 - l)
          = code * 2 ^ (64 - prev) := by
        by_cases heq : l = prev
        · rw [if_neg (by omega)]
          rw [heq]
        · rw [if_pos (by omega)]
          rw [Nat.shiftLeft_eq, Nat.mul_assoc, ← pow_add]
          have he : l - prev + (64 - l) = 64 - prev := by omega
          rw [he]
      obtain ⟨ih1, ih2, ih3, ih4⟩ :=
        ih l ((if l ≠ prev then code <<< (l - prev) else code) + 1) hch'
          (fun q hq => hle q (by simp [hq])) hl64
      have hbase' : ((if l ≠ prev then code <<< (l - prev) else code) + 1)
            * 2 ^ (64 - l)
          = code * 2 ^ (64 - prev) + 2 ^ (64 - l) := by
        rw [Nat.add_mul, Nat.one_mul, hbase]
      refine ⟨?_, ?_, ?_, ?_⟩
      · rw [assignCodes, List.map_cons, ih1]
      · rw [assignCodes]
        refine List.pairwise_cons.mpr ⟨?_, ih2⟩
        intro t ht
        have hlow := (ih3 t ht).1
        dsimp only
        rw [show (if l ≠ prev then code <<< (l - prev) else code) * 2 ^ (64 - l)
              + 2 ^ (64 - l)
            = ((if l ≠ prev then code <<< (l - prev) else code) + 1) * 2 ^ (64 - l)
          from by ring]
        exact hlow
      · rw [assignCodes]
        intro t ht
        rcases List.mem_cons.mp ht with h | h
        · subst h
          rw [kraftS_cons]
          dsimp only
          rw [hbase]
          exact ⟨le_refl _, Nat.add_le_add_left (Nat.le_add_right _ _) _⟩
        · obtain ⟨h1, h2⟩ := ih3 t h
          rw [kraftS_cons]
          dsimp only
          refine ⟨le_trans ?_ h1, le_of_le_of_eq h2 (by rw [hbase', Nat.add_assoc])⟩
          rw [hbase']
          exact Nat.le_add_right _ _
      · intro A hA1 hA2
        rw [kraftS_cons] at hA2
        dsimp only at hA2
        by_cases hin : A < code * 2 ^ (64 - prev) + 2 ^ (64 - l)
        · refine ⟨(v, if l ≠ prev then code <<< (l - prev) else code, l),
            by rw [assignCodes]; exact List.mem_cons_self _ _, ?_, ?_⟩
          · dsimp only
            rw [hbase]
            exact hA1
          · dsimp only
            rw [hbase]
            exact hin
        · obtain ⟨t, ht, hc1, hc2⟩ := ih4 A (by rw [hbase']; omega)
            (by rw [hbase']; omega)
          exact ⟨t, by rw [assignCodes]; exact List.mem_cons_of_mem _ ht, hc1, hc2⟩

theorem kraftS_append (x y : List (Nat × Nat)) :
    kraftS (x ++ y) = kraftS x + kraftS y := by
  rw [kraftS, List.map_append, List.sum_append, kraftS, kraftS]

theorem kraftS_perm {x y : List (Nat × Nat)} (h : x.Perm y) :
    kraftS x = kraftS y := by
  rw [kraftS, kraftS]
  exact (h.map _).sum_eq

/-- Kraft equality for the full binary Huffman tree: the scaled interval
widths of the leaves of a subtree rooted at depth `d` sum to the width of
the subtree's own window. -/
theorem kraftS_leafPairs (t : HtNode) :
    ∀ d, t.depth + d ≤ 64 → kraftS (leafPairs t d) = 2 ^ (64 - d) := by
  induction t with
  | leaf v c =>
      intro d hd
      rw [leafPairs]
      rw [kraftS_cons, kraftS_nil]
      simp
  | node a b iha ihb =>
      intro d hd
      rw [HtNode.depth] at hd
      rw [leafPairs, kraftS_append,
        ihb (d + 1) (by omega), iha (d + 1) (by omega)]
      have he : 64 - d = (64 - (d + 1)) + 1 := by omega
      rw [he, pow_succ]
      ring

/-- The leaf values, in the order `leafPairs` lists them. -/
theorem leafPairs_map_fst (t : HtNode) :
    ∀ d, ((leafPairs t d).map Prod.fst).Perm t.leafVals := by
  induction t with
  | leaf v c =>
      intro d
      rw [leafPairs, HtNode.leafVals]
      simp
  | node a b iha ihb =>
      intro d
      rw [leafPairs, HtNode.leafVals, List.map_append]
      exact ((ihb (d + 1)).append (iha (d + 1))).trans List.perm_append_comm

theorem setAll_getD_other :
    ∀ (ps : List (Nat × Nat)) (cl : List Nat) (v : Nat),
    (∀ p ∈ ps, p.1 ≠ v) → (setAll cl ps).getD v 0 = cl.getD v 0 := by
  intro ps
  induction ps with
  | nil =>
      intro cl v _
      rfl
  | cons p rest ih =>
      intro cl v hne
      show (setAll (cl.set p.1 p.2) rest).getD v 0 = cl.getD v 0
      rw [ih _ _ (fun q hq => hne q (by simp [hq]))]
      rw [List.getD_eq_getElem?_getD, List.getD_eq_getElem?_getD,
        List.getElem?_set_ne (hne p (by simp))]

theorem setAll_getD_mem :
    ∀ (ps : List (Nat × Nat)) (cl : List Nat) (v x : Nat),
    (v, x) ∈ ps → (ps.map Prod.fst).Nodup → v < cl.length →
    (setAll cl ps).getD v 0 = x := by
  intro ps
  induction ps with
  | nil =>
      intro cl v x hm _ _
      cases hm
  | cons p rest ih =>
      intro cl v x hm hnd hv
      rw [List.map_cons, List.nodup_cons] at hnd
      rcases List.mem_cons.mp hm with h | h
      · have hp1 : p.1 = v := by rw [← h]
        have hp2 : p.2 = x := by rw [← h]
        show (setAll (cl.set p.1 p.2) rest).getD v 0 = x
        rw [setAll_getD_other rest _ v
          (fun q hq hqv => hnd.1 (by rw [hp1, ← hqv]; exact List.mem_map_of_mem _ hq))]
        rw [hp1]
        rw [getD_eq_getElem _ _ _ (by simpa using hv)]
        simp [hp2]
      · show (setAll (cl.set p.1 p.2) rest).getD v 0 = x
        exact ih _ v x h hnd.2 (by simpa using hv)

/-- The entry-writing fold of `canonAssign`, isolated. -/
def applyEntries (qs : List (Nat × Nat × Nat)) (ret : List HtCodeEntry) :
    List HtCodeEntry :=
  qs.foldl (fun r t => r.set t.1 ⟨reverse64 t.2.1 >>> (64 - t.2.2), t.2.2⟩) ret

theorem canonAssign_eq_applyEntries (ps : List (Nat × Nat)) (prev code : Nat)
    (ret : List HtCodeEntry) :
    canonAssign ps prev code ret = applyEntries (assignCodes ps prev code) ret :=
  canonAssign_eq_assignCodes ps prev code ret

theorem applyEntries_getD_other :
    ∀ (qs : List (Nat × Nat × Nat)) (ret : List HtCodeEntry) (v : Nat),
    (∀ q ∈ qs, q.1 ≠ v) →
    (applyEntries qs ret).getD v default = ret.getD v default := by
  intro qs
  induction qs with
  | nil =>
      intro ret v _
      rfl
  | cons q rest ih =>
      intro ret v hne
      show (applyEntries rest (ret.set q.1 _)).getD v default = ret.getD v default
      rw [ih _ _ (fun p hp => hne p (by simp [hp]))]
      rw [List.getD_eq_getElem?_getD, List.getD_eq_getElem?_getD,
        List.getElem?_set_ne (hne q (by simp))]

theorem applyEntries_getD_mem :
    ∀ (qs : List (Nat × Nat × Nat)) (ret : List HtCodeEntry) (v c l : Nat),
    (v, c, l) ∈ qs → (qs.map (fun q => q.1)).Nodup → v < ret.length →
    (applyEntries qs ret).getD v default = ⟨reverse64 c >>> (64 - l), l⟩ := by
  intro qs
  induction qs with
  | nil =>
      intro ret v c l hm _ _
      cases hm
  | cons q rest ih =>
      intro ret v c l hm hnd hv
      rw [List.map_cons, List.nodup_cons] at hnd
      rcases List.mem_cons.mp hm with h | h
      · have hq1 : q.1 = v := by rw [← h]
        have hq2 : q.2.1 = c := by rw [← h]
        have hq3 : q.2.2 = l := by rw [← h]
        show (applyEntries rest (ret.set q.1 _)).getD v default = _
        rw [applyEntries_getD_other rest _ v
          (fun p hp hpv => hnd.1 (by rw [hq1, ← hpv]; exact List.mem_map_of_mem _ hp))]
        rw [hq1]
        rw [getD_eq_getElem _ _ _ (by simpa using hv)]
        simp [hq2, hq3]
      · show (applyEntries rest (ret.set q.1 _)).getD v default = _
        exact ih _ v c l h hnd.2 (by simpa using hv)

instance : IsTotal (Nat × Nat) (fun a b => a.2 < b.2 ∨ (a.2 = b.2 ∧ a.1 ≤ b.1)) :=
  ⟨by intro a b; omega⟩

instance : IsTrans (Nat × Nat) (fun a b => a.2 < b.2 ∨ (a.2 = b.2 ∧ a.1 ≤ b.1)) :=
  ⟨by intro a b c hab hbc; omega⟩

/-- The lengths of the `(length, value)`-sorted symbol list form a
nondecreasing chain from 0. -/
theorem sorted_lengths_chain (vls : List (Nat × Nat)) :
    List.Chain (· ≤ ·) 0
      ((List.insertionSort
        (fun a b => a.2 < b.2 ∨ (a.2 = b.2 ∧ a.1 ≤ b.1)) vls).map
          (fun p => p.2)) := by
  have hs := List.sorted_insertionSort
    (fun a b : Nat × Nat => a.2 < b.2 ∨ (a.2 = b.2 ∧ a.1 ≤ b.1)) vls
  have hpw : List.Pairwise (· ≤ ·)
      ((List.insertionSort
        (fun a b => a.2 < b.2 ∨ (a.2 = b.2 ∧ a.1 ≤ b.1)) vls).map
          (fun p => p.2)) := by
    refine List.Pairwise.map _ ?_ hs
    intro a b hab
    omega
  rw [List.chain_iff_pairwise]
  refine List.pairwise_cons.mpr ⟨?_, hpw⟩
  intro x _
  omega

/-- The `(value, length)` list of a length table, in value order. -/
def vlsOf (cl : List Nat) : List (Nat × Nat) :=
  (List.range cl.length).map (fun i => (i, cl.getD i 0))

/-- The same list sorted by `(length, value)`, as `canonicalHuffmanCode`
sorts it. -/
def sortedVls (cl : List Nat) : List (Nat × Nat) :=
  List.insertionSort (fun a b => a.2 < b.2 ∨ (a.2 = b.2 ∧ a.1 ≤ b.1)) (vlsOf cl)

/-- The canonical codes of a length table, before bit reversal, as
`(value, code, length)` triples in assignment order. -/
def codesOf (cl : List Nat) : List (Nat × Nat × Nat) :=
  assignCodes (sortedVls cl) 0 0

theorem sortedVls_perm (cl : List Nat) : (sortedVls cl).Perm (vlsOf cl) :=
  List.perm_insertionSort _ _

theorem canonicalHuffmanCode_eq (cl : List Nat) :
    canonicalHuffmanCode cl
      = applyEntries (codesOf cl) (List.replicate cl.length default) :=
  canonAssign_eq_applyEntries _ _ _ _

theorem mem_vlsOf (cl : List Nat) (v l : Nat) :
    (v, l) ∈ vlsOf cl ↔ v < cl.length ∧ l = cl.getD v 0 := by
  rw [vlsOf]
  constructor
  · intro h
    obtain ⟨i, hi, hp⟩ := List.mem_map.mp h
    obtain ⟨h1, h2⟩ := Prod.mk.injEq .. ▸ hp
    refine ⟨?_, ?_⟩
    · rw [← h1]
      exact List.mem_range.mp hi
    · rw [← h2, h1]
  · rintro ⟨hv, rfl⟩
    exact List.mem_map.mpr ⟨v, List.mem_range.mpr hv, rfl⟩

theorem vlsOf_len_le (cl : List Nat) (h64 : ∀ x ∈ cl, x ≤ 64) :
    ∀ p ∈ vlsOf cl, p.2 ≤ 64 := by
  intro p hp
  rcases p with ⟨v, l⟩
  obtain ⟨hv, rfl⟩ := (mem_vlsOf cl v l).mp hp
  refine h64 _ ?_
  rw [getD_eq_getElem cl v 0 hv]
  exact List.getElem_mem hv

/-- The packaged facts about `codesOf`: entry list, interval discipline,
and coverage.  `kraftS (vlsOf cl)` is the total scaled weight. -/
theorem codesOf_spec (cl : List Nat) (h64 : ∀ x ∈ cl, x ≤ 64) :
    ((codesOf cl).map (fun t => (t.1, t.2.2)) = sortedVls cl)
    ∧ List.Pairwise
        (fun a b => a.2.1 * 2 ^ (64 - a.2.2) + 2 ^ (64 - a.2.2)
          ≤ b.2.1 * 2 ^ (64 - b.2.2)) (codesOf cl)
    ∧ (∀ t ∈ codesOf cl,
        t.2.1 * 2 ^ (64 - t.2.2) + 2 ^ (64 - t.2.2) ≤ kraftS (vlsOf cl))
    ∧ (∀ A, A < kraftS (vlsOf cl) →
        ∃ t ∈ codesOf cl,
          t.2.1 * 2 ^ (64 - t.2.2) ≤ A
          ∧ A < t.2.1 * 2 ^ (64 - t.2.2) + 2 ^ (64 - t.2.2)) := by
  have hch := sorted_lengths_chain (vlsOf cl)
  have hle : ∀ p ∈ sortedVls cl, p.2 ≤ 64 := by
    intro p hp
    exact vlsOf_len_le cl h64 p ((sortedVls_perm cl).mem_iff.mp hp)
  obtain ⟨h1, h2, h3, h4⟩ := assignCodes_spec (sortedVls cl) 0 0 hch hle (by omega)
  have hkeq : kraftS (sortedVls cl) = kraftS (vlsOf cl) :=
    kraftS_perm (sortedVls_perm cl)
  refine ⟨h1, h2, ?_, ?_⟩
  · intro t ht
    have := (h3 t ht).2
    simpa [hkeq] using this
  · intro A hA
    obtain ⟨t, ht, hc1, hc2⟩ := h4 A (by simp) (by simpa [hkeq] using hA)
    exact ⟨t, ht, hc1, hc2⟩

/-- Every value of the table receives a code, and the codebook entry for
it is that code bit-reversed. -/
theorem codesOf_complete (cl : List Nat) (h64 : ∀ x ∈ cl, x ≤ 64) :
    ∀ v, v < cl.length →
    ∃ c, (v, c, cl.getD v 0) ∈ codesOf cl
      ∧ (canonicalHuffmanCode cl).getD v default
          = ⟨reverse64 c >>> (64 - cl.getD v 0), cl.getD v 0⟩ := by
  intro v hv
  obtain ⟨h1, _, _, _⟩ := codesOf_spec cl h64
  have hmem : (v, cl.getD v 0) ∈ sortedVls cl :=
    (sortedVls_perm cl).mem_iff.mpr ((mem_vlsOf cl v _).mpr ⟨hv, rfl⟩)
  rw [← h1] at hmem
  obtain ⟨t, ht, hteq⟩ := List.mem_map.mp hmem
  obtain ⟨ht1, ht2⟩ := Prod.mk.injEq .. ▸ hteq
  refine ⟨t.2.1, ?_, ?_⟩
  · have : t = (v, t.2.1, cl.getD v 0) := by
      rcases t with ⟨a, b, c⟩
      simp at ht1 ht2
      simp [ht1, ht2]
    rw [← this]
    exact ht
  · rw [canonicalHuffmanCode_eq]
    have hnd : ((codesOf cl).map (fun q => q.1)).Nodup := by
      have : (codesOf cl).map (fun q => q.1)
          = ((codesOf cl).map (fun t => (t.1, t.2.2))).map (fun p => p.1) := by
        rw [List.map_map]
        rfl
      rw [this, h1]
      have hvnd : ((vlsOf cl).map (fun p => p.1)).Nodup := by
        rw [vlsOf, List.map_map]
        have : ((fun p => p.1) ∘ fun i => (i, cl.getD i 0)) = fun i : Nat => i := by
          funext i
          rfl
        rw [this]
        simp [List.nodup_range]
      exact (((sortedVls_perm cl).map (fun p => p.1)).nodup_iff).mpr hvnd
    have hmem2 : (v, t.2.1, cl.getD v 0) ∈ codesOf cl := by
      have : t = (v, t.2.1, cl.getD v 0) := by
        rcases t with ⟨a, b, c⟩
        simp at ht1 ht2
        simp [ht1, ht2]
      rw [← this]
      exact ht
    exact applyEntries_getD_mem _ _ v t.2.1 (cl.getD v 0) hmem2 hnd (by simp [hv])

/-- The stream bits of a canonical codeword: most-significant bit first,
which is the order in which both the writer and the trie walker see
them. -/
def pathOf (c l : Nat) : List Bool := (lowBits c l).reverse

@[simp] theorem length_pathOf (c l : Nat) : (pathOf c l).length = l := by
  rw [pathOf]
  simp

theorem take_pathOf (c' l' l : Nat) (h : l ≤ l') :
    (pathOf c' l').take l = pathOf (c' >>> (l' - l)) l := by
  have hsplit : lowBits c' l'
      = lowBits c' (l' - l) ++ lowBits (c' / 2 ^ (l' - l)) l := by
    have h2 := lowBits_append c' (l' - l) l
    rw [show (l' - l) + l = l' from by omega] at h2
    exact h2
  rw [pathOf, pathOf, Nat.shiftRight_eq_div_pow, hsplit, List.reverse_append,
    List.take_append_of_le_length (by simp), List.take_of_length_le (by simp)]

theorem pathOf_injective (a b l : Nat) (ha : a < 2 ^ l) (hb : b < 2 ^ l)
    (h : pathOf a l = pathOf b l) : a = b := by
  rw [pathOf, pathOf] at h
  have h2 := congrArg List.reverse h
  rw [List.reverse_reverse, List.reverse_reverse] at h2
  have h3 := congrArg bitsToNat h2
  rw [bitsToNat_lowBits, bitsToNat_lowBits, Nat.mod_eq_of_lt ha,
    Nat.mod_eq_of_lt hb] at h3
  exact h3

theorem pathOf_snoc (a l : Nat) (b : Bool) :
    pathOf (2 * a + (if b then 1 else 0)) (l + 1)
      = pathOf a l ++ [b] := by
  rw [pathOf, pathOf, lowBits_succ]
  have h1 : (2 * a + (if b then 1 else 0)) % 2 = (if b then 1 else 0) := by
    cases b <;> simp [Nat.add_mul_mod_self_left] <;> omega
  have h2 : (2 * a + (if b then 1 else 0)) / 2 = a := by
    cases b <;> omega
  rw [h1, h2, List.reverse_cons]
  congr 1
  cases b <;> simp

/-- Two dyadic intervals sharing a point are nested: the shorter prefix's
code is the shift of the longer one. -/
theorem dyadic_nested (c l c' l' A : Nat) (hl : l ≤ l')
    (h1 : c * 2 ^ (64 - l) ≤ A) (h2 : A < c * 2 ^ (64 - l) + 2 ^ (64 - l))
    (h1' : c' * 2 ^ (64 - l') ≤ A) (h2' : A < c' * 2 ^ (64 - l') + 2 ^ (64 - l'))
    (hl64 : l' ≤ 64) :
    c = c' >>> (l' - l) := by
  have hc : A / 2 ^ (64 - l) = c :=
    Nat.div_eq_of_lt_le h1 (by rw [Nat.add_mul, Nat.one_mul]; exact h2)
  have hc' : A / 2 ^ (64 - l') = c' :=
    Nat.div_eq_of_lt_le h1' (by rw [Nat.add_mul, Nat.one_mul]; exact h2')
  have he : (2 : Nat) ^ (64 - l') * 2 ^ (l' - l) = 2 ^ (64 - l) := by
    rw [← pow_add]
    congr 1
    omega
  rw [Nat.shiftRight_eq_div_pow, ← hc, ← hc', Nat.div_div_eq_div_mul, he]

/-- Nestedness back to intervals: if `c` is the shift of `c'` then the
interval of `c'` sits inside the interval of `c`. -/
theorem dyadic_sub (c l c' l' : Nat) (hl : l ≤ l') (hl64 : l' ≤ 64)
    (h : c = c' >>> (l' - l)) :
    c * 2 ^ (64 - l) ≤ c' * 2 ^ (64 - l')
    ∧ c' * 2 ^ (64 - l') + 2 ^ (64 - l') ≤ c * 2 ^ (64 - l) + 2 ^ (64 - l) := by
  rw [Nat.shiftRight_eq_div_pow] at h
  have hdm := Nat.div_add_mod c' (2 ^ (l' - l))
  have hmlt : c' % 2 ^ (l' - l) < 2 ^ (l' - l) := Nat.mod_lt _ (by positivity)
  have hsplit : 64 - l = (64 - l') + (l' - l) := by omega
  have hw : (2 : Nat) ^ (64 - l) = 2 ^ (l' - l) * 2 ^ (64 - l') := by
    rw [hsplit, pow_add]
    ring
  constructor
  · calc c * 2 ^ (64 - l) = (c' / 2 ^ (l' - l)) * (2 ^ (l' - l) * 2 ^ (64 - l')) := by
          rw [h, hw]
      _ = ((c' / 2 ^ (l' - l)) * 2 ^ (l' - l)) * 2 ^ (64 - l') := by ring
      _ ≤ c' * 2 ^ (64 - l') := by
          have : (c' / 2 ^ (l' - l)) * 2 ^ (l' - l) ≤ c' := Nat.div_mul_le_self _ _
          exact Nat.mul_le_mul_right _ this
  · have hup : c' + 1 ≤ (c' / 2 ^ (l' - l) + 1) * 2 ^ (l' - l) := by
      have hexp : (c' / 2 ^ (l' - l) + 1) * 2 ^ (l' - l)
          = 2 ^ (l' - l) * (c' / 2 ^ (l' - l)) + 2 ^ (l' - l) := by ring
      rw [hexp]
      omega
    calc c' * 2 ^ (64 - l') + 2 ^ (64 - l') = (c' + 1) * 2 ^ (64 - l') := by ring
      _ ≤ ((c' / 2 ^ (l' - l) + 1) * 2 ^ (l' - l)) * 2 ^ (64 - l') :=
          Nat.mul_le_mul_right _ hup
      _ = (c' / 2 ^ (l' - l) + 1) * 2 ^ (64 - l) := by
          rw [hw]
          ring
      _ = c * 2 ^ (64 - l) + 2 ^ (64 - l) := by
          rw [h, Nat.add_mul, Nat.one_mul]

/-- From a pairwise list, any two distinct member values are related one
way or the other. -/
theorem pairwise_mem_or {α : Type _} {R : α → α → Prop} :
    ∀ (l : List α), List.Pairwise R l →
    ∀ a b, a ∈ l → b ∈ l → a ≠ b → R a b ∨ R b a := by
  intro l h
  induction h with
  | nil =>
      intro a b ha _ _
      cases ha
  | @cons x xs hx _ ih =>
      intro a b ha hb hne
      rcases List.mem_cons.mp ha with rfl | ha'
      · rcases List.mem_cons.mp hb with rfl | hb'
        · exact absurd rfl hne
        · exact Or.inl (hx b hb')
      · rcases List.mem_cons.mp hb with rfl | hb'
        · exact Or.inr (hx a ha')
        · exact ih a b ha' hb' hne

/-- The bit-reversed stored code: its low `l` bits, read LSB-first, are
exactly the codeword path MSB-first; and it fits in `l` bits. -/
theorem rev_code_lowBits (c l : Nat) (hc : c < 2 ^ l) (hl : l ≤ 64) :
    lowBits (reverse64 c >>> (64 - l)) l = pathOf c l
    ∧ reverse64 c >>> (64 - l) < 2 ^ l := by
  have hrevlt : reverse64 c < 2 ^ 64 := by
    rw [reverse64]
    have := bitsToNat_lt ((lowBits c 64).reverse)
    simpa using this
  have hx : lowBits (reverse64 c) 64 = (lowBits c 64).reverse := by
    rw [reverse64]
    have h := lowBits_bitsToNat ((lowBits c 64).reverse)
    simpa using h
  constructor
  · have hdrop := drop_lowBits (reverse64 c) 64 (64 - l) (by omega)
    rw [show 64 - (64 - l) = l from by omega] at hdrop
    rw [← hdrop, hx, lowBits_of_lt c 64 l hl hc, List.reverse_append,
      List.drop_append_of_le_length (by simp),
      List.drop_of_length_le (by simp), List.nil_append, pathOf]
  · have := shiftRight_lt (reverse64 c) 64 (64 - l) hrevlt (by omega)
    rw [show 64 - (64 - l) = l from by omega] at this
    exact this

/-- Every assigned triple's `(value, length)` comes from the table. -/
theorem codesOf_vl (cl : List Nat) (h64 : ∀ x ∈ cl, x ≤ 64) :
    ∀ t ∈ codesOf cl, t.1 < cl.length ∧ t.2.2 = cl.getD t.1 0
      ∧ t.2.2 ≤ 64 := by
  intro t ht
  obtain ⟨h1, _, _, _⟩ := codesOf_spec cl h64
  have hm : (t.1, t.2.2) ∈ sortedVls cl := by
    rw [← h1]
    exact List.mem_map.mpr ⟨t, ht, rfl⟩
  have hv := (mem_vlsOf cl t.1 t.2.2).mp ((sortedVls_perm cl).mem_iff.mp hm)
  refine ⟨hv.1, hv.2, ?_⟩
  exact vlsOf_len_le cl h64 (t.1, t.2.2) ((sortedVls_perm cl).mem_iff.mp hm)

theorem codesOf_keys_nodup (cl : List Nat) (h64 : ∀ x ∈ cl, x ≤ 64) :
    ((codesOf cl).map (fun q => q.1)).Nodup := by
  obtain ⟨h1, _, _, _⟩ := codesOf_spec cl h64
  have h2 : (codesOf cl).map (fun q => q.1)
      = ((codesOf cl).map (fun t => (t.1, t.2.2))).map (fun p => p.1) := by
    rw [List.map_map]
    rfl
  rw [h2, h1]
  have hvnd : ((vlsOf cl).map (fun p => p.1)).Nodup := by
    rw [vlsOf, List.map_map]
    have he : ((fun p => p.1) ∘ fun i => (i, cl.getD i 0)) = fun i : Nat => i := by
      funext i
      rfl
    rw [he]
    simp [List.nodup_range]
  exact (((sortedVls_perm cl).map (fun p => p.1)).nodup_iff).mpr hvnd

theorem codesOf_fit (cl : List Nat) (h64 : ∀ x ∈ cl, x ≤ 64)
    (hkraft : kraftS (vlsOf cl) ≤ 2 ^ 64) :
    ∀ t ∈ codesOf cl, t.2.1 < 2 ^ t.2.2 := by
  intro t ht
  obtain ⟨_, _, h3, _⟩ := codesOf_spec cl h64
  have hub := (h3 t ht).trans hkraft
  have hl64 : t.2.2 ≤ 64 := (codesOf_vl cl h64 t ht).2.2
  have hw : (2 : Nat) ^ 64 = 2 ^ t.2.2 * 2 ^ (64 - t.2.2) := by
    rw [← pow_add]
    congr 1
    omega
  rw [hw] at hub
  have hup : (t.2.1 + 1) * 2 ^ (64 - t.2.2) ≤ 2 ^ t.2.2 * 2 ^ (64 - t.2.2) := by
    rw [Nat.add_mul, Nat.one_mul]
    exact hub
  have := Nat.le_of_mul_le_mul_right hup (by positivity)
  omega

/-- Prefix-freeness of the canonical code: no codeword's bit path is a
prefix of a different value's bit path. -/
theorem codesOf_incomp (cl : List Nat) (h64 : ∀ x ∈ cl, x ≤ 64)
    (hkraft : kraftS (vlsOf cl) ≤ 2 ^ 64) :
    ∀ t ∈ codesOf cl, ∀ t' ∈ codesOf cl, t.1 ≠ t'.1 →
    ¬ ((pathOf t'.2.1 t'.2.2).take t.2.2 = pathOf t.2.1 t.2.2) := by
  intro t ht t' ht' hne heq
  obtain ⟨_, h2, _, _⟩ := codesOf_spec cl h64
  have hl : t.2.2 ≤ t'.2.2 := by
    have := congrArg List.length heq
    simp at this
    omega
  have hl64 : t'.2.2 ≤ 64 := (codesOf_vl cl h64 t' ht').2.2
  have hfit := codesOf_fit cl h64 hkraft t ht
  have hfit' := codesOf_fit cl h64 hkraft t' ht'
  rw [take_pathOf _ _ _ hl] at heq
  have hshift : t.2.1 = t'.2.1 >>> (t'.2.2 - t.2.2) := by
    refine (pathOf_injective _ _ _ ?_ hfit heq).symm
    have := shiftRight_lt t'.2.1 t'.2.2 (t'.2.2 - t.2.2) hfit' (by omega)
    rw [show t'.2.2 - (t'.2.2 - t.2.2) = t.2.2 from by omega] at this
    exact this
  obtain ⟨hsub1, hsub2⟩ := dyadic_sub t.2.1 t.2.2 t'.2.1 t'.2.2 hl hl64 hshift
  have htne : t ≠ t' := by
    intro h
    rw [h] at hne
    exact hne rfl
  have hpos : 0 < (2 : Nat) ^ (64 - t.2.2) := by positivity
  have hpos' : 0 < (2 : Nat) ^ (64 - t'.2.2) := by positivity
  rcases pairwise_mem_or _ h2 t t' ht ht' htne with h | h
  · omega
  · omega

/-- Completeness of the canonical code (needs Kraft equality): every
one-bit extension of a proper codeword prefix is again the prefix of some
codeword.  This is what makes the decoder's tree full. -/
theorem codesOf_ext (cl : List Nat) (h64 : ∀ x ∈ cl, x ≤ 64)
    (hkraft : kraftS (vlsOf cl) = 2 ^ 64) :
    ∀ t ∈ codesOf cl, ∀ j, j < t.2.2 → ∀ b : Bool,
    ∃ t' ∈ codesOf cl, j + 1 ≤ t'.2.2 ∧
      (pathOf t.2.1 t.2.2).take j ++ [b] = (pathOf t'.2.1 t'.2.2).take (j + 1) := by
  intro t ht j hj b
  obtain ⟨_, _, _, h4⟩ := codesOf_spec cl h64
  have hl64 : t.2.2 ≤ 64 := (codesOf_vl cl h64 t ht).2.2
  have hfit := codesOf_fit cl h64 (le_of_eq hkraft) t ht
  have hcqlt : t.2.1 >>> (t.2.2 - j) < 2 ^ j := by
    have := shiftRight_lt t.2.1 t.2.2 (t.2.2 - j) hfit (by omega)
    rw [show t.2.2 - (t.2.2 - j) = j from by omega] at this
    exact this
  have hclt : 2 * (t.2.1 >>> (t.2.2 - j)) + (if b then 1 else 0) < 2 ^ (j + 1) := by
    rw [pow_succ]
    cases b <;> simp <;> omega
  have hAlt : (2 * (t.2.1 >>> (t.2.2 - j)) + (if b then 1 else 0))
      * 2 ^ (64 - (j + 1)) < 2 ^ 64 := by
    have hup : (2 * (t.2.1 >>> (t.2.2 - j)) + (if b then 1 else 0) + 1)
        * 2 ^ (64 - (j + 1)) ≤ 2 ^ (j + 1) * 2 ^ (64 - (j + 1)) :=
      Nat.mul_le_mul_right _ (by omega)
    have hw : (2 : Nat) ^ (j + 1) * 2 ^ (64 - (j + 1)) = 2 ^ 64 := by
      rw [← pow_add]
      congr 1
      omega
    rw [hw] at hup
    have hpos : 0 < (2 : Nat) ^ (64 - (j + 1)) := by positivity
    calc (2 * (t.2.1 >>> (t.2.2 - j)) + (if b then 1 else 0)) * 2 ^ (64 - (j + 1))
        < (2 * (t.2.1 >>> (t.2.2 - j)) + (if b then 1 else 0) + 1)
            * 2 ^ (64 - (j + 1)) :=
          Nat.mul_lt_mul_of_lt_of_le (by omega) (le_refl _) hpos
      _ ≤ 2 ^ 64 := hup
  obtain ⟨t', ht', hcov1, hcov2⟩ := h4 _ (by rw [hkraft]; exact hAlt)
  have hl64' : t'.2.2 ≤ 64 := (codesOf_vl cl h64 t' ht').2.2
  have hfit' := codesOf_fit cl h64 (le_of_eq hkraft) t' ht'
  by_cases hlen : j + 1 ≤ t'.2.2
  · -- the covering codeword extends q ++ [b]
    refine ⟨t', ht', hlen, ?_⟩
    have hpos : 0 < (2 : Nat) ^ (64 - (j + 1)) := by positivity
    have hshift := dyadic_nested (2 * (t.2.1 >>> (t.2.2 - j)) + (if b then 1 else 0))
      (j + 1) t'.2.1 t'.2.2 _ hlen (le_refl _)
      (Nat.lt_add_of_pos_right (by positivity)) hcov1 hcov2 hl64'
    rw [take_pathOf _ _ _ hlen, ← hshift, pathOf_snoc, take_pathOf _ _ _ (by omega)]
  · -- impossible: the covering codeword would be a strict prefix of `t`
    exfalso
    push_neg at hlen
    have hle : t'.2.2 ≤ j := by omega
    have hshift := dyadic_nested t'.2.1 t'.2.2
      (2 * (t.2.1 >>> (t.2.2 - j)) + (if b then 1 else 0)) (j + 1) _
      (by omega) hcov1 hcov2 (le_refl _)
      (Nat.lt_add_of_pos_right (by positivity)) (by omega)
    -- t' path is a prefix of t's path
    have hne : t'.1 ≠ t.1 := by
      intro h
      have hkey := codesOf_keys_nodup cl h64
      -- same key, distinct lengths is impossible; derive t' = t
      have hvl := codesOf_vl cl h64 t ht
      have hvl' := codesOf_vl cl h64 t' ht'
      have : t'.2.2 = t.2.2 := by
        rw [hvl.2.1, hvl'.2.1, h]
      omega
    refine codesOf_incomp cl h64 (le_of_eq hkraft) t' ht' t ht hne ?_
    -- (pathOf t).take t'.2.2 = pathOf t'
    have hq : pathOf (2 * (t.2.1 >>> (t.2.2 - j)) + (if b then 1 else 0)) (j + 1)
        = (pathOf t.2.1 t.2.2).take j ++ [b] := by
      rw [pathOf_snoc, take_pathOf _ _ _ (by omega)]
    have hp' : pathOf t'.2.1 t'.2.2
        = (pathOf t.2.1 t.2.2).take t'.2.2 := by
      have h1 : pathOf t'.2.1 t'.2.2
          = (pathOf (2 * (t.2.1 >>> (t.2.2 - j)) + (if b then 1 else 0)) (j + 1)).take
              t'.2.2 := by
        rw [take_pathOf _ _ _ (by omega), ← hshift]
      rw [h1, hq, List.take_append_of_le_length (by simp; omega),
        List.take_take]
      congr 1
      omega
    rw [hp']
/-! ### The decoder's trie -/

/-- Follow a bit path down the trie (`0` = first child). -/
def follow : TNode → List Bool → Option TNode
  | t, [] => some t
  | t, b :: bs =>
    match t.child (if b then 1 else 0) with
    | none => none
    | some c => follow c bs

/-- A leaf of the trie holding symbol `v`. -/
def isLeafV (t : TNode) (v : Nat) : Prop :=
  t.c0 = none ∧ t.c1 = none ∧ t.value = v

theorem follow_cons (t : TNode) (b : Bool) (bs : List Bool) :
    follow t (b :: bs)
      = match t.child (if b then 1 else 0) with
        | none => none
        | some c => follow c bs := rfl

theorem child_mk (c0 c1 : Option TNode) (v : Nat) (b : Bool) :
    (TNode.mk c0 c1 v).child (if b then 1 else 0)
      = if b then c1 else c0 := by
  cases b <;> rfl

/-- The fresh chain ends in a leaf carrying the symbol. -/
theorem follow_freshChain :
    ∀ (len code bn : Nat),
    ∃ u, follow (freshChain code len bn) (lowBits code len) = some u
      ∧ isLeafV u bn := by
  intro len
  induction len with
  | zero =>
      intro code bn
      exact ⟨.mk none none bn, rfl, rfl, rfl, rfl⟩
  | succ len ih =>
      intro code bn
      obtain ⟨u, hu, hleaf⟩ := ih (code / 2) bn
      by_cases hp : code % 2 = 0
      · refine ⟨u, ?_, hleaf⟩
        rw [freshChain, if_pos hp, lowBits_succ, follow_cons]
        have hb : (code % 2 == 1) = false := by
          rw [hp]
          rfl
        rw [hb, child_mk]
        rw [if_neg (by simp)]
        exact hu
      · refine ⟨u, ?_, hleaf⟩
        rw [freshChain, if_neg hp, lowBits_succ, follow_cons]
        have hb : (code % 2 == 1) = true := by
          have h0 : code % 2 = 1 := by omega
          rw [h0]
          rfl
        rw [hb, child_mk, if_pos rfl]
        exact hu

/-- Everything reachable in a fresh chain lies on the chain's path. -/
theorem follow_freshChain_sub :
    ∀ (len code bn : Nat) (q : List Bool),
    follow (freshChain code len bn) q ≠ none →
    q = (lowBits code len).take q.length := by
  intro len
  induction len with
  | zero =>
      intro code bn q hq
      cases q with
      | nil => rfl
      | cons b q' =>
          exfalso
          apply hq
          rw [freshChain, follow_cons, child_mk]
          cases b <;> rfl
  | succ len ih =>
      intro code bn q hq
      cases q with
      | nil => rfl
      | cons b q' =>
          rw [lowBits_succ, List.length_cons, List.take_succ_cons]
          by_cases hp : code % 2 = 0
          · rw [freshChain, if_pos hp, follow_cons, child_mk] at hq
            cases b with
            | true =>
                exfalso
                apply hq
                rw [if_pos rfl]
            | false =>
                rw [if_neg (by simp)] at hq
                have hb : (code % 2 == 1) = false := by
                  rw [hp]
                  rfl
                rw [hb]
                rw [← ih (code / 2) bn q' hq]
          · rw [freshChain, if_neg hp, follow_cons, child_mk] at hq
            cases b with
            | false =>
                exfalso
                apply hq
                rw [if_neg (by simp)]
            | true =>
                rw [if_pos rfl] at hq
                have hb : (code % 2 == 1) = true := by
                  have h1 : code % 2 = 1 := by omega
                  rw [h1]
                  rfl
                rw [hb]
                rw [← ih (code / 2) bn q' hq]

/-- Inserting a codeword whose walk stops inside the trie creates a leaf
holding the symbol at the end of its path. -/
theorem follow_insertGo_self :
    ∀ (len : Nat) (T : TNode) (code bn : Nat),
    follow T (lowBits code len) = none →
    ∃ u, follow (insertGo T code len bn) (lowBits code len) = some u
      ∧ isLeafV u bn := by
  intro len
  induction len with
  | zero =>
      intro T code bn hstop
      rw [lowBits_zero] at hstop
      exact absurd hstop (by rw [follow]; simp)
  | succ m ih =>
      intro T code bn hstop
      rcases T with ⟨c0, c1, val⟩
      by_cases hp : code % 2 = 0
      · have hb : (code % 2 == 1) = false := by
          rw [hp]
          rfl
        rw [lowBits_succ, hb] at hstop ⊢
        rcases c0 with _ | c
        · rw [insertGo.eq_def]
          dsimp only
          rw [if_pos hp, if_neg (Nat.succ_ne_zero m)]
          simp only [Nat.add_sub_cancel]
          rw [follow_cons, child_mk, if_neg (by simp)]
          exact follow_freshChain m (code / 2) bn
        · rw [follow_cons, child_mk, if_neg (by simp)] at hstop
          rw [insertGo.eq_def]
          dsimp only
          rw [if_pos hp]
          simp only [Nat.add_sub_cancel]
          obtain ⟨u, hu, hleaf⟩ := ih c (code / 2) bn hstop
          refine ⟨u, ?_, hleaf⟩
          rw [follow_cons, child_mk, if_neg (by simp)]
          exact hu
      · have hb : (code % 2 == 1) = true := by
          have h1 : code % 2 = 1 := by omega
          rw [h1]
          rfl
        rw [lowBits_succ, hb] at hstop ⊢
        rcases c1 with _ | c
        · rw [insertGo.eq_def]
          dsimp only
          rw [if_neg hp, if_neg (Nat.succ_ne_zero m)]
          simp only [Nat.add_sub_cancel]
          rw [follow_cons, child_mk, if_pos rfl]
          exact follow_freshChain m (code / 2) bn
        · rw [follow_cons, child_mk, if_pos rfl] at hstop
          rw [insertGo.eq_def]
          dsimp only
          rw [if_neg hp]
          simp only [Nat.add_sub_cancel]
          obtain ⟨u, hu, hleaf⟩ := ih c (code / 2) bn hstop
          refine ⟨u, ?_, hleaf⟩
          rw [follow_cons, child_mk, if_pos rfl]
          exact hu

/-- Anything reachable after an insertion was reachable before or lies on
the inserted path. -/
theorem follow_insertGo_reach :
    ∀ (len : Nat) (T : TNode) (code bn : Nat) (q : List Bool),
    follow T (lowBits code len) = none →
    follow (insertGo T code len bn) q ≠ none →
    follow T q ≠ none ∨ q = (lowBits code len).take q.length := by
  intro len
  induction len with
  | zero =>
      intro T code bn q hstop
      rw [lowBits_zero] at hstop
      exact absurd hstop (by rw [follow]; simp)
  | succ m ih =>
      intro T code bn q hstop hq
      rcases T with ⟨c0, c1, val⟩
      cases q with
      | nil =>
          left
          rw [follow]
          simp
      | cons b q' =>
          by_cases hp : code % 2 = 0
          · have hb : (code % 2 == 1) = false := by
              rw [hp]
              rfl
            rw [lowBits_succ, hb] at hstop ⊢
            rw [insertGo.eq_def] at hq
            dsimp only at hq
            rw [if_pos hp] at hq
            cases b with
            | true =>
                left
                rcases c0 with _ | c
                · rw [if_neg (Nat.succ_ne_zero m)] at hq
                  rw [follow_cons, child_mk, if_pos rfl] at hq ⊢
                  exact hq
                · rw [follow_cons, child_mk, if_pos rfl] at hq ⊢
                  exact hq
            | false =>
                rw [List.length_cons, List.take_succ_cons]
                rcases c0 with _ | c
                · rw [if_neg (Nat.succ_ne_zero m)] at hq
                  simp only [Nat.add_sub_cancel] at hq
                  rw [follow_cons, child_mk, if_neg (by simp)] at hq
                  right
                  rw [← follow_freshChain_sub m (code / 2) bn q' hq]
                · simp only [Nat.add_sub_cancel] at hq
                  rw [follow_cons, child_mk, if_neg (by simp)] at hq hstop ⊢
                  rcases ih c (code / 2) bn q' hstop hq with h | h
                  · exact Or.inl h
                  · right
                    rw [← h]
          · have hb : (code % 2 == 1) = true := by
              have h1 : code % 2 = 1 := by omega
              rw [h1]
              rfl
            rw [lowBits_succ, hb] at hstop ⊢
            rw [insertGo.eq_def] at hq
            dsimp only at hq
            rw [if_neg hp] at hq
            cases b with
            | false =>
                left
                rcases c1 with _ | c
                · rw [if_neg (Nat.succ_ne_zero m)] at hq
                  rw [follow_cons, child_mk, if_neg (by simp)] at hq ⊢
                  exact hq
                · rw [follow_cons, child_mk, if_neg (by simp)] at hq ⊢
                  exact hq
            | true =>
                rw [List.length_cons, List.take_succ_cons]
                rcases c1 with _ | c
                · rw [if_neg (Nat.succ_ne_zero m)] at hq
                  simp only [Nat.add_sub_cancel] at hq
                  rw [follow_cons, child_mk, if_pos rfl] at hq
                  right
                  rw [← follow_freshChain_sub m (code / 2) bn q' hq]
                · simp only [Nat.add_sub_cancel] at hq
                  rw [follow_cons, child_mk, if_pos rfl] at hq hstop ⊢
                  rcases ih c (code / 2) bn q' hstop hq with h | h
                  · exact Or.inl h
                  · right
                    rw [← h]

/-! ## Claim C8: the empty set -/

/-- **C8.** Compressing the empty set produces exactly the single byte
`0x00` (the uvarint encoding of 0) with no endmarker, and `Decompress`
applied to that byte stream returns the empty slice with no error. -/
theorem c8_empty_set :
    CompressSorted [] = some [0x00]
    ∧ Compress [] = ([], some [0x00])
    ∧ Decompress [0x00] = .ok [] := by
  refine ⟨by decide, by decide, by rfl⟩

/-! ## Claim C9: the singleton set `{2^64 - 1}` -/

/-- **C9.** Compressing `{2^64 - 1}` emits `uvarint(1)` followed by
`uvarint(2^64 - 1)` — the 11 bytes `01 FF FF FF FF FF FF FF FF FF 01` —
with no endmarker, and `Decompress` of those bytes yields `[2^64 - 1]`. -/
theorem c9_singleton_max :
    CompressSorted [2 ^ 64 - 1]
      = some ([0x01] ++ uvarintBytes 10 (2 ^ 64 - 1))
    ∧ uvarintBytes 10 (2 ^ 64 - 1)
      = [0xff, 0xff, 0xff, 0xff, 0xff, 0xff, 0xff, 0xff, 0xff, 0x01]
    ∧ ((CompressSorted [2 ^ 64 - 1]).getD []).length = 11
    ∧ Decompress [0x01, 0xff, 0xff, 0xff, 0xff, 0xff, 0xff, 0xff, 0xff, 0xff, 0x01]
      = .ok [2 ^ 64 - 1] := by
  refine ⟨by decide, by decide, by decide, by rfl⟩

/-! ## Claim C3: uvarint overflow is not reported -/

/-- **C3 (code bug).** On a stream whose uvarint encoding reaches a 10th
group with value greater than 1 — here `80 80 80 80 80 80 80 80 80 02` —
`ReadUvarint` returns 0 as the claim states, but the sticky error stays
`nil`: the guard `if r.err != nil` in the Go source only installs the
`"Uvarint overflow"` error when some *other* error is already recorded, so
`Err()` reports success. -/
theorem c3_uvarint_overflow_err_is_nil :
    ((newBitReader [0x80, 0x80, 0x80, 0x80, 0x80, 0x80, 0x80, 0x80, 0x80, 0x02]).ReadUvarint).1 = 0
    ∧ ((newBitReader [0x80, 0x80, 0x80, 0x80, 0x80, 0x80, 0x80, 0x80, 0x80, 0x02]).ReadUvarint).2.err
      = none := by
  refine ⟨by decide, by decide⟩

/-! ## Claim C10: `Compress` sorts its argument in place -/

/-- **C10.** `Compress` hands its argument to `slices.Sort` before
encoding: afterwards the caller's slice is the ascending reordering of what
was passed in, and for unsorted inputs the original order is gone. -/
theorem c10_compress_mutates_argument (set : List Nat) :
    (Compress set).1 = List.insertionSort (· ≤ ·) set
    ∧ List.Sorted (· ≤ ·) (Compress set).1
    ∧ ((Compress set).1).Perm set
    ∧ ∃ s : List Nat, (Compress s).1 ≠ s := by
  refine ⟨rfl, ?_, ?_, ⟨[3, 1], by decide⟩⟩
  · exact List.sorted_insertionSort (· ≤ ·) set
  · exact List.perm_insertionSort (· ≤ ·) set

end Ncrlite
